import Mathlib

/-!
# A verification model of the `pycfg` typed configuration library

This file gives a shallow embedding, in Lean 4, of the core of the `pycfg`
library (`src/pycfg/cfg.py` and `src/pycfg/options.py`): Python strings are
`List Char`, Python values are the inductive `PyVal`, Python exceptions are the
inductive `PyErr`, fallible Python code returns `Except PyErr _`, and the
mutable `ConfigFile`/`Section`/`Option` object graph is explicit state passing
over `CfgSt`.  The theorems at the end of the file settle the specification
claims about option parsing, serialization round-trips, value setting, derived
options, option collections and the read/set/re-read lifecycle.

Modelling notes (stdlib collaborators):
* `configparser`'s raw model is an ordered association list of sections, each
  an ordered association list of `key ↦ raw string`; `read_file` merges new
  data into the existing parser state (it never clears it), `parser.set`
  overwrites in place, and `parser.get` raises `NoSectionError`/`NoOptionError`.
  The reserved `DEFAULT` section is assumed empty and is not modelled.
* Python `str.lower`/`str.strip` are modelled on ASCII (all empty tokens and
  file contents relevant to the claims are ASCII).
* `float` values are idealized as exact rationals: `float(string)` yields the
  exact decimal value of the accepted literal (every IEEE-754 binary64 value
  is such a rational, so the domain covers all floats), and `repr` renders
  the decimal digits with CPython's placement rules; `inf`/`nan` and binary
  rounding are outside the model.  `Decimal` values carry sign, coefficient
  digits and exponent, with `Decimal(string)` and `str(Decimal)` following
  CPython's `_pydecimal`.
-/

namespace PyCfg

/-! ## Python strings -/

/-- A Python `str`, modelled as its list of characters. -/
abbrev PyStr := List Char

/-- Characters stripped by Python's `str.strip()` (ASCII whitespace). -/
def isPySpace (c : Char) : Bool :=
  c == ' ' || c == '\t' || c == '\n' || c == '\r' || c == '\x0b' || c == '\x0c'

/-- ASCII uppercase letters `A`–`Z`. -/
def isAsciiUpper (c : Char) : Bool :=
  65 ≤ c.toNat && c.toNat ≤ 90

/-- ASCII decimal digits `0`–`9`. -/
def isDigitChar (c : Char) : Bool :=
  48 ≤ c.toNat && c.toNat ≤ 57

/-- Python's `str.lower()` on a single character (ASCII model). -/
def pyLowerChar (c : Char) : Char :=
  if isAsciiUpper c then Char.ofNat (c.toNat + 32) else c

/-- Python's `str.lower()`. -/
def pyLower (s : PyStr) : PyStr := s.map pyLowerChar

/-- Python's `raw.replace('\n', ' ')` (substring replacement of the one-char
substring `"\n"`, i.e. a character map). -/
def pyReplaceNL (s : PyStr) : PyStr :=
  s.map fun c => if c = '\n' then ' ' else c

/-- Python's `str.strip()`. -/
def pyStrip (s : PyStr) : PyStr :=
  ((s.dropWhile isPySpace).reverse.dropWhile isPySpace).reverse

theorem charToNat_ofNat {n : Nat} (h : n < 55296) : (Char.ofNat n).toNat = n := by
  have hv : Nat.isValidChar n := Or.inl h
  rw [Char.ofNat, dif_pos hv]
  rfl

/-- Lowercasing never produces an ASCII uppercase letter. -/
theorem isAsciiUpper_pyLowerChar (c : Char) : isAsciiUpper (pyLowerChar c) = false := by
  unfold pyLowerChar
  by_cases h : isAsciiUpper c = true
  · have hb : 65 ≤ c.toNat ∧ c.toNat ≤ 90 := by
      simpa [isAsciiUpper, Bool.and_eq_true, decide_eq_true_eq] using h
    rw [if_pos h]
    have ht : (Char.ofNat (c.toNat + 32)).toNat = c.toNat + 32 :=
      charToNat_ofNat (by omega)
    have hnot : ¬ (c.toNat + 32 ≤ 90) := by omega
    simp [isAsciiUpper, ht, hnot]
  · rw [if_neg h]
    exact Bool.eq_false_iff.mpr h

/-- A lowercased string contains no ASCII uppercase letter, hence can never be
equal to a string that contains one. -/
theorem pyLower_ne_of_hasUpper {t : PyStr} (h : t.any isAsciiUpper = true) :
    ∀ s : PyStr, pyLower s ≠ t := by
  intro s heq
  rcases List.any_eq_true.mp h with ⟨c, hc, hupper⟩
  rw [← heq] at hc
  rcases List.mem_map.mp hc with ⟨c₀, _, rfl⟩
  rw [isAsciiUpper_pyLowerChar] at hupper
  exact Bool.false_ne_true hupper

/-! ## Decimal numerals: Python `str(int)` and `int(str)` -/

/-- The character of the decimal digit `d`. -/
def digitChar (d : Nat) : Char := Char.ofNat (48 + d)

/-- Decimal digit characters of a positive natural (empty for zero).  Fuel
recursion: `n` itself is sufficient fuel since `n / 10 < n` for `n ≠ 0`. -/
def natToCharsAux : Nat → Nat → PyStr
  | 0, _ => []
  | fuel + 1, n => if n = 0 then [] else natToCharsAux fuel (n / 10) ++ [digitChar (n % 10)]

def natToChars (n : Nat) : PyStr := natToCharsAux n n

/-- Python's `str(n)` for a natural number. -/
def pyNatRepr (n : Nat) : PyStr := if n = 0 then ['0'] else natToChars n

/-- Python's `str(i)` for an `int`. -/
def pyIntRepr (i : Int) : PyStr :=
  if i < 0 then '-' :: pyNatRepr i.natAbs else pyNatRepr i.natAbs

/-- Numeric value of a digit string (fold, most-significant first). -/
def charsToNat (s : PyStr) : Nat :=
  s.foldl (fun a c => 10 * a + (c.toNat - 48)) 0

/-- Parse a non-empty all-digit string; part of the model of Python `int()`. -/
def parseNatDigits (s : PyStr) : Option Nat :=
  if !s.isEmpty && s.all isDigitChar then some (charsToNat s) else none

/-- Python's `int(string)` (model: optional sign then digits; the underscore
and whitespace tolerance of CPython's parser is irrelevant on every input the
claims exercise). -/
def pyParseInt (s : PyStr) : Option Int :=
  match s with
  | [] => Option.none
  | c :: t =>
    if c = '-' then (parseNatDigits t).map (fun m => -(m : Int))
    else if c = '+' then (parseNatDigits t).map (fun m => (m : Int))
    else (parseNatDigits (c :: t)).map (fun m => (m : Int))

theorem natToCharsAux_congr :
    ∀ f g n : Nat, n ≤ f → n ≤ g → natToCharsAux f n = natToCharsAux g n := by
  intro f
  induction f with
  | zero =>
    intro g n hf _
    interval_cases n
    cases g <;> simp [natToCharsAux]
  | succ f ih =>
    intro g n hf hg
    by_cases hn : n = 0
    · subst hn
      cases g <;> simp [natToCharsAux]
    · have hg1 : 1 ≤ g := by omega
      obtain ⟨g', rfl⟩ : ∃ g', g = g' + 1 := ⟨g - 1, by omega⟩
      have hdiv : n / 10 < n := Nat.div_lt_self (by omega) (by omega)
      simp only [natToCharsAux, if_neg hn]
      rw [ih g' (n / 10) (by omega) (by omega)]

theorem natToChars_step {n : Nat} (hn : n ≠ 0) :
    natToChars n = natToChars (n / 10) ++ [digitChar (n % 10)] := by
  obtain ⟨m, rfl⟩ : ∃ m, n = m + 1 := ⟨n - 1, by omega⟩
  show natToCharsAux (m + 1) (m + 1) = _
  simp only [natToCharsAux, if_neg hn]
  rw [natToCharsAux_congr m ((m + 1) / 10) ((m + 1) / 10) (by omega) (le_refl _)]
  rfl

theorem toNat_digitChar {d : Nat} (h : d < 10) : (digitChar d).toNat = 48 + d :=
  charToNat_ofNat (by omega)

theorem isDigitChar_digitChar {d : Nat} (h : d < 10) : isDigitChar (digitChar d) = true := by
  simp only [isDigitChar, toNat_digitChar h, Bool.and_eq_true, decide_eq_true_eq]
  omega

theorem natToChars_all_digits (n : Nat) : ∀ c ∈ natToChars n, isDigitChar c = true := by
  induction n using Nat.strong_induction_on with
  | _ n ih =>
    by_cases hn : n = 0
    · subst hn; intro c hc; simp [natToChars, natToCharsAux] at hc
    · rw [natToChars_step hn]
      intro c hc
      rcases List.mem_append.mp hc with h | h
      · exact ih (n / 10) (Nat.div_lt_self (by omega) (by omega)) c h
      · rcases List.mem_singleton.mp h with rfl
        exact isDigitChar_digitChar (Nat.mod_lt _ (by omega))

theorem natToChars_ne_nil {n : Nat} (hn : n ≠ 0) : natToChars n ≠ [] := by
  rw [natToChars_step hn]
  simp

theorem pyNatRepr_ne_nil (n : Nat) : pyNatRepr n ≠ [] := by
  unfold pyNatRepr
  by_cases hn : n = 0
  · simp [hn]
  · simpa [hn] using natToChars_ne_nil hn

theorem pyNatRepr_all_digits (n : Nat) : ∀ c ∈ pyNatRepr n, isDigitChar c = true := by
  intro c hc
  unfold pyNatRepr at hc
  by_cases hn : n = 0
  · rw [if_pos hn] at hc
    rcases List.mem_singleton.mp hc with rfl
    decide
  · rw [if_neg hn] at hc
    exact natToChars_all_digits n c hc

theorem foldl_natToChars (n : Nat) :
    ∀ acc : Nat,
      List.foldl (fun a c => 10 * a + (c.toNat - 48)) acc (natToChars n)
        = acc * 10 ^ (natToChars n).length + n := by
  induction n using Nat.strong_induction_on with
  | _ n ih =>
    intro acc
    by_cases hn : n = 0
    · subst hn; simp [natToChars, natToCharsAux]
    · rw [natToChars_step hn]
      rw [List.foldl_append, ih (n / 10) (Nat.div_lt_self (by omega) (by omega)) acc]
      simp only [List.foldl_cons, List.foldl_nil, List.length_append, List.length_singleton]
      rw [toNat_digitChar (Nat.mod_lt _ (by omega))]
      have : 48 + n % 10 - 48 = n % 10 := by omega
      rw [this, pow_succ]
      have hdm : 10 * (n / 10) + n % 10 = n := Nat.div_add_mod n 10
      ring_nf
      omega

theorem charsToNat_natToChars (n : Nat) : charsToNat (natToChars n) = n := by
  unfold charsToNat
  rw [foldl_natToChars n 0]
  simp

theorem parseNatDigits_pyNatRepr (n : Nat) : parseNatDigits (pyNatRepr n) = some n := by
  unfold parseNatDigits
  rw [if_pos]
  · congr 1
    unfold pyNatRepr
    by_cases hn : n = 0
    · simp [hn, charsToNat]
    · simp only [hn, if_neg hn, ite_false]
      exact charsToNat_natToChars n
  · rw [Bool.and_eq_true, List.all_eq_true]
    refine ⟨?_, fun c hc => pyNatRepr_all_digits n c hc⟩
    rcases h : pyNatRepr n with _ | ⟨c, t⟩
    · exact absurd h (pyNatRepr_ne_nil n)
    · rfl

theorem not_digit_dash : isDigitChar '-' = false := by decide

theorem not_digit_plus : isDigitChar '+' = false := by decide

theorem length_natToChars_le {n k : Nat} (h : n < 10 ^ k) : (natToChars n).length ≤ k := by
  induction n using Nat.strong_induction_on generalizing k with
  | _ n ih =>
    by_cases hn : n = 0
    · subst hn; simp [natToChars, natToCharsAux]
    · rw [natToChars_step hn]
      have hk : k ≠ 0 := by
        rintro rfl
        simp only [pow_zero] at h
        omega
      obtain ⟨k', rfl⟩ : ∃ k', k = k' + 1 := ⟨k - 1, by omega⟩
      have hdiv : n / 10 < 10 ^ k' := by
        rw [Nat.div_lt_iff_lt_mul (by omega)]
        calc n < 10 ^ (k' + 1) := h
        _ = 10 ^ k' * 10 := by ring
      simp only [List.length_append, List.length_singleton]
      have := ih (n / 10) (Nat.div_lt_self (by omega) (by omega)) hdiv
      omega

/-- Round trip for naturals: Python `int(str(n)) == n`. -/
theorem pyParseNat_roundtrip (n : Nat) : pyParseInt (pyNatRepr n) = some (n : Int) := by
  obtain ⟨c, t, hct⟩ : ∃ c t, pyNatRepr n = c :: t := by
    rcases h : pyNatRepr n with _ | ⟨c, t⟩
    · exact absurd h (pyNatRepr_ne_nil n)
    · exact ⟨c, t, rfl⟩
  have hdig : isDigitChar c = true := pyNatRepr_all_digits n c (by rw [hct]; simp)
  have hc1 : c ≠ '-' := by rintro rfl; rw [not_digit_dash] at hdig; exact Bool.false_ne_true hdig
  have hc2 : c ≠ '+' := by rintro rfl; rw [not_digit_plus] at hdig; exact Bool.false_ne_true hdig
  rw [hct]
  simp only [pyParseInt, if_neg hc1, if_neg hc2]
  rw [← hct, parseNatDigits_pyNatRepr]
  rfl

/-- Round trip for integers: Python `int(str(i)) == i`. -/
theorem pyParseInt_roundtrip (i : Int) : pyParseInt (pyIntRepr i) = some i := by
  unfold pyIntRepr
  by_cases hneg : i < 0
  · rw [if_pos hneg]
    have hstep : pyParseInt ('-' :: pyNatRepr i.natAbs)
        = (parseNatDigits (pyNatRepr i.natAbs)).map (fun m => -(m : Int)) := rfl
    rw [hstep, parseNatDigits_pyNatRepr]
    show some (-((i.natAbs : Nat) : Int)) = some i
    refine congrArg some ?_
    omega
  · rw [if_neg hneg]
    rw [pyParseNat_roundtrip]
    congr 1
    omega

/-! ## Python `str.split` and `str.join` -/

/-- First occurrence of (non-empty) `sep` in `s`: returns the part before and
the part after. -/
def sepFind (sep : PyStr) : PyStr → Option (PyStr × PyStr)
  | [] => Option.none
  | c :: t =>
    if sep.isPrefixOf (c :: t) then some ([], (c :: t).drop sep.length)
    else (sepFind sep t).map fun p => (c :: p.1, p.2)

def pySplitAux (sep : PyStr) : Nat → PyStr → List PyStr
  | 0, s => [s]
  | fuel + 1, s =>
    match sepFind sep s with
    | Option.none => [s]
    | some (a, b) => a :: pySplitAux sep fuel b

/-- Python's `s.split(sep)` for non-empty `sep`: split on each non-overlapping
occurrence, left to right.  `s.length + 1` is sufficient fuel. -/
def pySplit (sep s : PyStr) : List PyStr := pySplitAux sep (s.length + 1) s

/-- Python's `sep.join(xs)`. -/
def pyJoin (sep : PyStr) : List PyStr → PyStr
  | [] => []
  | [x] => x
  | x :: y :: rest => x ++ sep ++ pyJoin sep (y :: rest)

theorem sepFind_none {c₀ : Char} {sep₁ : PyStr} :
    ∀ {s : PyStr}, c₀ ∉ s → sepFind (c₀ :: sep₁) s = Option.none := by
  intro s
  induction s with
  | nil => intro _; rfl
  | cons c t ih =>
    intro h
    have hc : c₀ ≠ c := fun he => h (he ▸ List.mem_cons_self c t)
    have hpre : (c₀ :: sep₁).isPrefixOf (c :: t) = false := by
      simp only [List.isPrefixOf, Bool.and_eq_false_iff]
      exact Or.inl (by simpa using hc)
    simp only [sepFind, hpre, Bool.false_eq_true, if_false]
    rw [ih fun hm => h (List.mem_cons_of_mem c hm)]
    rfl

theorem sepFind_append {c₀ : Char} {sep₁ : PyStr} :
    ∀ {p : PyStr} (b : PyStr), c₀ ∉ p →
      sepFind (c₀ :: sep₁) (p ++ (c₀ :: sep₁) ++ b) = some (p, b) := by
  intro p
  induction p with
  | nil =>
    intro b _
    have hpre : (c₀ :: sep₁).isPrefixOf ((c₀ :: sep₁) ++ b) = true := by
      rw [ List.isPrefixOf_iff_prefix]
      exact ⟨b, rfl⟩
    rcases hs : (c₀ :: sep₁) ++ b with _ | ⟨c, t⟩
    · simp at hs
    · rw [List.nil_append, hs]
      simp only [sepFind, ← hs, hpre, if_pos]
      rw [List.drop_left]
  | cons c p' ih =>
    intro b h
    have hc : c₀ ≠ c := fun he => h (he ▸ List.mem_cons_self c p')
    have hpre : (c₀ :: sep₁).isPrefixOf (c :: (p' ++ (c₀ :: sep₁) ++ b)) = false := by
      simp only [List.isPrefixOf, Bool.and_eq_false_iff]
      exact Or.inl (by simpa using hc)
    show sepFind (c₀ :: sep₁) (c :: (p' ++ (c₀ :: sep₁) ++ b)) = _
    simp only [sepFind, hpre, Bool.false_eq_true, if_false]
    rw [ih b fun hm => h (List.mem_cons_of_mem c hm)]
    rfl

theorem pySplitAux_join {c₀ : Char} {sep₁ : PyStr} :
    ∀ (fuel : Nat) (pieces : List PyStr), pieces ≠ [] →
      (∀ p ∈ pieces, c₀ ∉ p) →
      (pyJoin (c₀ :: sep₁) pieces).length < fuel →
      pySplitAux (c₀ :: sep₁) fuel (pyJoin (c₀ :: sep₁) pieces) = pieces := by
  intro fuel
  induction fuel with
  | zero => intro pieces _ _ h; omega
  | succ fuel ih =>
    intro pieces hne hmem hlen
    match pieces with
    | [p] =>
      show pySplitAux _ (fuel + 1) (pyJoin _ [p]) = [p]
      simp only [pyJoin, pySplitAux]
      rw [sepFind_none (hmem p (List.mem_singleton.mpr rfl))]
    | p :: q :: rest =>
      have hj : pyJoin (c₀ :: sep₁) (p :: q :: rest)
          = p ++ (c₀ :: sep₁) ++ pyJoin (c₀ :: sep₁) (q :: rest) := rfl
      have hstep : pySplitAux (c₀ :: sep₁) (fuel + 1) (pyJoin (c₀ :: sep₁) (p :: q :: rest))
          = p :: pySplitAux (c₀ :: sep₁) fuel (pyJoin (c₀ :: sep₁) (q :: rest)) := by
        simp only [pySplitAux, hj]
        rw [sepFind_append _ (hmem p (List.mem_cons_self _ _))]
      rw [hstep]
      have hlen' : (pyJoin (c₀ :: sep₁) (q :: rest)).length < fuel := by
        rw [hj] at hlen
        simp only [List.length_append, List.length_cons] at hlen
        omega
      rw [ih (q :: rest) (by simp) (fun x hx => hmem x (List.mem_cons_of_mem p hx)) hlen']

/-- Round trip: splitting a join recovers the pieces, whenever no piece
contains the first character of the separator. -/
theorem pySplit_join {c₀ : Char} {sep₁ : PyStr} {pieces : List PyStr}
    (hne : pieces ≠ []) (hmem : ∀ p ∈ pieces, c₀ ∉ p) :
    pySplit (c₀ :: sep₁) (pyJoin (c₀ :: sep₁) pieces) = pieces :=
  pySplitAux_join _ pieces hne hmem (by omega)

/-! ## Numeric literals, `repr(float)` and `str(Decimal)` -/

/-- Longest digit prefix of a string and the remainder. -/
def takeDigits : PyStr → PyStr × PyStr
  | [] => ([], [])
  | c :: t =>
    if isDigitChar c then
      let (a, b) := takeDigits t
      (c :: a, b)
    else ([], c :: t)

/-- An optional leading `'-'`/`'+'` sign. -/
def numSign : PyStr → Bool × PyStr
  | [] => (false, [])
  | c :: t => if c = '-' then (true, t) else if c = '+' then (false, t) else (false, c :: t)

/-- The exponent that follows `'e'`/`'E'` in a numeric literal: optional sign,
then one or more digits and nothing else. -/
def numExp (s : PyStr) : Option Int :=
  if (takeDigits (numSign s).2).1.isEmpty || !(takeDigits (numSign s).2).2.isEmpty then
    Option.none
  else if (numSign s).1 then some (-(charsToNat (takeDigits (numSign s).2).1 : Int))
  else some ((charsToNat (takeDigits (numSign s).2).1 : Int))

/-- Continue a numeric literal after the integer digits and a `'.'`:
`fds`/`r₂` are the digit group after the point and the remainder. -/
def numLitFrac (neg : Bool) (ids fds r₂ : PyStr) : Option (Bool × PyStr × PyStr × Int) :=
  if ids.isEmpty && fds.isEmpty then Option.none
  else
    match r₂ with
    | [] => some (neg, ids, fds, 0)
    | c₂ :: t₂ =>
      if c₂ = 'e' ∨ c₂ = 'E' then
        match numExp t₂ with
        | some ex => some (neg, ids, fds, ex)
        | Option.none => Option.none
      else Option.none

/-- Continue a numeric literal after the integer digit group `ids`: the
remainder `r₁` may hold a fraction and/or an exponent. -/
def numLitRest (neg : Bool) (ids r₁ : PyStr) : Option (Bool × PyStr × PyStr × Int) :=
  match r₁ with
  | [] => if ids.isEmpty then Option.none else some (neg, ids, [], 0)
  | c :: t =>
    if c = '.' then
      numLitFrac neg ids (takeDigits t).1 (takeDigits t).2
    else if c = 'e' ∨ c = 'E' then
      if ids.isEmpty then Option.none
      else
        match numExp t with
        | some ex => some (neg, ids, [], ex)
        | Option.none => Option.none
    else Option.none

/-- Split a decimal numeric literal `[sign] digits ['.' digits] [('e'|'E')
[sign] digits]` (at least one digit before or after the point) into sign,
integer digits, fraction digits and exponent; `none` when the text is not of
this shape.  The literal's value is `± digits(ids ++ fds) · 10^(ex − |fds|)`.
This is the finite-literal core shared by CPython's `float()` and
`Decimal()` parsers. -/
def numLitSplit (s : PyStr) : Option (Bool × PyStr × PyStr × Int) :=
  numLitRest (numSign s).1 (takeDigits (numSign s).2).1 (takeDigits (numSign s).2).2

/-- Least `j ≤ fuel` (counting up from `k`) with `q·10^j` integral. -/
def decFindAux (q : ℚ) : Nat → Nat → Option Nat
  | 0, _ => Option.none
  | fuel + 1, k => if (q * (10 : ℚ) ^ k).den = 1 then some k else decFindAux q fuel (k + 1)

/-- Decompose a rational into a sign, its decimal digit characters (trailing
zeros stripped) and a power-of-ten exponent, so that `q = ± digits · 10^e`.
Succeeds exactly on rationals with a finite decimal expansion of scale at
most 1200 — a superset of the IEEE-754 binary64 values, whose scale is at
most 1074. -/
def decExtract (q : ℚ) : Option (Bool × PyStr × Int) :=
  match decFindAux q 1200 0 with
  | Option.none => Option.none
  | some k =>
    let m := (q * (10 : ℚ) ^ k).num
    if m = 0 then some (false, ['0'], 0)
    else
      let cs := natToChars m.natAbs
      let r := (cs.reverse.dropWhile fun c => c = '0').reverse
      some (decide (m < 0), r, ((cs.length - r.length : Nat) : Int) - (k : Int))

/-- `%+d` rendering: explicit sign, no zero padding (the exponent format of
`Decimal.__str__`). -/
def expSignD (k : Int) : PyStr :=
  (if k < 0 then '-' else '+') :: pyNatRepr k.natAbs

/-- The exponent rendering of `float.__repr__`: explicit sign, at least two
digits (`1e-05`, `1e+16`). -/
def expSign2 (k : Int) : PyStr :=
  (if k < 0 then '-' else '+')
    :: (List.replicate (2 - (pyNatRepr k.natAbs).length) '0' ++ pyNatRepr k.natAbs)

/-- The digit-and-point placement of `float.__repr__` (the `'r'` format of
`PyOS_double_to_string`): given the shortest digit string `cs` and exponent
`e` with `|x| = digits(cs)·10^e`, positional notation when the decimal point
position `e + |cs|` lies in `(-4, 16]`, scientific notation otherwise. -/
def floatReprBody (cs : PyStr) (e : Int) : PyStr :=
  if -4 < e + (cs.length : Int) ∧ e + (cs.length : Int) ≤ 16 then
    if e + (cs.length : Int) ≤ 0 then
      '0' :: '.' :: (List.replicate (-(e + (cs.length : Int))).toNat '0' ++ cs)
    else if e < 0 then
      cs.take (e + (cs.length : Int)).toNat ++ '.' :: cs.drop (e + (cs.length : Int)).toNat
    else
      (cs ++ List.replicate e.toNat '0') ++ '.' :: ['0']
  else
    match cs with
    | [] => "0.0".data
    | [c] => c :: 'e' :: expSign2 e
    | c :: rest => c :: '.' :: (rest ++ 'e' :: expSign2 (e + (rest.length : Int)))

def floatReprCore (neg : Bool) (cs : PyStr) (e : Int) : PyStr :=
  if neg then '-' :: floatReprBody cs e else floatReprBody cs e

/-- `repr(float)` under the exact-decimal idealization: decompose the value
into its trailing-zero-free decimal digits and place the point as CPython's
float repr does.  The fallback is unreachable for any value the embedded
program constructs: `float(string)` only yields finite decimal rationals,
and every binary64 value is one. -/
def pyFloatRepr (q : ℚ) : PyStr :=
  match decExtract q with
  | some (neg, cs, e) => floatReprCore neg cs e
  | Option.none => "0.0".data

/-- Strip leading zeros of a coefficient digit string, keeping at least one
digit (`Decimal('011') == Decimal('11')`, `Decimal('0')` keeps one `0`). -/
def stripLZ : List Nat → List Nat
  | [] => [0]
  | d :: t => if d = 0 then stripLZ t else d :: t

/-- The digit/point/exponent placement of `Decimal.__str__` (the
to-scientific-string conversion of the decimal arithmetic specification):
positional when the exponent is ≤ 0 and `leftdigits = e + |ds|` exceeds
`-6`, scientific — with dot place 1 and an `E%+d` exponent — otherwise. -/
def decReprBody (ds : List Nat) (e : Int) : PyStr :=
  if e ≤ 0 ∧ -6 < e + (ds.length : Int) then
    if e + (ds.length : Int) ≤ 0 then
      '0' :: '.' :: (List.replicate (-(e + (ds.length : Int))).toNat '0' ++ ds.map digitChar)
    else if e < 0 then
      (ds.map digitChar).take (e + (ds.length : Int)).toNat
        ++ '.' :: (ds.map digitChar).drop (e + (ds.length : Int)).toNat
    else
      ds.map digitChar
  else
    match ds with
    | [] => ['0']
    | [d] => digitChar d :: 'E' :: expSignD e
    | d :: rest => digitChar d :: '.' :: (rest.map digitChar ++ 'E' :: expSignD (e + (rest.length : Int)))

/-- `str(Decimal)`. -/
def decRepr (neg : Bool) (ds : List Nat) (e : Int) : PyStr :=
  if neg then '-' :: decReprBody ds e else decReprBody ds e

/-- The canonical coefficient shape `Decimal.__init__` produces: at least one
digit, each below 10, and no leading zero except in the single-digit zero
coefficient. -/
def decCanon (ds : List Nat) : Prop :=
  ds ≠ [] ∧ (∀ d ∈ ds, d < 10) ∧ (ds.head? = some 0 → ds = [0])


/-! ## Python values and exceptions -/

/-- A naive `datetime.datetime` (no `tzinfo`), as a record of its fields. -/
structure DTime where
  year : Nat
  month : Nat
  day : Nat
  hour : Nat
  minute : Nat
  second : Nat
  microsecond : Nat
  deriving DecidableEq

/-- The field bounds enforced by the `datetime` constructor. -/
def DTime.valid (d : DTime) : Prop :=
  1 ≤ d.year ∧ d.year ≤ 9999 ∧ 1 ≤ d.month ∧ d.month ≤ 12 ∧ 1 ≤ d.day ∧ d.day ≤ 31 ∧
    d.hour ≤ 23 ∧ d.minute ≤ 59 ∧ d.second ≤ 59 ∧ d.microsecond ≤ 999999

instance : DecidablePred DTime.valid := fun d => by
  unfold DTime.valid
  infer_instance

/-- A Python value, covering the types the library's options traffic in.
`float` carries the exact numeric value of a finite float (only the constant
`0.0` is ever needed); `range` carries `start` and `stop`; `dict` is an
insertion-ordered association list. -/
inductive PyVal : Type where
  | none : PyVal
  | bool (b : Bool) : PyVal
  | int (n : Int) : PyVal
  | float (q : ℚ) : PyVal
  | dec (neg : Bool) (digits : List Nat) (e : Int) : PyVal
  | str (s : PyStr) : PyVal
  | list (xs : List PyVal) : PyVal
  | range (lo hi : Int) : PyVal
  | datetime (d : DTime) : PyVal
  | dict (kvs : List (PyStr × PyVal)) : PyVal

mutual
def pvBeq : PyVal → PyVal → Bool
  | .none, .none => true
  | .bool a, .bool b => a == b
  | .int a, .int b => a == b
  | .float a, .float b => a == b
  | .dec a b c, .dec a' b' c' => a == a' && (b == b' && c == c')
  | .str a, .str b => a == b
  | .list a, .list b => pvBeqList a b
  | .range a b, .range c d => a == c && b == d
  | .datetime a, .datetime b => a == b
  | .dict a, .dict b => pvBeqKvs a b
  | _, _ => false
def pvBeqList : List PyVal → List PyVal → Bool
  | [], [] => true
  | x :: xs, y :: ys => pvBeq x y && pvBeqList xs ys
  | _, _ => false
def pvBeqKvs : List (PyStr × PyVal) → List (PyStr × PyVal) → Bool
  | [], [] => true
  | (k, v) :: xs, (k', v') :: ys => k == k' && pvBeq v v' && pvBeqKvs xs ys
  | _, _ => false
end

mutual
theorem pvBeq_iff : ∀ a b : PyVal, pvBeq a b = true ↔ a = b
  | a, b => by
    cases a <;> cases b <;>
      simp only [pvBeq, PyVal.list.injEq, PyVal.dict.injEq, PyVal.range.injEq,
        PyVal.bool.injEq, PyVal.int.injEq, PyVal.float.injEq, PyVal.dec.injEq,
        PyVal.str.injEq,
        PyVal.datetime.injEq, beq_iff_eq, Bool.and_eq_true, reduceCtorEq, iff_self,
        true_iff, iff_true] <;>
      try exact fun h => nomatch h
    case list.list xs ys => exact pvBeqList_iff xs ys
    case dict.dict xs ys => exact pvBeqKvs_iff xs ys
theorem pvBeqList_iff : ∀ a b : List PyVal, pvBeqList a b = true ↔ a = b
  | [], [] => by simp [pvBeqList]
  | [], _ :: _ => by simp [pvBeqList]
  | _ :: _, [] => by simp [pvBeqList]
  | x :: xs, y :: ys => by
    simp only [pvBeqList, Bool.and_eq_true, List.cons.injEq]
    exact and_congr (pvBeq_iff x y) (pvBeqList_iff xs ys)
theorem pvBeqKvs_iff : ∀ a b : List (PyStr × PyVal), pvBeqKvs a b = true ↔ a = b
  | [], [] => by simp [pvBeqKvs]
  | [], _ :: _ => by simp [pvBeqKvs]
  | _ :: _, [] => by simp [pvBeqKvs]
  | (k, v) :: xs, (k', v') :: ys => by
    simp only [pvBeqKvs, Bool.and_eq_true, List.cons.injEq, Prod.mk.injEq, beq_iff_eq,
      Bool.and_eq_true]
    constructor
    · rintro ⟨⟨h1, h2⟩, h3⟩
      exact ⟨⟨h1, (pvBeq_iff v v').mp h2⟩, (pvBeqKvs_iff xs ys).mp h3⟩
    · rintro ⟨⟨h1, h2⟩, h3⟩
      exact ⟨⟨h1, (pvBeq_iff v v').mpr h2⟩, (pvBeqKvs_iff xs ys).mpr h3⟩
end

instance : DecidableEq PyVal := fun a b =>
  decidable_of_iff (pvBeq a b = true) (pvBeq_iff a b)

/-- Python classes used for `isinstance` checks and error messages. -/
inductive PyType where
  | tNone | tBool | tInt | tFloat | tDecimal | tStr | tList | tRange | tDatetime | tDict
  deriving DecidableEq

def pyTypeOf : PyVal → PyType
  | .none => .tNone
  | .bool _ => .tBool
  | .int _ => .tInt
  | .float _ => .tFloat
  | .dec _ _ _ => .tDecimal
  | .str _ => .tStr
  | .list _ => .tList
  | .range _ _ => .tRange
  | .datetime _ => .tDatetime
  | .dict _ => .tDict

/-- Python `isinstance` (`bool` is a subclass of `int`). -/
def isinst (v : PyVal) (t : PyType) : Bool :=
  match v, t with
  | .bool _, .tInt => true
  | v, t => pyTypeOf v == t

/-- The exceptions the library can surface, with their identifying payloads.
`typeError` is the `on_set` type-check error (`"{section}/{name} expected type
{set_type}, got {type(value)}"`); `typeErrorMsg` covers the other
`TypeError`s (e.g. `configparser`'s "option values must be strings" and
`json.dumps` on a non-serializable object). -/
inductive PyErr where
  | typeError (sec opt : PyStr) (expected actual : PyType)
  | typeErrorMsg (msg : PyStr)
  | valueError (msg : PyStr)
  | noSection (sec : PyStr)
  | noOption (opt sec : PyStr)
  | duplicateSection (sec : PyStr)
  | duplicateOption (sec opt : PyStr)
  | keyError (key : PyStr)
  | invalidOperation (msg : PyStr)
  | permissionError
  | fileNotFoundError
  | recursionError
  deriving DecidableEq

/-- Whether an exception is a `TypeError` (either kind). -/
def PyErr.isTypeErr : PyErr → Bool
  | .typeError .. => true
  | .typeErrorMsg _ => true
  | _ => false

instance exceptDecEq {ε α : Type} [DecidableEq ε] [DecidableEq α] : DecidableEq (Except ε α)
  | .ok a, .ok b =>
    if h : a = b then .isTrue (by rw [h]) else .isFalse fun he => h (by injection he)
  | .error a, .error b =>
    if h : a = b then .isTrue (by rw [h]) else .isFalse fun he => h (by injection he)
  | .ok _, .error _ => .isFalse fun he => Except.noConfusion he
  | .error _, .ok _ => .isFalse fun he => Except.noConfusion he

/-! ## `str(value)` and the ISO datetime format -/

/-- Zero-padded fixed-width decimal rendering (`'%04d' % n` style). -/
def padNat (k n : Nat) : PyStr :=
  List.replicate (k - (pyNatRepr n).length) '0' ++ pyNatRepr n

/-- `datetime` rendering with a configurable date/time separator: `'T'` gives
`isoformat()`, `' '` gives `str()`.  The `.ffffff` microsecond suffix appears
exactly when the microsecond field is non-zero. -/
def dtFormat (sep : Char) (d : DTime) : PyStr :=
  padNat 4 d.year ++ ('-' :: (padNat 2 d.month ++ ('-' :: (padNat 2 d.day ++
    (sep :: (padNat 2 d.hour ++ (':' :: (padNat 2 d.minute ++ (':' :: (padNat 2 d.second ++
      (if d.microsecond = 0 then [] else '.' :: padNat 6 d.microsecond)))))))))))

/-- `datetime.isoformat()`. -/
def dtIsoformat (d : DTime) : PyStr := dtFormat 'T' d

mutual
/-- Python's `str(value)`.  Faithful for `None`, booleans, integers, floats
(under the exact-decimal idealization, via `pyFloatRepr`), `Decimal`s (via
`decRepr`), strings and naive datetimes — the shapes the library's `to_str`
implementations reach; list/range/dict renderings are approximations of
`repr` (no claim evaluates them). -/
def pyStrOf : PyVal → PyStr
  | .none => "None".data
  | .bool true => "True".data
  | .bool false => "False".data
  | .int n => pyIntRepr n
  | .float q => pyFloatRepr q
  | .dec neg ds e => decRepr neg ds e
  | .str s => s
  | .list xs => '[' :: pyStrOfList xs ++ [']']
  | .range lo hi => "range(".data ++ pyIntRepr lo ++ ", ".data ++ pyIntRepr hi ++ [')']
  | .datetime d => dtFormat ' ' d
  | .dict kvs => '{' :: pyStrOfKvs kvs ++ ['}']
def pyStrOfList : List PyVal → PyStr
  | [] => []
  | [x] => pyStrOf x
  | x :: y :: rest => pyStrOf x ++ ", ".data ++ pyStrOfList (y :: rest)
def pyStrOfKvs : List (PyStr × PyVal) → PyStr
  | [] => []
  | [(k, v)] => '\'' :: k ++ "': ".data ++ pyStrOf v
  | (k, v) :: kv :: rest =>
    '\'' :: k ++ "': ".data ++ pyStrOf v ++ ", ".data ++ pyStrOfKvs (kv :: rest)
end

/-! ## Built-in option conversions (`options.py`) -/

/-- Python `int(string)` raising `ValueError` on malformed text. -/
def intOf (s : PyStr) : Except PyErr Int :=
  match pyParseInt s with
  | some i => .ok i
  | Option.none => .error (.valueError ("invalid literal for int(): ".data ++ s))

/-- `StrOption.from_str`: the identity. -/
def strFromStr (s : PyStr) : Except PyErr PyVal := .ok (.str s)

/-- `StrOption.to_str`: returns `value` unchanged (whatever it is). -/
def strToStr (v : PyVal) : Except PyErr PyVal := .ok v

/-- `IntOption.from_str`: `int(string)`. -/
def intFromStr (s : PyStr) : Except PyErr PyVal := (intOf s).map .int

/-- The shared `to_str` of `IntOption`, `FloatOption`, `DecimalOption` and
`BoolOption`: `str(value)`. -/
def reprToStr (v : PyVal) : Except PyErr PyVal := .ok (.str (pyStrOf v))

/-- `FloatOption.from_str` is `float(string)`: floats are idealized as the
exact decimal rational the accepted literal denotes (every IEEE-754 binary64
value is such a rational; `inf`/`nan` and the whitespace/underscore
tolerance of CPython's parser are outside the model — no claim exercises
them). -/
def floatFromStr (s : PyStr) : Except PyErr PyVal :=
  match numLitSplit s with
  | some (neg, ids, fds, ex) =>
    .ok (.float (if neg then
        -((charsToNat (ids ++ fds) : ℚ) * (10 : ℚ) ^ (ex - (fds.length : Int)))
      else (charsToNat (ids ++ fds) : ℚ) * (10 : ℚ) ^ (ex - (fds.length : Int))))
  | Option.none => .error (.valueError ("could not convert string to float: ".data ++ s))

/-- `BoolOption.__truthy__`. -/
def boolTruthy : List PyStr := ["true".data, "yes".data, "on".data, "enabled".data]

/-- `BoolOption.from_str`: `string.lower() in self.__truthy__`. -/
def boolFromStr (s : PyStr) : Except PyErr PyVal :=
  .ok (.bool (boolTruthy.contains (pyLower s)))

/-- The `item_type` callables this development instantiates `ListOption`
with: `str` (the default) and `int`. -/
inductive ItemConv where
  | s
  | i
  deriving DecidableEq

def itemConv : ItemConv → PyStr → Except PyErr PyVal
  | .s, p => .ok (.str p)
  | .i, p => (intOf p).map .int

/-- `ListOption.from_str`: empty string gives `[]`; otherwise split on the
delimiter and convert each item. -/
def listFromStr (it : ItemConv) (delim : PyStr) (s : PyStr) : Except PyErr PyVal :=
  if s.isEmpty then .ok (.list [])
  else do
    let items ← (pySplit delim s).mapM (itemConv it)
    .ok (.list items)

/-- `ListOption.to_str`: `self.delimiter.join(map(str, value))`. -/
def listToStr (delim : PyStr) (v : PyVal) : Except PyErr PyVal :=
  match v with
  | .list xs => .ok (.str (pyJoin delim (xs.map pyStrOf)))
  | _ => .error (.typeErrorMsg "value is not iterable".data)

/-- `RangeOption.from_str`: `start, stop = string.split(self.delimiter)` — a
split of length ≠ 2 raises `ValueError` at the unpacking — then
`range(int(start), int(stop))`. -/
def rangeFromStr (delim : PyStr) (s : PyStr) : Except PyErr PyVal :=
  match pySplit delim s with
  | [a, b] => do
    let lo ← intOf a
    let hi ← intOf b
    .ok (.range lo hi)
  | _ => .error (.valueError "cannot unpack split into start, stop".data)

/-- `RangeOption.to_str`: `str(value.start) + self.delimiter + str(value.stop)`. -/
def rangeToStr (delim : PyStr) (v : PyVal) : Except PyErr PyVal :=
  match v with
  | .range lo hi => .ok (.str (pyIntRepr lo ++ delim ++ pyIntRepr hi))
  | _ => .error (.typeErrorMsg "value has no attribute start".data)

/-- Read exactly `k` digit characters as a number, returning the rest. -/
def readFixedNat (k : Nat) (s : PyStr) : Option (Nat × PyStr) :=
  let ds := s.take k
  if ds.length = k && ds.all isDigitChar then some (charsToNat ds, s.drop k) else none

def expectChar (c : Char) : PyStr → Option PyStr
  | [] => Option.none
  | c' :: t => if c' = c then some t else Option.none

/-- Model of `datetime.fromisoformat` on the canonical `isoformat` shape
`YYYY-MM-DD[T]HH:MM:SS[.ffffff]` (CPython additionally accepts other ISO-8601
shapes, which no round trip through `isoformat` ever produces). -/
def dtFromIso (s : PyStr) : Except PyErr PyVal :=
  let parsed : Option DTime := do
    let (y, s) ← readFixedNat 4 s
    let s ← expectChar '-' s
    let (mo, s) ← readFixedNat 2 s
    let s ← expectChar '-' s
    let (dy, s) ← readFixedNat 2 s
    let s ← expectChar 'T' s
    let (h, s) ← readFixedNat 2 s
    let s ← expectChar ':' s
    let (mi, s) ← readFixedNat 2 s
    let s ← expectChar ':' s
    let (sec, s) ← readFixedNat 2 s
    match s with
    | [] => some ⟨y, mo, dy, h, mi, sec, 0⟩
    | '.' :: t => do
      let (us, t') ← readFixedNat 6 t
      if t'.isEmpty then some ⟨y, mo, dy, h, mi, sec, us⟩ else Option.none
    | _ => Option.none
  match parsed with
  | some d => .ok (.datetime d)
  | Option.none => .error (.valueError ("Invalid isoformat string: ".data ++ s))

/-- `DateTimeOption.from_str` with the default ISO format. -/
def dtFromStr (s : PyStr) : Except PyErr PyVal := dtFromIso s

/-- `DateTimeOption.to_str` with the default ISO format: `value.isoformat()`. -/
def dtToStr (v : PyVal) : Except PyErr PyVal :=
  match v with
  | .datetime d => .ok (.str (dtIsoformat d))
  | _ => .error (.typeErrorMsg "value has no attribute isoformat".data)

/-! ## `json.dumps` / `json.loads` (defaults: `ensure_ascii=True`,
item separator `", "`, key separator `": "`) -/

/-- Lowercase hexadecimal digit. -/
def hexDigitChar (d : Nat) : Char :=
  if d < 10 then digitChar d else Char.ofNat (87 + d)

/-- Four-digit lowercase hex rendering, as used by `\uXXXX` escapes. -/
def hex4 (n : Nat) : PyStr :=
  [hexDigitChar (n / 4096 % 16), hexDigitChar (n / 256 % 16),
   hexDigitChar (n / 16 % 16), hexDigitChar (n % 16)]

/-- `json.dumps` escaping of one character (`ensure_ascii=True`): the named
escapes, `\u00XX` for other controls, literal for printable ASCII, `\uXXXX`
for the rest of the BMP, and a UTF-16 surrogate pair for astral characters. -/
def jsonEscapeChar (c : Char) : PyStr :=
  if c = '"' then ['\\', '"']
  else if c = '\\' then ['\\', '\\']
  else if c = '\n' then ['\\', 'n']
  else if c = '\r' then ['\\', 'r']
  else if c = '\t' then ['\\', 't']
  else if c = '\x08' then ['\\', 'b']
  else if c = '\x0c' then ['\\', 'f']
  else if c.toNat < 32 then '\\' :: 'u' :: hex4 c.toNat
  else if c.toNat ≤ 126 then [c]
  else if c.toNat < 65536 then '\\' :: 'u' :: hex4 c.toNat
  else
    '\\' :: 'u' :: hex4 (55296 + (c.toNat - 65536) / 1024) ++
      '\\' :: 'u' :: hex4 (56320 + (c.toNat - 65536) % 1024)

def escapeAll : PyStr → PyStr
  | [] => []
  | c :: t => jsonEscapeChar c ++ escapeAll t

/-- A JSON string literal: quote, escaped body, quote. -/
def jsonQuote (s : PyStr) : PyStr := '"' :: escapeAll s ++ ['"']

mutual
/-- `json.dumps(value)`.  Dict keys are strings in this model (matching every
value the library round-trips); floats are kept outside the model's JSON
fragment (Python would render them, but the dict round-trip law is stated
only for `jsonDumps`-serializable values, and the integer-only JSON number
parser below matches that domain) and `range`/`datetime`/`Decimal` raise
`TypeError` exactly as in Python. -/
def jsonDumps : PyVal → Except PyErr PyStr
  | .none => .ok "null".data
  | .bool true => .ok "true".data
  | .bool false => .ok "false".data
  | .int n => .ok (pyIntRepr n)
  | .str s => .ok (jsonQuote s)
  | .list xs => do
    let body ← jsonDumpsElems xs
    .ok ('[' :: body ++ [']'])
  | .dict kvs => do
    let body ← jsonDumpsMembers kvs
    .ok ('{' :: body ++ ['}'])
  | .float _ => .error (.typeErrorMsg "float serialization not modelled".data)
  | _ => .error (.typeErrorMsg "Object is not JSON serializable".data)
def jsonDumpsElems : List PyVal → Except PyErr PyStr
  | [] => .ok []
  | [x] => jsonDumps x
  | x :: y :: rest => do
    let a ← jsonDumps x
    let b ← jsonDumpsElems (y :: rest)
    .ok (a ++ ", ".data ++ b)
def jsonDumpsMembers : List (PyStr × PyVal) → Except PyErr PyStr
  | [] => .ok []
  | [(k, v)] => do
    let a ← jsonDumps v
    .ok (jsonQuote k ++ ": ".data ++ a)
  | (k, v) :: kv :: rest => do
    let a ← jsonDumps v
    let b ← jsonDumpsMembers (kv :: rest)
    .ok (jsonQuote k ++ ": ".data ++ a ++ ", ".data ++ b)
end

/-- JSON insignificant whitespace. -/
def isJsonWs (c : Char) : Bool :=
  c == ' ' || c == '\t' || c == '\n' || c == '\r'

def skipJWs : PyStr → PyStr
  | [] => []
  | c :: t => if isJsonWs c then skipJWs t else c :: t

/-- Value of one hexadecimal digit (either case). -/
def hexVal (c : Char) : Option Nat :=
  if 48 ≤ c.toNat ∧ c.toNat ≤ 57 then some (c.toNat - 48)
  else if 97 ≤ c.toNat ∧ c.toNat ≤ 102 then some (c.toNat - 87)
  else if 65 ≤ c.toNat ∧ c.toNat ≤ 70 then some (c.toNat - 55)
  else Option.none

def readHex4 : PyStr → Option (Nat × PyStr)
  | a :: b :: c :: d :: t => do
    let x1 ← hexVal a
    let x2 ← hexVal b
    let x3 ← hexVal c
    let x4 ← hexVal d
    some (4096 * x1 + 256 * x2 + 16 * x3 + x4, t)
  | _ => Option.none

/-- JSON string body parser (after the opening quote): literal characters,
backslash escapes, `\uXXXX` (combining UTF-16 surrogate pairs), rejecting
raw control characters (`strict=True`).  Lone surrogates — which CPython
would accept — are not representable as Lean `Char`s and are rejected; no
`dumps` output contains one. -/
def parseJStrAux : Nat → PyStr → Option (PyStr × PyStr)
  | 0, _ => Option.none
  | _ + 1, [] => Option.none
  | fuel + 1, c :: t =>
    if c = '"' then some ([], t)
    else if c = '\\' then
      match t with
      | [] => Option.none
      | e :: t' =>
        if e = 'u' then
          match readHex4 t' with
          | some (n, t₂) =>
            if n < 55296 ∨ 57344 ≤ n then do
              let (s, r) ← parseJStrAux fuel t₂
              some (Char.ofNat n :: s, r)
            else if n < 56320 then
              match t₂ with
              | '\\' :: 'u' :: t₃ =>
                match readHex4 t₃ with
                | some (m, t₄) =>
                  if 56320 ≤ m ∧ m < 57344 then do
                    let (s, r) ← parseJStrAux fuel t₄
                    some (Char.ofNat (65536 + (n - 55296) * 1024 + (m - 56320)) :: s, r)
                  else Option.none
                | Option.none => Option.none
              | _ => Option.none
            else Option.none
          | Option.none => Option.none
        else
          let dec : Option Char :=
            if e = '"' then some '"'
            else if e = '\\' then some '\\'
            else if e = '/' then some '/'
            else if e = 'b' then some '\x08'
            else if e = 'f' then some '\x0c'
            else if e = 'n' then some '\n'
            else if e = 'r' then some '\r'
            else if e = 't' then some '\t'
            else Option.none
          match dec with
          | some d => do
            let (s, r) ← parseJStrAux fuel t'
            some (d :: s, r)
          | Option.none => Option.none
    else if c.toNat < 32 then Option.none
    else do
      let (s, r) ← parseJStrAux fuel t
      some (c :: s, r)

/-- Whether the input continues with a fraction or exponent marker (which
would make the number a float — outside this model). -/
def jnumContinues : PyStr → Bool
  | [] => false
  | c :: _ => c == '.' || c == 'e' || c == 'E'

/-- JSON number parser, integers only (the round-trip domain contains no
floats). -/
def parseJNumCore (neg : Bool) (t : PyStr) : Option (PyVal × PyStr) :=
  let (ds, r) := takeDigits t
  if ds.isEmpty then Option.none
  else if jnumContinues r then Option.none
  else some (.int (if neg then -(charsToNat ds : Int) else (charsToNat ds : Int)), r)

def parseJNum (s : PyStr) : Option (PyVal × PyStr) :=
  match s with
  | [] => Option.none
  | c :: t => if c = '-' then parseJNumCore true t else parseJNumCore false (c :: t)

mutual
/-- Recursive-descent JSON value parser (fuel-indexed; `input length + 1`
is always sufficient fuel). -/
def parseJVal : Nat → PyStr → Option (PyVal × PyStr)
  | 0, _ => Option.none
  | fuel + 1, s =>
    match skipJWs s with
    | [] => Option.none
    | c :: t =>
      if c = 'n' then
        match t with
        | 'u' :: 'l' :: 'l' :: r => some (.none, r)
        | _ => Option.none
      else if c = 't' then
        match t with
        | 'r' :: 'u' :: 'e' :: r => some (.bool true, r)
        | _ => Option.none
      else if c = 'f' then
        match t with
        | 'a' :: 'l' :: 's' :: 'e' :: r => some (.bool false, r)
        | _ => Option.none
      else if c = '"' then
        (parseJStrAux (t.length + 1) t).map fun p => (.str p.1, p.2)
      else if c = '[' then
        match skipJWs t with
        | [] => Option.none
        | c₁ :: t₁ =>
          if c₁ = ']' then some (.list [], t₁)
          else (parseJElems fuel (c₁ :: t₁)).map fun p => (.list p.1, p.2)
      else if c = '{' then
        match skipJWs t with
        | [] => Option.none
        | c₁ :: t₁ =>
          if c₁ = '}' then some (.dict [], t₁)
          else (parseJMembers fuel (c₁ :: t₁)).map fun p => (.dict p.1, p.2)
      else parseJNum (c :: t)
def parseJElems : Nat → PyStr → Option (List PyVal × PyStr)
  | 0, _ => Option.none
  | fuel + 1, s => do
    let (v, r) ← parseJVal fuel s
    match skipJWs r with
    | [] => Option.none
    | c :: r' =>
      if c = ',' then do
        let (vs, r₂) ← parseJElems fuel r'
        some (v :: vs, r₂)
      else if c = ']' then some ([v], r')
      else Option.none
def parseJMembers : Nat → PyStr → Option (List (PyStr × PyVal) × PyStr)
  | 0, _ => Option.none
  | fuel + 1, s =>
    match skipJWs s with
    | [] => Option.none
    | c₀ :: t =>
      if c₀ = '"' then do
        let (k, r) ← parseJStrAux (t.length + 1) t
        match skipJWs r with
        | [] => Option.none
        | c₁ :: r₁ =>
          if c₁ = ':' then do
            let (v, r₂) ← parseJVal fuel r₁
            match skipJWs r₂ with
            | [] => Option.none
            | c₂ :: r₃ =>
              if c₂ = ',' then do
                let (kvs, r₄) ← parseJMembers fuel r₃
                some ((k, v) :: kvs, r₄)
              else if c₂ = '}' then some ([(k, v)], r₃)
              else Option.none
          else Option.none
      else Option.none
end

/-- `json.loads(s)`: parse one value and require only whitespace after it. -/
def jsonLoads (s : PyStr) : Except PyErr PyVal :=
  match parseJVal (s.length + 1) s with
  | some (v, r) =>
    if (skipJWs r).isEmpty then .ok v else .error (.valueError "Extra data".data)
  | Option.none => .error (.valueError "Expecting value".data)

/-- `DictOption.from_str`: empty string gives `{}`, otherwise `json.loads`. -/
def dictFromStr (s : PyStr) : Except PyErr PyVal :=
  if s.isEmpty then .ok (.dict []) else jsonLoads s

/-- `DictOption.to_str`: `json.dumps(value)`. -/
def dictToStr (v : PyVal) : Except PyErr PyVal := (jsonDumps v).map .str

/-- `DecimalOption.from_str` is `Decimal(string)`: build the coefficient
digits (leading zeros stripped) and the exponent from the literal
(`Infinity`/`NaN` and payload forms are outside the model — no claim
exercises them). -/
def decimalFromStr (s : PyStr) : Except PyErr PyVal :=
  match numLitSplit s with
  | some (neg, ids, fds, ex) =>
    .ok (.dec neg (stripLZ ((ids ++ fds).map fun c => c.toNat - 48)) (ex - (fds.length : Int)))
  | Option.none => .error (.invalidOperation ("invalid Decimal literal: ".data ++ s))

/-! ## Option kinds -/

/-- The built-in persisted option classes of `options.py`, with their
constructor parameters.  `PickleOption` (byte-level pickling) and
`DateOption`/`strptime` formats are outside the model; no claim mentions
them. -/
inductive OptKind where
  | strO
  | intO
  | floatO
  | decimalO
  | boolO
  | listO (it : ItemConv) (delim : PyStr)
  | rangeO (delim : PyStr)
  | datetimeO
  | dictO
  deriving DecidableEq

/-- Dispatch of `from_str` over the option classes. -/
def kFromStr : OptKind → PyStr → Except PyErr PyVal
  | .strO => strFromStr
  | .intO => intFromStr
  | .floatO => floatFromStr
  | .decimalO => decimalFromStr
  | .boolO => boolFromStr
  | .listO it d => listFromStr it d
  | .rangeO d => rangeFromStr d
  | .datetimeO => dtFromStr
  | .dictO => dictFromStr

/-- Dispatch of `to_str` over the option classes.  `to_str` returns a Python
object (`StrOption.to_str` returns `value` itself, whatever its type); the
caller (`ConfigFile.set` via `parser.set`) is what demands a string. -/
def kToStr : OptKind → PyVal → Except PyErr PyVal
  | .strO => strToStr
  | .intO => reprToStr
  | .floatO => reprToStr
  | .decimalO => reprToStr
  | .boolO => reprToStr
  | .listO _ d => listToStr d
  | .rangeO d => rangeToStr d
  | .datetimeO => dtToStr
  | .dictO => dictToStr

/-- `__empty__[0]` per option class: the default `('', 'none', 'null')` unless
overridden (`('',)` for int/float/bool, `()` for list/dict). -/
def kEmptyTokens : OptKind → List PyStr
  | .strO => [[], "none".data, "null".data]
  | .intO => [[]]
  | .floatO => [[]]
  | .decimalO => [[], "none".data, "null".data]
  | .boolO => [[]]
  | .listO _ _ => []
  | .rangeO _ => [[], "none".data, "null".data]
  | .datetimeO => [[], "none".data, "null".data]
  | .dictO => []

/-- `__empty__[1]` per option class. -/
def kEmptyVal : OptKind → PyVal
  | .strO => .none
  | .intO => .int 0
  | .floatO => .float 0
  | .decimalO => .none
  | .boolO => .bool false
  | .listO _ _ => .none
  | .rangeO _ => .none
  | .datetimeO => .none
  | .dictO => .none

/-- `Option.__set_type__` — the attribute `on_set` checks.  It is declared
`None` on the `Option` base class in `cfg.py` and no class in `options.py`
overrides it (they set `__type__`, which nothing reads), so it is `None` for
every kind. -/
def kSetType : OptKind → Option PyType := fun _ => Option.none

/-- The `__type__` attribute the classes in `options.py` declare — dead code
in this version of `cfg.py`, recorded here to document the mismatch. -/
def kTypeAttr : OptKind → Option PyType
  | .strO => some .tStr
  | .intO => some .tInt
  | .floatO => some .tFloat
  | .decimalO => some .tDecimal
  | .boolO => some .tBool
  | .listO _ _ => some .tList
  | .rangeO _ => some .tRange
  | .datetimeO => some .tDatetime
  | .dictO => some .tDict

/-! ## Sections, registration and the config state machine -/

/-- A declared option: a concrete (persisted or derived) option, or an
`OptionCollection` whose maker builds a concrete option from a raw key name
(a maker returning another collection would never terminate in Python). -/
inductive SimpleDef where
  | basic (name : PyStr) (kind : OptKind) (required : Bool)
  | derived (name : PyStr) (refs : List (Option PyStr × PyStr)) (func : List PyVal → PyVal)

def SimpleDef.name : SimpleDef → PyStr
  | .basic n _ _ => n
  | .derived n _ _ => n

/-- Is this an `UnlinkedOption` (never staged into the parser)? -/
def SimpleDef.isUnlinked : SimpleDef → Bool
  | .derived .. => true
  | .basic .. => false

inductive OptDef where
  | simple (sd : SimpleDef)
  | collection (maker : PyStr → SimpleDef)

/-- A registered option: its definition and its stored `value` slot (inert
for a derived option, whose `value` is a recomputed property). -/
structure OptSt where
  sdef : SimpleDef
  value : PyVal

/-- `Option.__init__`: `self.value = self.__empty__[1]` unless the class
already defines `value` (as `DerivedOption` does, via a property). -/
def initOpt : SimpleDef → OptSt
  | .basic n k r => ⟨.basic n k r, kEmptyVal k⟩
  | sd => ⟨sd, .none⟩

/-- `ConfigParser`'s raw model: ordered sections of ordered `key ↦ raw`. -/
abbrev RawSec := List (PyStr × PyStr)
abbrev ParserModel := List (PyStr × RawSec)

/-- Ordered association-list lookup. -/
def lookupA {β : Type} : List (PyStr × β) → PyStr → Option β
  | [], _ => Option.none
  | (k, v) :: t, key => if k = key then some v else lookupA t key

/-- Replace the value at a key in place, appending if absent. -/
def updateA {β : Type} : List (PyStr × β) → PyStr → β → List (PyStr × β)
  | [], key, v => [(key, v)]
  | (k, w) :: t, key, v => if k = key then (k, v) :: t else (k, w) :: updateA t key v

/-- `parser.set(section, option, value)`: `NoSectionError` when the section
is missing, else overwrite/append the key. -/
def psSet (p : ParserModel) (sec key val : PyStr) : Except PyErr ParserModel :=
  match lookupA p sec with
  | Option.none => .error (.noSection sec)
  | some kvs => .ok (updateA p sec (updateA kvs key val))

/-- `parser.get(section, option)`. -/
def psGet (p : ParserModel) (sec key : PyStr) : Except PyErr PyStr :=
  match lookupA p sec with
  | Option.none => .error (.noSection sec)
  | some kvs =>
    match lookupA kvs key with
    | some raw => .ok raw
    | Option.none => .error (.noOption key sec)

/-- `parser.read_file` for one section of the file: update the existing
section's keys in place (appending new keys), or append a new section. -/
def mergeSec (p : ParserModel) (sec : PyStr) (kvs : RawSec) : ParserModel :=
  match lookupA p sec with
  | Option.none => p ++ [(sec, kvs)]
  | some old =>
    updateA p sec (kvs.foldl (fun acc (kv : PyStr × PyStr) => updateA acc kv.1 kv.2) old)

/-- `parser.read_file(file)`: merge every section of the file into the
existing parser state.  Nothing is ever removed. -/
def mergeRead (p : ParserModel) (disk : ParserModel) : ParserModel :=
  disk.foldl (fun acc (skvs : PyStr × RawSec) => mergeSec acc skvs.1 skvs.2) p

/-- `Option.parse` once dispatched on presence: on `NoOptionError`, re-raise
when required, else store the declared empty value; when the raw string is
present, normalize it (newlines to spaces, strip), store the empty value when
the lowercased result is among the empty tokens, else convert with
`from_str`.  Factored over the `from_str` callable so theorems can state that
some paths never invoke it. -/
def optParseCore (fromS : PyStr → Except PyErr PyVal) (tokens : List PyStr) (emptyV : PyVal)
    (required : Bool) (name secName : PyStr) (p : ParserModel) : Except PyErr PyVal :=
  match psGet p secName name with
  | .error (.noOption o s) => if required then .error (.noOption o s) else .ok emptyV
  | .error e => .error e
  | .ok raw =>
    let val := pyStrip (pyReplaceNL raw)
    if tokens.contains (pyLower val) then .ok emptyV
    else fromS val

/-- `Option.parse` (`UnlinkedOption.parse` is a no-op). -/
def optParse (p : ParserModel) (secName : PyStr) (o : OptSt) : Except PyErr OptSt :=
  match o.sdef with
  | .derived .. => .ok o
  | .basic n k req =>
    (optParseCore (kFromStr k) (kEmptyTokens k) (kEmptyVal k) req n secName p).map
      fun v => ⟨o.sdef, v⟩

def hasOptNamed (opts : List OptSt) (name : PyStr) : Bool :=
  opts.any fun o => decide (o.sdef.name = name)

/-- `Section.register_option` for a concrete option: `DuplicateOptionError`
when the name exists, else construct, bind and append. -/
def registerSimple (secName : PyStr) (opts : List OptSt) (sd : SimpleDef) :
    Except PyErr (List OptSt) :=
  if hasOptNamed opts sd.name then .error (.duplicateOption secName sd.name)
  else .ok (opts ++ [initOpt sd])

/-- `Section.register_option` on an `OptionCollection`: the duplicate check on
the collection's own name `''`, then `OptionCollection.on_register` — for
every raw key of `cfg.parser[section.name]` (a missing section is a
`KeyError`) not already claimed, register the maker's option; the collection
itself returns `False` from `on_register` and is never stored. -/
def registerCollection (p : ParserModel) (secName : PyStr) (opts : List OptSt)
    (maker : PyStr → SimpleDef) : Except PyErr (List OptSt) :=
  if hasOptNamed opts [] then .error (.duplicateOption secName [])
  else
    match lookupA p secName with
    | Option.none => .error (.keyError secName)
    | some kvs =>
      kvs.foldlM
        (fun os (kv : PyStr × PyStr) =>
          if hasOptNamed os kv.1 then .ok os else registerSimple secName os (maker kv.1))
        opts

def registerOption (p : ParserModel) (secName : PyStr) (opts : List OptSt) :
    OptDef → Except PyErr (List OptSt)
  | .simple sd => registerSimple secName opts sd
  | .collection maker => registerCollection p secName opts maker

/-- A user schema (`create()` body): sections with their declared options. -/
abbrev Schema := List (PyStr × List OptDef)
abbrev Sections := List (PyStr × List OptSt)

/-- `Section.__init__`: register every declared option in order. -/
def buildSection (p : ParserModel) (secName : PyStr) (defs : List OptDef) :
    Except PyErr (List OptSt) :=
  defs.foldlM (registerOption p secName) []

/-- The `create()` callback: build each declared section
(`DuplicateSectionError` on a name collision). -/
def buildSections (p : ParserModel) (schema : Schema) : Except PyErr Sections :=
  schema.foldlM
    (fun secs (sd : PyStr × List OptDef) =>
      if secs.any fun s => decide (s.1 = sd.1) then .error (.duplicateSection sd.1)
      else do
        let opts ← buildSection p sd.1 sd.2
        .ok (secs ++ [(sd.1, opts)]))
    []

/-- `section.parse(parser)` over all sections. -/
def parseSections (p : ParserModel) (secs : Sections) : Except PyErr Sections :=
  secs.mapM fun s => do
    let opts ← s.2.mapM (optParse p s.1)
    .ok (s.1, opts)

/-- The mutable state of a `ConfigFile`: its parser model and its sections. -/
structure CfgSt where
  parser : ParserModel
  sections : Sections

/-- `ConfigFile.read`: feed the file to the (never-cleared) parser, reset the
section map, re-run the schema callback, parse everything. -/
def readCfg (schema : Schema) (disk : ParserModel) (st : CfgSt) : Except PyErr CfgSt := do
  let p := mergeRead st.parser disk
  let secs ← buildSections p schema
  let secs' ← parseSections p secs
  .ok ⟨p, secs'⟩

/-- `ConfigFile(filename)` on a fresh object: empty parser, then `read()`. -/
def readFresh (schema : Schema) (disk : ParserModel) : Except PyErr CfgSt :=
  readCfg schema disk ⟨[], []⟩

/-- `Option.on_set` for an option registered in section `secName`: for a
`DerivedOption`, unconditionally `ValueError`; otherwise the type check
against `__set_type__` (when not `None`), then the store. -/
def onSet (secName : PyStr) (o : OptSt) (v : PyVal) : Except PyErr OptSt :=
  match o.sdef with
  | .derived .. => .error (.valueError "Cannot set value on a DerivedOption".data)
  | .basic n k _ =>
    match kSetType k with
    | some ty =>
      if isinst v ty then .ok ⟨o.sdef, v⟩
      else .error (.typeError secName n ty (pyTypeOf v))
    | Option.none => .ok ⟨o.sdef, v⟩

/-- Replace the (uniquely named) option object inside a section. -/
def updateOpt (opts : List OptSt) (name : PyStr) (o : OptSt) : List OptSt :=
  opts.map fun x => if x.sdef.name = name then o else x

/-- `ConfigFile.set` — the single mutation gateway (`Section.set` and item
assignment delegate here): the read-only guard, section/option resolution,
`on_set`, then (for persisted options) staging `to_str(value)` into the
parser, which itself demands a string value. -/
def cfgSet (readonly : Bool) (st : CfgSt) (secName optName : PyStr) (v : PyVal) :
    Except PyErr CfgSt :=
  if readonly then .error .permissionError
  else
    match lookupA st.sections secName with
    | Option.none => .error (.noSection secName)
    | some opts =>
      match opts.find? (fun o => decide (o.sdef.name = optName)) with
      | Option.none => .error (.noOption optName secName)
      | some o => do
        let o' ← onSet secName o v
        let secs' := updateA st.sections secName (updateOpt opts optName o')
        match o'.sdef with
        | .derived .. => .ok ⟨st.parser, secs'⟩
        | .basic n k _ => do
          let raw ← kToStr k o'.value
          match raw with
          | .str s => do
            let p' ← psSet st.parser secName n s
            .ok ⟨p', secs'⟩
          | _ => .error (.typeErrorMsg "option values must be strings".data)

/-- `DerivedOption._get_args`, parameterized by the value accessor: resolve
each reference in order — the option's own section when no section name was
given, else a `ConfigFile` section lookup that raises `NoSectionError` — and
read the referenced option's current value. -/
def getArgsAux (valueFn : PyStr → OptSt → Except PyErr PyVal) (secs : Sections)
    (selfSec : PyStr) : List (Option PyStr × PyStr) → Except PyErr (List PyVal)
  | [] => .ok []
  | (sref, oname) :: rest =>
    let secName := sref.getD selfSec
    match lookupA secs secName with
    | Option.none => .error (.noSection secName)
    | some opts =>
      match opts.find? (fun o => decide (o.sdef.name = oname)) with
      | Option.none => .error (.noOption oname secName)
      | some o => do
        let v ← valueFn secName o
        let vs ← getArgsAux valueFn secs selfSec rest
        .ok (v :: vs)

/-- Reading `option.value` in the current state: the stored slot for a
persisted option; for a `DerivedOption`, the `value` property — resolve the
references and apply the computation function, recomputed on every access.
Fuel bounds the recursion depth (a reference cycle is Python's
`RecursionError`). -/
def optValue : Nat → Sections → PyStr → OptSt → Except PyErr PyVal
  | 0, _, _, _ => .error .recursionError
  | fuel + 1, secs, selfSec, o =>
    match o.sdef with
    | .basic .. => .ok o.value
    | .derived _ refs f => (getArgsAux (optValue fuel secs) secs selfSec refs).map f

/-! ## Float and Decimal literal machinery -/

theorem charsToNat_foldl_acc : ∀ (b : PyStr) (acc : Nat),
    b.foldl (fun a c => 10 * a + (c.toNat - 48)) acc
      = acc * 10 ^ b.length + charsToNat b := by
  intro b
  induction b with
  | nil =>
    intro acc
    simp [charsToNat]
  | cons c t ih =>
    intro acc
    show t.foldl (fun a c => 10 * a + (c.toNat - 48)) (10 * acc + (c.toNat - 48)) = _
    rw [ih (10 * acc + (c.toNat - 48))]
    have hct : charsToNat (c :: t) = (c.toNat - 48) * 10 ^ t.length + charsToNat t := by
      show t.foldl (fun a c => 10 * a + (c.toNat - 48)) (10 * 0 + (c.toNat - 48)) = _
      rw [ih (10 * 0 + (c.toNat - 48))]
      ring_nf
    rw [hct]
    show (10 * acc + (c.toNat - 48)) * 10 ^ t.length + charsToNat t
      = acc * 10 ^ (c :: t).length + ((c.toNat - 48) * 10 ^ t.length + charsToNat t)
    rw [List.length_cons, pow_succ]
    ring

theorem charsToNat_append (a b : PyStr) :
    charsToNat (a ++ b) = charsToNat a * 10 ^ b.length + charsToNat b := by
  show (a ++ b).foldl (fun a c => 10 * a + (c.toNat - 48)) 0 = _
  rw [List.foldl_append]
  exact charsToNat_foldl_acc b (charsToNat a)

theorem charsToNat_cons_zero (t : PyStr) : charsToNat ('0' :: t) = charsToNat t := by
  show t.foldl (fun a c => 10 * a + (c.toNat - 48)) (10 * 0 + ('0'.toNat - 48))
    = t.foldl (fun a c => 10 * a + (c.toNat - 48)) 0
  rw [show (10 * 0 + ('0'.toNat - 48)) = 0 from by decide]

theorem charsToNat_zeros (k : Nat) : charsToNat (List.replicate k '0') = 0 := by
  induction k with
  | zero => rfl
  | succ k ih => rw [List.replicate_succ, charsToNat_cons_zero, ih]

theorem charsToNat_zeros_append (k : Nat) (a : PyStr) :
    charsToNat (List.replicate k '0' ++ a) = charsToNat a := by
  induction k with
  | zero => rfl
  | succ k ih => rw [List.replicate_succ, List.cons_append, charsToNat_cons_zero, ih]

theorem charsToNat_append_zeros (a : PyStr) (k : Nat) :
    charsToNat (a ++ List.replicate k '0') = charsToNat a * 10 ^ k := by
  rw [charsToNat_append, charsToNat_zeros, List.length_replicate, Nat.add_zero]

theorem charsToNat_pyNatRepr (n : Nat) : charsToNat (pyNatRepr n) = n := by
  unfold pyNatRepr
  by_cases h : n = 0
  · rw [if_pos h, h]
    decide
  · rw [if_neg h]
    exact charsToNat_natToChars n

/-- The continuation after a digit group: empty, or starting with a
non-digit. -/
def digitsStop : PyStr → Prop
  | [] => True
  | c :: _ => isDigitChar c = false

theorem takeDigits_stop : ∀ (a b : PyStr), (∀ c ∈ a, isDigitChar c = true) → digitsStop b →
    takeDigits (a ++ b) = (a, b) := by
  intro a
  induction a with
  | nil =>
    intro b _ hb
    cases b with
    | nil => rfl
    | cons c t =>
      have hc : isDigitChar c = false := hb
      show takeDigits (c :: t) = ([], c :: t)
      unfold takeDigits
      rw [hc]
      rfl
  | cons c t ih =>
    intro b ha hb
    have hc : isDigitChar c = true := ha c (List.mem_cons_self _ _)
    show takeDigits (c :: (t ++ b)) = _
    conv_lhs => rw [takeDigits]
    rw [hc, ih b (fun x hx => ha x (List.mem_cons_of_mem _ hx)) hb]
    rfl

theorem takeDigits_all (a : PyStr) (ha : ∀ c ∈ a, isDigitChar c = true) :
    takeDigits a = (a, []) := by
  have h := takeDigits_stop a [] ha trivial
  rwa [List.append_nil] at h

theorem numSign_dash (t : PyStr) : numSign ('-' :: t) = (true, t) := by
  show (if '-' = '-' then ((true, t) : Bool × PyStr)
    else if '-' = '+' then (false, t) else (false, '-' :: t)) = (true, t)
  rw [if_pos rfl]

theorem numSign_plus (t : PyStr) : numSign ('+' :: t) = (false, t) := by
  show (if '+' = '-' then ((true, t) : Bool × PyStr)
    else if '+' = '+' then (false, t) else (false, '+' :: t)) = (false, t)
  rw [if_neg (by decide : ¬('+' = '-')), if_pos rfl]

theorem numSign_digit (c : Char) (t : PyStr) (hc : isDigitChar c = true) :
    numSign (c :: t) = (false, c :: t) := by
  show (if c = '-' then ((true, t) : Bool × PyStr)
    else if c = '+' then (false, t) else (false, c :: t)) = (false, c :: t)
  have h1 : ¬(c = '-') := fun h => by rw [h] at hc; exact absurd hc (by decide)
  have h2 : ¬(c = '+') := fun h => by rw [h] at hc; exact absurd hc (by decide)
  rw [if_neg h1, if_neg h2]

theorem numSign_eval (neg : Bool) (c : Char) (t : PyStr) (hc : isDigitChar c = true) :
    numSign (if neg then '-' :: c :: t else c :: t) = (neg, c :: t) := by
  cases neg with
  | true => exact numSign_dash (c :: t)
  | false => exact numSign_digit c t hc

theorem numExp_dash (ds : PyStr) (hne : ds ≠ []) (hd : ∀ x ∈ ds, isDigitChar x = true) :
    numExp ('-' :: ds) = some (-(charsToNat ds : Int)) := by
  have hde : ds.isEmpty = false := by
    cases ds with
    | nil => exact absurd rfl hne
    | cons _ _ => rfl
  unfold numExp
  rw [numSign_dash]
  show (if (takeDigits ds).1.isEmpty || !(takeDigits ds).2.isEmpty then Option.none
    else if true then some (-(charsToNat (takeDigits ds).1 : Int))
    else some ((charsToNat (takeDigits ds).1 : Int))) = _
  rw [takeDigits_all ds hd]
  show (if ds.isEmpty || !(List.isEmpty ([] : PyStr)) then Option.none
    else if true then some (-(charsToNat ds : Int))
    else some ((charsToNat ds : Int))) = _
  rw [hde]
  rfl

theorem numExp_plus (ds : PyStr) (hne : ds ≠ []) (hd : ∀ x ∈ ds, isDigitChar x = true) :
    numExp ('+' :: ds) = some ((charsToNat ds : Int)) := by
  have hde : ds.isEmpty = false := by
    cases ds with
    | nil => exact absurd rfl hne
    | cons _ _ => rfl
  unfold numExp
  rw [numSign_plus]
  show (if (takeDigits ds).1.isEmpty || !(takeDigits ds).2.isEmpty then Option.none
    else if false then some (-(charsToNat (takeDigits ds).1 : Int))
    else some ((charsToNat (takeDigits ds).1 : Int))) = _
  rw [takeDigits_all ds hd]
  show (if ds.isEmpty || !(List.isEmpty ([] : PyStr)) then Option.none
    else if false then some (-(charsToNat ds : Int))
    else some ((charsToNat ds : Int))) = _
  rw [hde]
  rfl

theorem numExp_expSignD (k : Int) : numExp (expSignD k) = some k := by
  unfold expSignD
  by_cases hk : k < 0
  · rw [if_pos hk, numExp_dash _ (pyNatRepr_ne_nil _) (pyNatRepr_all_digits _),
      charsToNat_pyNatRepr]
    congr 1
    omega
  · rw [if_neg hk, numExp_plus _ (pyNatRepr_ne_nil _) (pyNatRepr_all_digits _),
      charsToNat_pyNatRepr]
    congr 1
    omega

theorem numExp_expSign2 (k : Int) : numExp (expSign2 k) = some k := by
  unfold expSign2
  have hne : List.replicate (2 - (pyNatRepr k.natAbs).length) '0' ++ pyNatRepr k.natAbs
      ≠ [] := by
    intro h
    have h2 := congrArg List.length h
    rw [List.length_append, List.length_nil] at h2
    have h3 : pyNatRepr k.natAbs ≠ [] := pyNatRepr_ne_nil _
    cases hnr : pyNatRepr k.natAbs with
    | nil => exact h3 hnr
    | cons x xs => rw [hnr] at h2; simp at h2
  have hd : ∀ x ∈ List.replicate (2 - (pyNatRepr k.natAbs).length) '0' ++ pyNatRepr k.natAbs,
      isDigitChar x = true := by
    intro x hx
    rcases List.mem_append.mp hx with h | h
    · rw [List.eq_of_mem_replicate h]
      decide
    · exact pyNatRepr_all_digits _ x h
  by_cases hk : k < 0
  · rw [if_pos hk, numExp_dash _ hne hd, charsToNat_zeros_append, charsToNat_pyNatRepr]
    congr 1
    omega
  · rw [if_neg hk, numExp_plus _ hne hd, charsToNat_zeros_append, charsToNat_pyNatRepr]
    congr 1
    omega


theorem numLitSplit_digits (neg : Bool) (a : PyStr) (ha : a ≠ [])
    (had : ∀ c ∈ a, isDigitChar c = true) :
    numLitSplit (if neg then '-' :: a else a) = some (neg, a, [], 0) := by
  cases a with
  | nil => exact absurd rfl ha
  | cons c t =>
    unfold numLitSplit
    rw [numSign_eval neg c t (had c (List.mem_cons_self _ _))]
    show numLitRest neg (takeDigits (c :: t)).1 (takeDigits (c :: t)).2 = _
    rw [takeDigits_all (c :: t) had]
    show numLitRest neg (c :: t) [] = _
    show (if (c :: t : PyStr).isEmpty then Option.none else some (neg, c :: t, [], 0)) = _
    rfl

theorem numLitSplit_dot (neg : Bool) (a b : PyStr) (ha : a ≠ [])
    (had : ∀ c ∈ a, isDigitChar c = true) (hbd : ∀ c ∈ b, isDigitChar c = true) :
    numLitSplit (if neg then '-' :: (a ++ '.' :: b) else a ++ '.' :: b)
      = some (neg, a, b, 0) := by
  cases a with
  | nil => exact absurd rfl ha
  | cons c t =>
    have hc : isDigitChar c = true := had c (List.mem_cons_self _ _)
    have htb : takeDigits (c :: (t ++ '.' :: b)) = (c :: t, '.' :: b) := by
      have h := takeDigits_stop (c :: t) ('.' :: b) had
        (show isDigitChar '.' = false from by decide)
      rwa [List.cons_append] at h
    unfold numLitSplit
    rw [List.cons_append, numSign_eval neg c (t ++ '.' :: b) hc]
    show numLitRest neg (takeDigits (c :: (t ++ '.' :: b))).1
        (takeDigits (c :: (t ++ '.' :: b))).2 = _
    rw [htb]
    show numLitRest neg (c :: t) ('.' :: b) = _
    show numLitFrac neg (c :: t) (takeDigits b).1 (takeDigits b).2 = _
    rw [takeDigits_all b hbd]
    show numLitFrac neg (c :: t) b [] = _
    rfl

theorem numLitSplit_exp (neg : Bool) (a es : PyStr) (echar : Char) (k : Int)
    (ha : a ≠ []) (had : ∀ c ∈ a, isDigitChar c = true)
    (hec : echar = 'e' ∨ echar = 'E') (hE : numExp es = some k) :
    numLitSplit (if neg then '-' :: (a ++ echar :: es) else a ++ echar :: es)
      = some (neg, a, [], k) := by
  have hend : isDigitChar echar = false := by
    rcases hec with rfl | rfl <;> decide
  have hedot : ¬(echar = '.') := by
    rcases hec with rfl | rfl <;> decide
  cases a with
  | nil => exact absurd rfl ha
  | cons c t =>
    have hc : isDigitChar c = true := had c (List.mem_cons_self _ _)
    have htb : takeDigits (c :: (t ++ echar :: es)) = (c :: t, echar :: es) := by
      have h := takeDigits_stop (c :: t) (echar :: es) had hend
      rwa [List.cons_append] at h
    unfold numLitSplit
    rw [List.cons_append, numSign_eval neg c (t ++ echar :: es) hc]
    show numLitRest neg (takeDigits (c :: (t ++ echar :: es))).1
        (takeDigits (c :: (t ++ echar :: es))).2 = _
    rw [htb]
    show numLitRest neg (c :: t) (echar :: es) = _
    show (if echar = '.' then numLitFrac neg (c :: t) (takeDigits es).1 (takeDigits es).2
      else if echar = 'e' ∨ echar = 'E' then
        if (c :: t : PyStr).isEmpty then Option.none
        else
          match numExp es with
          | some ex => some (neg, c :: t, ([] : PyStr), ex)
          | Option.none => Option.none
      else Option.none) = _
    rw [if_neg hedot, if_pos hec]
    show (match numExp es with
      | some ex => some (neg, c :: t, ([] : PyStr), ex)
      | Option.none => Option.none) = _
    rw [hE]

theorem numLitSplit_dotExp (neg : Bool) (a b es : PyStr) (echar : Char) (k : Int)
    (ha : a ≠ []) (had : ∀ c ∈ a, isDigitChar c = true)
    (hbd : ∀ c ∈ b, isDigitChar c = true)
    (hec : echar = 'e' ∨ echar = 'E') (hE : numExp es = some k) :
    numLitSplit (if neg then '-' :: (a ++ '.' :: (b ++ echar :: es))
        else a ++ '.' :: (b ++ echar :: es))
      = some (neg, a, b, k) := by
  have hend : isDigitChar echar = false := by
    rcases hec with rfl | rfl <;> decide
  cases a with
  | nil => exact absurd rfl ha
  | cons c t =>
    have hc : isDigitChar c = true := had c (List.mem_cons_self _ _)
    have htb : takeDigits (c :: (t ++ '.' :: (b ++ echar :: es)))
        = (c :: t, '.' :: (b ++ echar :: es)) := by
      have h := takeDigits_stop (c :: t) ('.' :: (b ++ echar :: es)) had
        (show isDigitChar '.' = false from by decide)
      rwa [List.cons_append] at h
    have htb2 : takeDigits (b ++ echar :: es) = (b, echar :: es) :=
      takeDigits_stop b (echar :: es) hbd hend
    unfold numLitSplit
    rw [List.cons_append, numSign_eval neg c (t ++ '.' :: (b ++ echar :: es)) hc]
    show numLitRest neg (takeDigits (c :: (t ++ '.' :: (b ++ echar :: es)))).1
        (takeDigits (c :: (t ++ '.' :: (b ++ echar :: es)))).2 = _
    rw [htb]
    show numLitRest neg (c :: t) ('.' :: (b ++ echar :: es)) = _
    show numLitFrac neg (c :: t) (takeDigits (b ++ echar :: es)).1
        (takeDigits (b ++ echar :: es)).2 = _
    rw [htb2]
    show numLitFrac neg (c :: t) b (echar :: es) = _
    show (if echar = 'e' ∨ echar = 'E' then
        match numExp es with
        | some ex => some (neg, c :: t, b, ex)
        | Option.none => Option.none
      else Option.none) = _
    rw [if_pos hec]
    show (match numExp es with
      | some ex => some (neg, c :: t, b, ex)
      | Option.none => Option.none) = _
    rw [hE]

theorem floatFromStr_of_split {s : PyStr} {neg : Bool} {ids fds : PyStr} {ex : Int}
    (h : numLitSplit s = some (neg, ids, fds, ex)) :
    floatFromStr s = .ok (.float (if neg then
        -((charsToNat (ids ++ fds) : ℚ) * (10 : ℚ) ^ (ex - (fds.length : Int)))
      else (charsToNat (ids ++ fds) : ℚ) * (10 : ℚ) ^ (ex - (fds.length : Int)))) := by
  unfold floatFromStr
  rw [h]

theorem decimalFromStr_of_split {s : PyStr} {neg : Bool} {ids fds : PyStr} {ex : Int}
    (h : numLitSplit s = some (neg, ids, fds, ex)) :
    decimalFromStr s
      = .ok (.dec neg (stripLZ ((ids ++ fds).map fun c => c.toNat - 48))
          (ex - (fds.length : Int))) := by
  unfold decimalFromStr
  rw [h]


theorem decFindAux_den : ∀ (f j k : Nat) (q : ℚ), decFindAux q f j = some k →
    (q * (10 : ℚ) ^ k).den = 1 := by
  intro f
  induction f with
  | zero => intro j k q h; exact Option.noConfusion h
  | succ f ih =>
    intro j k q h
    have h' : (if (q * (10 : ℚ) ^ j).den = 1 then some j else decFindAux q f (j + 1))
        = some k := h
    by_cases hd : (q * (10 : ℚ) ^ j).den = 1
    · rw [if_pos hd] at h'
      injection h' with h'
      rw [← h']
      exact hd
    · rw [if_neg hd] at h'
      exact ih (j + 1) k q h'

theorem rat_shift {q x : ℚ} {t k : Nat} (h : x * (10 : ℚ) ^ t = q * (10 : ℚ) ^ k) :
    q = x * (10 : ℚ) ^ ((t : Int) - (k : Int)) := by
  have ht : (10 : ℚ) ≠ 0 := by norm_num
  have h2 : x * (10 : ℚ) ^ ((t : Int) - (k : Int))
      = x * ((10 : ℚ) ^ (t : Int) * (10 : ℚ) ^ (-(k : Int))) := by
    rw [← zpow_add₀ ht, ← sub_eq_add_neg]
  rw [h2, zpow_natCast, ← mul_assoc, h, zpow_neg, zpow_natCast, mul_assoc,
    mul_inv_cancel₀ (pow_ne_zero k (by norm_num)), mul_one]

theorem ite_neg_mul (b : Bool) (x y : ℚ) :
    (if b then -(x * y) else x * y) = (if b then -x else x) * y := by
  cases b with
  | true =>
    show -(x * y) = -x * y
    rw [neg_mul]
  | false => rfl

theorem decExtract_sound {q : ℚ} {neg : Bool} {cs : PyStr} {e : Int}
    (h : decExtract q = some (neg, cs, e)) :
    cs ≠ [] ∧ (∀ c ∈ cs, isDigitChar c = true) ∧
      q = (if neg then -(charsToNat cs : ℚ) else (charsToNat cs : ℚ)) * (10 : ℚ) ^ e := by
  unfold decExtract at h
  cases hf : decFindAux q 1200 0 with
  | none =>
    rw [hf] at h
    exact Option.noConfusion h
  | some k =>
    rw [hf] at h
    have hden : (q * (10 : ℚ) ^ k).den = 1 := decFindAux_den 1200 0 k q hf
    have h' : (if (q * (10 : ℚ) ^ k).num = 0
        then some ((false, ['0'], (0 : Int)) : Bool × PyStr × Int)
        else some (decide ((q * (10 : ℚ) ^ k).num < 0),
          ((natToChars (q * (10 : ℚ) ^ k).num.natAbs).reverse.dropWhile
            fun c => c = '0').reverse,
          ((((natToChars (q * (10 : ℚ) ^ k).num.natAbs).length
            - ((natToChars (q * (10 : ℚ) ^ k).num.natAbs).reverse.dropWhile
                fun c => c = '0').reverse.length : Nat)) : Int) - (k : Int)))
        = some (neg, cs, e) := h
    set m := (q * (10 : ℚ) ^ k).num with hmdef
    have hx : ((m : Int) : ℚ) = q * (10 : ℚ) ^ k := by
      rw [hmdef]
      have h0 := Rat.num_div_den (q * (10 : ℚ) ^ k)
      rw [hden] at h0
      simpa using h0
    by_cases hm : m = 0
    · rw [if_pos hm] at h'
      injection h' with h'
      rw [Prod.mk.injEq, Prod.mk.injEq] at h'
      obtain ⟨h1, h2, h3⟩ := h' 
      subst h1
      subst h2
      subst h3
      have hq0 : q = 0 := by
        rw [hm] at hx
        have h10 : (10 : ℚ) ^ k ≠ 0 := pow_ne_zero k (by norm_num)
        have hqx : q * (10 : ℚ) ^ k = 0 := by
          rw [← hx]
          norm_num
        rcases mul_eq_zero.mp hqx with hq | hp
        · exact hq
        · exact absurd hp h10
      refine ⟨by simp, by decide, ?_⟩
      rw [hq0]
      have hc0 : charsToNat ['0'] = 0 := by decide
      show (0 : ℚ) = (if (false : Bool) then -(charsToNat ['0'] : ℚ)
        else (charsToNat ['0'] : ℚ)) * (10 : ℚ) ^ (0 : Int)
      rw [hc0]
      simp
    · rw [if_neg hm] at h'
      set cs0 := natToChars m.natAbs with hcs0
      set rdrop := cs0.reverse.dropWhile (fun c => c = '0') with hrd
      injection h' with h'
      rw [Prod.mk.injEq, Prod.mk.injEq] at h'
      obtain ⟨h1, h2, h3⟩ := h' 
      subst h1
      subst h2
      subst h3
      have h0 : cs0.reverse.takeWhile (fun c => c = '0') ++ rdrop = cs0.reverse := by
        rw [hrd]
        exact List.takeWhile_append_dropWhile _ _
      have hsplit0 : rdrop.reverse ++ (cs0.reverse.takeWhile (fun c => c = '0')).reverse
          = cs0 := by
        have h1 := congrArg List.reverse h0
        rwa [List.reverse_append, List.reverse_reverse] at h1
      obtain ⟨t, htw⟩ : ∃ t, (cs0.reverse.takeWhile (fun c => c = '0')).reverse
          = List.replicate t '0' := by
        refine ⟨(cs0.reverse.takeWhile (fun c => c = '0')).reverse.length, ?_⟩
        apply List.eq_replicate_of_mem
        intro b hb
        rw [List.mem_reverse] at hb
        have hp := List.mem_takeWhile_imp hb
        exact of_decide_eq_true hp
      rw [htw] at hsplit0
      have hnum : charsToNat cs0 = m.natAbs := by
        rw [hcs0]
        exact charsToNat_natToChars _
      have hval0 : charsToNat rdrop.reverse * 10 ^ t = m.natAbs := by
        rw [← hnum, ← hsplit0]
        exact (charsToNat_append_zeros _ _).symm
      have hlen : cs0.length = rdrop.reverse.length + t := by
        rw [← hsplit0, List.length_append, List.length_replicate]
      have hrne : rdrop.reverse ≠ [] := by
        intro hnil
        rw [hnil, List.nil_append] at hsplit0
        have hz : m.natAbs = 0 := by
          rw [← hnum, ← hsplit0]
          exact charsToNat_zeros t
        exact hm (by omega)
      have hdig : ∀ c ∈ rdrop.reverse, isDigitChar c = true := by
        intro c hcm
        have h1 : c ∈ cs0 := by
          rw [← hsplit0]
          exact List.mem_append_left _ hcm
        rw [hcs0] at h1
        exact natToChars_all_digits _ c h1
      refine ⟨hrne, hdig, ?_⟩
      have htt : ((cs0.length - rdrop.reverse.length : Nat) : Int) = (t : Int) := by
        omega
      rw [htt]
      have habs : ((m.natAbs : Nat) : ℚ) = (charsToNat rdrop.reverse : ℚ) * (10 : ℚ) ^ t := by
        rw [← hval0]
        push_cast
        ring
      by_cases hneg : m < 0
      · rw [if_pos (decide_eq_true hneg)]
        apply rat_shift
        have hmq : ((m : Int) : ℚ) = -((m.natAbs : Nat) : ℚ) := by
          have hmi : ((m.natAbs : Nat) : Int) = -m := by omega
          have hc := congrArg (fun z : Int => (z : ℚ)) hmi
          simp only [Int.cast_neg, Int.cast_natCast] at hc
          linarith
        rw [← hx, hmq, habs, neg_mul]
      · rw [if_neg (by simpa using hneg)]
        apply rat_shift
        have hmq : ((m : Int) : ℚ) = ((m.natAbs : Nat) : ℚ) := by
          have hmi : ((m.natAbs : Nat) : Int) = m := by omega
          have hc := congrArg (fun z : Int => (z : ℚ)) hmi
          simp only [Int.cast_natCast] at hc
          linarith
        rw [← hx, hmq, habs]


theorem floatFromStr_reprCore {q : ℚ} {neg : Bool} {cs : PyStr} {e : Int}
    (h : decExtract q = some (neg, cs, e)) :
    floatFromStr (floatReprCore neg cs e) = .ok (.float q) := by
  obtain ⟨hne, hdig, hval⟩ := decExtract_sound h
  have hcl : 1 ≤ cs.length := by
    cases cs with
    | nil => exact absurd rfl hne
    | cons _ _ => simp
  unfold floatReprCore floatReprBody
  by_cases hfix : -4 < e + (cs.length : Int) ∧ e + (cs.length : Int) ≤ 16
  · rw [if_pos hfix]
    by_cases hL0 : e + (cs.length : Int) ≤ 0
    · rw [if_pos hL0]
      have hzz : (((-(e + (cs.length : Int))).toNat : Nat) : Int) = -(e + (cs.length : Int)) :=
        Int.toNat_of_nonneg (by omega)
      show floatFromStr (if neg
        then '-' :: (['0'] ++ '.' :: (List.replicate (-(e + (cs.length : Int))).toNat '0' ++ cs))
        else ['0'] ++ '.' :: (List.replicate (-(e + (cs.length : Int))).toNat '0' ++ cs))
        = .ok (.float q)
      have hsp := numLitSplit_dot neg ['0']
        (List.replicate (-(e + (cs.length : Int))).toNat '0' ++ cs) (by simp)
        (by intro c hc; rcases List.mem_singleton.mp hc with rfl; decide)
        (by
          intro c hc
          rcases List.mem_append.mp hc with h1 | h1
          · rw [List.eq_of_mem_replicate h1]; decide
          · exact hdig c h1)
      rw [floatFromStr_of_split hsp]
      have hch : charsToNat (['0'] ++ (List.replicate (-(e + (cs.length : Int))).toNat '0' ++ cs))
          = charsToNat cs := by
        show charsToNat ('0' :: (List.replicate (-(e + (cs.length : Int))).toNat '0' ++ cs)) = _
        rw [charsToNat_cons_zero, charsToNat_zeros_append]
      have hexp : (0 : Int)
          - (((List.replicate (-(e + (cs.length : Int))).toNat '0' ++ cs) : PyStr).length : Int)
          = e := by
        rw [List.length_append, List.length_replicate]
        push_cast
        omega
      rw [hch, hexp, ite_neg_mul, ← hval]
    · rw [if_neg hL0]
      by_cases hen : e < 0
      · rw [if_pos hen]
        have hτ : (((e + (cs.length : Int)).toNat : Nat) : Int) = e + (cs.length : Int) :=
          Int.toNat_of_nonneg (by omega)
        have hane : cs.take (e + (cs.length : Int)).toNat ≠ [] := by
          intro h0
          have h1 := congrArg List.length h0
          rw [List.length_take, List.length_nil] at h1
          omega
        have hsp := numLitSplit_dot neg (cs.take (e + (cs.length : Int)).toNat)
          (cs.drop (e + (cs.length : Int)).toNat) hane
          (fun c hc => hdig c (List.mem_of_mem_take hc))
          (fun c hc => hdig c (List.mem_of_mem_drop hc))
        rw [floatFromStr_of_split hsp]
        have hch : charsToNat (cs.take (e + (cs.length : Int)).toNat
            ++ cs.drop (e + (cs.length : Int)).toNat) = charsToNat cs := by
          rw [List.take_append_drop]
        have hexp : (0 : Int) - ((cs.drop (e + (cs.length : Int)).toNat).length : Int) = e := by
          rw [List.length_drop]
          omega
        rw [hch, hexp, ite_neg_mul, ← hval]
      · rw [if_neg hen]
        have he0 : ((e.toNat : Nat) : Int) = e := Int.toNat_of_nonneg (by omega)
        have hane : cs ++ List.replicate e.toNat '0' ≠ [] := by
          intro h0
          have h1 := congrArg List.length h0
          rw [List.length_append, List.length_nil] at h1
          omega
        have hsp := numLitSplit_dot neg (cs ++ List.replicate e.toNat '0') ['0'] hane
          (by
            intro c hc
            rcases List.mem_append.mp hc with h1 | h1
            · exact hdig c h1
            · rw [List.eq_of_mem_replicate h1]; decide)
          (by intro c hc; rcases List.mem_singleton.mp hc with rfl; decide)
        rw [floatFromStr_of_split hsp]
        have hch : charsToNat ((cs ++ List.replicate e.toNat '0') ++ ['0'])
            = charsToNat cs * 10 ^ (e.toNat + 1) := by
          have h1 : (cs ++ List.replicate e.toNat '0') ++ ['0']
              = cs ++ List.replicate (e.toNat + 1) '0' := by
            rw [List.append_assoc]
            congr 1
            rw [← List.replicate_succ']
          rw [h1, charsToNat_append_zeros]
        rw [hch]
        have hv2 : ((charsToNat cs * 10 ^ (e.toNat + 1) : Nat) : ℚ)
            * (10 : ℚ) ^ ((0 : Int) - ((['0'] : PyStr).length : Int))
            = (charsToNat cs : ℚ) * (10 : ℚ) ^ e := by
          rw [show ((['0'] : PyStr).length : Int) = 1 from rfl]
          push_cast
          rw [mul_assoc, ← zpow_natCast (10 : ℚ) (e.toNat + 1),
            ← zpow_add₀ (by norm_num : (10 : ℚ) ≠ 0)]
          rw [show (((e.toNat + 1 : ℕ) : Int) + -1) = e from by omega]
        rw [hv2, ite_neg_mul, ← hval]
  · rw [if_neg hfix]
    cases cs with
    | nil => exact absurd rfl hne
    | cons c rest =>
      cases rest with
      | nil =>
        show floatFromStr (if neg then '-' :: ([c] ++ 'e' :: expSign2 e)
          else [c] ++ 'e' :: expSign2 e) = .ok (.float q)
        have hsp := numLitSplit_exp neg [c] (expSign2 e) 'e' e (by simp) hdig
          (Or.inl rfl) (numExp_expSign2 e)
        rw [floatFromStr_of_split hsp]
        have hch : charsToNat ([c] ++ ([] : PyStr)) = charsToNat [c] := by
          rw [List.append_nil]
        have hexp : e - ((([] : PyStr)).length : Int) = e := by
          rw [show ((([] : PyStr)).length : Int) = 0 from rfl, sub_zero]
        rw [hch, hexp, ite_neg_mul, ← hval]
      | cons c₂ r₂ =>
        show floatFromStr (if neg
          then '-' :: ([c] ++ '.' :: ((c₂ :: r₂)
            ++ 'e' :: expSign2 (e + (((c₂ :: r₂) : PyStr).length : Int))))
          else [c] ++ '.' :: ((c₂ :: r₂)
            ++ 'e' :: expSign2 (e + (((c₂ :: r₂) : PyStr).length : Int))))
          = .ok (.float q)
        have hsp := numLitSplit_dotExp neg [c] (c₂ :: r₂)
          (expSign2 (e + (((c₂ :: r₂) : PyStr).length : Int))) 'e'
          (e + (((c₂ :: r₂) : PyStr).length : Int)) (by simp)
          (by
            intro x hx
            have hx' : x = c := List.mem_singleton.mp hx
            rw [hx']
            exact hdig c (List.mem_cons_self _ _))
          (fun x hx => hdig x (List.mem_cons_of_mem _ hx))
          (Or.inl rfl) (numExp_expSign2 _)
        rw [floatFromStr_of_split hsp]
        have hch : charsToNat ([c] ++ (c₂ :: r₂)) = charsToNat (c :: c₂ :: r₂) := rfl
        have hexp : (e + (((c₂ :: r₂) : PyStr).length : Int))
            - (((c₂ :: r₂) : PyStr).length : Int) = e := add_sub_cancel_right e _
        rw [hch, hexp, ite_neg_mul, ← hval]


theorem map_sub48_digitChar : ∀ (ds : List Nat), (∀ d ∈ ds, d < 10) →
    (ds.map digitChar).map (fun c => c.toNat - 48) = ds := by
  intro ds
  induction ds with
  | nil => intro _; rfl
  | cons d t ih =>
    intro h
    have hd : (digitChar d).toNat - 48 = d := by
      rw [toNat_digitChar (h d (List.mem_cons_self _ _))]
      omega
    simp only [List.map_cons, hd, ih (fun x hx => h x (List.mem_cons_of_mem _ hx))]

theorem mem_map_digitChar_digit {ds : List Nat} (h : ∀ d ∈ ds, d < 10) :
    ∀ c ∈ ds.map digitChar, isDigitChar c = true := by
  intro c hc
  rcases List.mem_map.mp hc with ⟨d, hd, rfl⟩
  exact isDigitChar_digitChar (h d hd)

theorem stripLZ_cons_zero (t : List Nat) : stripLZ (0 :: t) = stripLZ t := by
  show (if 0 = 0 then stripLZ t else 0 :: t) = stripLZ t
  rw [if_pos rfl]

theorem stripLZ_cons_ne {d : Nat} (hd : ¬(d = 0)) (t : List Nat) : stripLZ (d :: t) = d :: t := by
  show (if d = 0 then stripLZ t else d :: t) = d :: t
  rw [if_neg hd]

theorem stripLZ_zeros_append (k : Nat) (xs : List Nat) :
    stripLZ (List.replicate k 0 ++ xs) = stripLZ xs := by
  induction k with
  | zero => rfl
  | succ k ih => rw [List.replicate_succ, List.cons_append, stripLZ_cons_zero, ih]

theorem stripLZ_canon {ds : List Nat} (h : decCanon ds) : stripLZ ds = ds := by
  obtain ⟨hne, _, hz⟩ := h
  cases ds with
  | nil => exact absurd rfl hne
  | cons d t =>
    by_cases hd : d = 0
    · subst hd
      have h0 : (0 :: t : List Nat) = [0] := hz rfl
      rw [h0]
      rfl
    · exact stripLZ_cons_ne hd t

theorem decimalFromStr_decRepr {neg : Bool} {ds : List Nat} {e : Int} (h : decCanon ds) :
    decimalFromStr (decRepr neg ds e) = .ok (.dec neg ds e) := by
  obtain ⟨hne, hlt, hz⟩ := h
  have hmd : ∀ c ∈ ds.map digitChar, isDigitChar c = true := mem_map_digitChar_digit hlt
  have hstrip : stripLZ ds = ds := stripLZ_canon ⟨hne, hlt, hz⟩
  have hcl : 1 ≤ ds.length := by
    cases ds with
    | nil => exact absurd rfl hne
    | cons _ _ => simp
  unfold decRepr decReprBody
  by_cases hA : e ≤ 0 ∧ -6 < e + (ds.length : Int)
  · rw [if_pos hA]
    by_cases hL0 : e + (ds.length : Int) ≤ 0
    · rw [if_pos hL0]
      have hzz : (((-(e + (ds.length : Int))).toNat : Nat) : Int) = -(e + (ds.length : Int)) :=
        Int.toNat_of_nonneg (by omega)
      show decimalFromStr (if neg
        then '-' :: (['0'] ++ '.' :: (List.replicate (-(e + (ds.length : Int))).toNat '0'
          ++ ds.map digitChar))
        else ['0'] ++ '.' :: (List.replicate (-(e + (ds.length : Int))).toNat '0'
          ++ ds.map digitChar))
        = .ok (.dec neg ds e)
      have hsp := numLitSplit_dot neg ['0']
        (List.replicate (-(e + (ds.length : Int))).toNat '0' ++ ds.map digitChar) (by simp)
        (by intro c hc; rcases List.mem_singleton.mp hc with rfl; decide)
        (by
          intro c hc
          rcases List.mem_append.mp hc with h1 | h1
          · rw [List.eq_of_mem_replicate h1]; decide
          · exact hmd c h1)
      rw [decimalFromStr_of_split hsp]
      have hdigits : stripLZ (((['0'] ++ (List.replicate (-(e + (ds.length : Int))).toNat '0'
          ++ ds.map digitChar)) : PyStr).map fun c => c.toNat - 48) = ds := by
        have hmap : (((['0'] ++ (List.replicate (-(e + (ds.length : Int))).toNat '0'
            ++ ds.map digitChar)) : PyStr).map fun c => c.toNat - 48)
            = 0 :: (List.replicate (-(e + (ds.length : Int))).toNat 0 ++ ds) := by
          rw [List.map_append, List.map_append, map_sub48_digitChar ds hlt, List.map_replicate]
          rfl
        rw [hmap, stripLZ_cons_zero, stripLZ_zeros_append, hstrip]
      have hexp : (0 : Int) - (((List.replicate (-(e + (ds.length : Int))).toNat '0'
          ++ ds.map digitChar) : PyStr).length : Int) = e := by
        rw [List.length_append, List.length_replicate, List.length_map]
        push_cast
        omega
      rw [hdigits, hexp]
    · rw [if_neg hL0]
      by_cases hen : e < 0
      · rw [if_pos hen]
        have hτ : (((e + (ds.length : Int)).toNat : Nat) : Int) = e + (ds.length : Int) :=
          Int.toNat_of_nonneg (by omega)
        have hane : (ds.map digitChar).take (e + (ds.length : Int)).toNat ≠ [] := by
          intro h0
          have h1 := congrArg List.length h0
          rw [List.length_take, List.length_map, List.length_nil] at h1
          omega
        have hsp := numLitSplit_dot neg ((ds.map digitChar).take (e + (ds.length : Int)).toNat)
          ((ds.map digitChar).drop (e + (ds.length : Int)).toNat) hane
          (fun c hc => hmd c (List.mem_of_mem_take hc))
          (fun c hc => hmd c (List.mem_of_mem_drop hc))
        rw [decimalFromStr_of_split hsp]
        have hdigits : stripLZ ((((ds.map digitChar).take (e + (ds.length : Int)).toNat
            ++ (ds.map digitChar).drop (e + (ds.length : Int)).toNat) : PyStr).map
              fun c => c.toNat - 48) = ds := by
          rw [List.take_append_drop, map_sub48_digitChar ds hlt, hstrip]
        have hexp : (0 : Int)
            - (((ds.map digitChar).drop (e + (ds.length : Int)).toNat).length : Int) = e := by
          rw [List.length_drop, List.length_map]
          omega
        rw [hdigits, hexp]
      · rw [if_neg hen]
        have hane : ds.map digitChar ≠ [] := by
          intro h0
          have h1 := congrArg List.length h0
          rw [List.length_map, List.length_nil] at h1
          omega
        have hsp := numLitSplit_digits neg (ds.map digitChar) hane hmd
        rw [decimalFromStr_of_split hsp]
        have hdigits : stripLZ ((((ds.map digitChar) ++ ([] : PyStr)) : PyStr).map
            fun c => c.toNat - 48) = ds := by
          rw [List.append_nil, map_sub48_digitChar ds hlt, hstrip]
        have hexp : (0 : Int) - ((([] : PyStr)).length : Int) = e := by
          have he0 : e = 0 := by omega
          rw [he0]
          rfl
        rw [hdigits, hexp]
  · rw [if_neg hA]
    cases ds with
    | nil => exact absurd rfl hne
    | cons d t =>
      cases t with
      | nil =>
        show decimalFromStr (if neg then '-' :: ([digitChar d] ++ 'E' :: expSignD e)
          else [digitChar d] ++ 'E' :: expSignD e) = .ok (.dec neg [d] e)
        have hsp := numLitSplit_exp neg [digitChar d] (expSignD e) 'E' e (by simp)
          (by
            intro c hc
            have hc' : c = digitChar d := List.mem_singleton.mp hc
            rw [hc']
            exact isDigitChar_digitChar (hlt d (List.mem_cons_self _ _)))
          (Or.inr rfl) (numExp_expSignD e)
        rw [decimalFromStr_of_split hsp]
        have hdigits : stripLZ ((([digitChar d] ++ ([] : PyStr)) : PyStr).map
            fun c => c.toNat - 48) = [d] := by
          have hm : ((([d].map digitChar) : PyStr).map fun c => c.toNat - 48) = [d] :=
            map_sub48_digitChar [d]
              (by
                intro x hx
                have hx' : x = d := List.mem_singleton.mp hx
                rw [hx']
                exact hlt d (List.mem_cons_self _ _))
          rw [List.append_nil]
          show stripLZ ((([d].map digitChar) : PyStr).map fun c => c.toNat - 48) = [d]
          rw [hm]
          exact hstrip
        have hexp : e - ((([] : PyStr)).length : Int) = e := by
          rw [show ((([] : PyStr)).length : Int) = 0 from rfl, sub_zero]
        rw [hdigits, hexp]
      | cons d₂ r₂ =>
        show decimalFromStr (if neg
          then '-' :: ([digitChar d] ++ '.' :: (((d₂ :: r₂).map digitChar)
            ++ 'E' :: expSignD (e + (((d₂ :: r₂) : List Nat).length : Int))))
          else [digitChar d] ++ '.' :: (((d₂ :: r₂).map digitChar)
            ++ 'E' :: expSignD (e + (((d₂ :: r₂) : List Nat).length : Int))))
          = .ok (.dec neg (d :: d₂ :: r₂) e)
        have hsp := numLitSplit_dotExp neg [digitChar d] ((d₂ :: r₂).map digitChar)
          (expSignD (e + (((d₂ :: r₂) : List Nat).length : Int))) 'E'
          (e + (((d₂ :: r₂) : List Nat).length : Int)) (by simp)
          (by
            intro c hc
            have hc' : c = digitChar d := List.mem_singleton.mp hc
            rw [hc']
            exact isDigitChar_digitChar (hlt d (List.mem_cons_self _ _)))
          (mem_map_digitChar_digit (fun x hx => hlt x (List.mem_cons_of_mem _ hx)))
          (Or.inr rfl) (numExp_expSignD _)
        rw [decimalFromStr_of_split hsp]
        have hdigits : stripLZ ((([digitChar d] ++ (d₂ :: r₂).map digitChar) : PyStr).map
            fun c => c.toNat - 48) = d :: d₂ :: r₂ := by
          have hm : ((((d :: d₂ :: r₂).map digitChar) : PyStr).map fun c => c.toNat - 48)
              = d :: d₂ :: r₂ := map_sub48_digitChar _ hlt
          show stripLZ ((((d :: d₂ :: r₂).map digitChar) : PyStr).map fun c => c.toNat - 48)
            = d :: d₂ :: r₂
          rw [hm]
          exact hstrip
        have hexp : (e + (((d₂ :: r₂) : List Nat).length : Int))
            - ((((d₂ :: r₂).map digitChar : PyStr)).length : Int) = e := by
          rw [List.length_map]
          exact add_sub_cancel_right e _
        rw [hdigits, hexp]


/-! ## Round trips `from_str(to_str(v))` -/

/-- `from_str(to_str(v))` for one option kind: serialize and convert the
resulting string back (`to_str` must produce a string for the composition to
be defined, exactly as `parser.set` demands). -/
def roundTrip (k : OptKind) (v : PyVal) : Except PyErr PyVal := do
  let r ← kToStr k v
  match r with
  | .str s => kFromStr k s
  | _ => .error (.typeErrorMsg "option values must be strings".data)

theorem roundTrip_int (n : Int) : roundTrip .intO (.int n) = .ok (.int n) := by
  show (intOf (pyIntRepr n)).map PyVal.int = .ok (.int n)
  unfold intOf
  rw [pyParseInt_roundtrip]
  rfl

theorem roundTrip_bool (b : Bool) : roundTrip .boolO (.bool b) = .ok (.bool b) := by
  cases b <;> decide

theorem roundTrip_float {q : ℚ} {neg : Bool} {cs : PyStr} {e : Int}
    (h : decExtract q = some (neg, cs, e)) :
    roundTrip .floatO (.float q) = .ok (.float q) := by
  show floatFromStr (pyFloatRepr q) = .ok (.float q)
  unfold pyFloatRepr
  rw [h]
  exact floatFromStr_reprCore h

theorem roundTrip_decimal {neg : Bool} {ds : List Nat} {e : Int} (h : decCanon ds) :
    roundTrip .decimalO (.dec neg ds e) = .ok (.dec neg ds e) := by
  show decimalFromStr (decRepr neg ds e) = .ok (.dec neg ds e)
  exact decimalFromStr_decRepr h

theorem mem_pyIntRepr {c : Char} {i : Int} (h : c ∈ pyIntRepr i) :
    isDigitChar c = true ∨ c = '-' := by
  unfold pyIntRepr at h
  by_cases hneg : i < 0
  · rw [if_pos hneg] at h
    rcases List.mem_cons.mp h with rfl | h'
    · exact Or.inr rfl
    · exact Or.inl (pyNatRepr_all_digits _ c h')
  · rw [if_neg hneg] at h
    exact Or.inl (pyNatRepr_all_digits _ c h)

theorem comma_not_mem_pyIntRepr (i : Int) : ',' ∉ pyIntRepr i := by
  intro h
  rcases mem_pyIntRepr h with h' | h'
  · rw [show isDigitChar ',' = false from by decide] at h'
    exact Bool.false_ne_true h'
  · exact absurd h' (by decide)

theorem dash_not_mem_pyNatRepr (n : Nat) : '-' ∉ pyNatRepr n := by
  intro h
  have := pyNatRepr_all_digits n '-' h
  rw [not_digit_dash] at this
  exact Bool.false_ne_true this

theorem mapM_map_ok {α β γ : Type} (f : α → Except PyErr γ) (g : β → α) (h₀ : β → γ)
    (xs : List β) (h : ∀ x ∈ xs, f (g x) = .ok (h₀ x)) :
    (xs.map g).mapM f = .ok (xs.map h₀) := by
  induction xs with
  | nil => rfl
  | cons x t ih =>
    rw [List.map_cons, List.mapM_cons, h x (List.mem_cons_self x t),
      ih fun y hy => h y (List.mem_cons_of_mem x hy)]
    rfl

theorem pyIntRepr_ne_nil (i : Int) : pyIntRepr i ≠ [] := by
  unfold pyIntRepr
  by_cases hneg : i < 0
  · rw [if_pos hneg]; simp
  · rw [if_neg hneg]; exact pyNatRepr_ne_nil _

theorem intOf_pyIntRepr (i : Int) : intOf (pyIntRepr i) = .ok i := by
  unfold intOf
  rw [pyParseInt_roundtrip]

theorem roundTrip_list_int (xs : List Int) :
    roundTrip (.listO .i ", ".data) (.list (xs.map .int)) = .ok (.list (xs.map .int)) := by
  have hmapstr : (xs.map PyVal.int).map pyStrOf = xs.map pyIntRepr := by
    rw [List.map_map]
    exact List.map_congr_left fun a _ => rfl
  have hrt : roundTrip (.listO .i ", ".data) (.list (xs.map .int))
      = listFromStr .i ", ".data (pyJoin ", ".data (xs.map pyIntRepr)) := by
    show listFromStr .i ", ".data (pyJoin ", ".data ((xs.map PyVal.int).map pyStrOf)) = _
    rw [hmapstr]
  rw [hrt]
  cases xs with
  | nil => rfl
  | cons y t =>
    have hpieces : ∀ p ∈ (y :: t).map pyIntRepr, ',' ∉ p := by
      intro p hp
      rcases List.mem_map.mp hp with ⟨i, _, rfl⟩
      exact comma_not_mem_pyIntRepr i
    have hjne : pyJoin ", ".data ((y :: t).map pyIntRepr) ≠ [] := by
      rcases t with _ | ⟨z, t'⟩
      · simpa [pyJoin] using pyIntRepr_ne_nil y
      · show pyIntRepr y ++ ", ".data ++ _ ≠ []
        simp [pyIntRepr_ne_nil y]
    have hempty : (pyJoin ", ".data ((y :: t).map pyIntRepr)).isEmpty = false := by
      rcases h : pyJoin ", ".data ((y :: t).map pyIntRepr) with _ | _
      · exact absurd h hjne
      · rfl
    unfold listFromStr
    rw [hempty]
    simp only [Bool.false_eq_true, if_false]
    rw [pySplit_join (by simp) hpieces,
      mapM_map_ok (itemConv .i) pyIntRepr PyVal.int (y :: t)
        (fun x _ => by
          show (intOf (pyIntRepr x)).map PyVal.int = Except.ok (PyVal.int x)
          rw [intOf_pyIntRepr]
          rfl)]
    rfl

theorem roundTrip_range {lo hi : Int} (hlo : 0 ≤ lo) (hhi : 0 ≤ hi) :
    roundTrip (.rangeO ['-']) (.range lo hi) = .ok (.range lo hi) := by
  have hnotmem : ∀ i : Int, 0 ≤ i → '-' ∉ pyIntRepr i := by
    intro i hi hmem
    rw [pyIntRepr, if_neg (by omega)] at hmem
    exact dash_not_mem_pyNatRepr _ hmem
  have hjoin : pyIntRepr lo ++ ['-'] ++ pyIntRepr hi
      = pyJoin ['-'] [pyIntRepr lo, pyIntRepr hi] := rfl
  show rangeFromStr ['-'] (pyIntRepr lo ++ ['-'] ++ pyIntRepr hi)
      = Except.ok (PyVal.range lo hi)
  unfold rangeFromStr
  rw [hjoin, pySplit_join (by simp)
    (by
      intro p hp
      rcases List.mem_cons.mp hp with rfl | hp'
      · exact hnotmem lo hlo
      · rcases List.mem_singleton.mp hp' with rfl
        exact hnotmem hi hhi)]
  show (intOf (pyIntRepr lo)).bind (fun a => (intOf (pyIntRepr hi)).bind
      fun b => Except.ok (PyVal.range a b)) = Except.ok (PyVal.range lo hi)
  rw [intOf_pyIntRepr, intOf_pyIntRepr]
  rfl

/-! ### Fixed-width numeric fields (datetime round trip) -/

theorem foldl_digits_replicate_zero (k : Nat) :
    List.foldl (fun a c => 10 * a + (c.toNat - 48)) 0 (List.replicate k '0') = 0 := by
  induction k with
  | zero => rfl
  | succ k ih => rw [List.replicate_succ, List.foldl_cons]; simpa using ih

theorem charsToNat_padNat (k n : Nat) : charsToNat (padNat k n) = n := by
  unfold charsToNat padNat
  rw [List.foldl_append, foldl_digits_replicate_zero]
  exact charsToNat_pyNatRepr n

theorem length_pyNatRepr_le {n k : Nat} (hk : 1 ≤ k) (h : n < 10 ^ k) :
    (pyNatRepr n).length ≤ k := by
  unfold pyNatRepr
  by_cases hn : n = 0
  · rw [if_pos hn]; simpa using hk
  · rw [if_neg hn]; exact length_natToChars_le h

theorem padNat_length {k n : Nat} (hk : 1 ≤ k) (h : n < 10 ^ k) :
    (padNat k n).length = k := by
  unfold padNat
  rw [List.length_append, List.length_replicate]
  have := length_pyNatRepr_le hk h
  omega

theorem padNat_all_digits (k n : Nat) : (padNat k n).all isDigitChar = true := by
  rw [List.all_eq_true]
  intro c hc
  rcases List.mem_append.mp hc with h | h
  · rcases List.eq_of_mem_replicate h with rfl
    decide
  · exact pyNatRepr_all_digits n c h

theorem readFixedNat_padNat {k n : Nat} (rest : PyStr) (hk : 1 ≤ k) (h : n < 10 ^ k) :
    readFixedNat k (padNat k n ++ rest) = some (n, rest) := by
  have hlen := padNat_length hk h
  have htake : (padNat k n ++ rest).take k = padNat k n := by
    have := List.take_left (padNat k n) rest
    rwa [hlen] at this
  have hdrop : (padNat k n ++ rest).drop k = rest := by
    have := List.drop_left (padNat k n) rest
    rwa [hlen] at this
  unfold readFixedNat
  rw [htake, hdrop]
  rw [if_pos (by rw [hlen, padNat_all_digits]; simp)]
  rw [charsToNat_padNat]

set_option maxHeartbeats 2000000 in
/-- Round trip for naive datetimes through the ISO format. -/
theorem dtFromIso_roundtrip {d : DTime} (h : d.valid) :
    dtFromIso (dtIsoformat d) = .ok (.datetime d) := by
  obtain ⟨h1, h2, h3, h4, h5, h6, h7, h8, h9, h10⟩ := h
  have hy : d.year < 10 ^ 4 := by norm_num; omega
  have hmo : d.month < 10 ^ 2 := by norm_num; omega
  have hdy : d.day < 10 ^ 2 := by norm_num; omega
  have hh : d.hour < 10 ^ 2 := by norm_num; omega
  have hmi : d.minute < 10 ^ 2 := by norm_num; omega
  have hs : d.second < 10 ^ 2 := by norm_num; omega
  have hus : d.microsecond < 10 ^ 6 := by norm_num; omega
  have Ry : ∀ rest : PyStr, readFixedNat 4 (padNat 4 d.year ++ rest) = some (d.year, rest) :=
    fun rest => readFixedNat_padNat rest (by norm_num) hy
  have Rmo : ∀ rest : PyStr, readFixedNat 2 (padNat 2 d.month ++ rest) = some (d.month, rest) :=
    fun rest => readFixedNat_padNat rest (by norm_num) hmo
  have Rdy : ∀ rest : PyStr, readFixedNat 2 (padNat 2 d.day ++ rest) = some (d.day, rest) :=
    fun rest => readFixedNat_padNat rest (by norm_num) hdy
  have Rh : ∀ rest : PyStr, readFixedNat 2 (padNat 2 d.hour ++ rest) = some (d.hour, rest) :=
    fun rest => readFixedNat_padNat rest (by norm_num) hh
  have Rmi : ∀ rest : PyStr, readFixedNat 2 (padNat 2 d.minute ++ rest) = some (d.minute, rest) :=
    fun rest => readFixedNat_padNat rest (by norm_num) hmi
  have Rs : ∀ rest : PyStr, readFixedNat 2 (padNat 2 d.second ++ rest) = some (d.second, rest) :=
    fun rest => readFixedNat_padNat rest (by norm_num) hs
  have RsN : readFixedNat 2 (padNat 2 d.second) = some (d.second, []) := by
    have := readFixedNat_padNat (k := 2) (n := d.second) [] (by norm_num) hs
    rwa [List.append_nil] at this
  have RusN : readFixedNat 6 (padNat 6 d.microsecond) = some (d.microsecond, []) := by
    have := readFixedNat_padNat (k := 6) (n := d.microsecond) [] (by norm_num) hus
    rwa [List.append_nil] at this
  unfold dtFromIso dtIsoformat dtFormat
  by_cases husz : d.microsecond = 0
  · rw [if_pos husz]
    simp only [List.append_nil, Option.bind_eq_bind, Ry, Rmo, Rdy, Rh, Rmi, RsN, expectChar,
      Option.some_bind, if_true]
    rw [← husz]
  · rw [if_neg husz]
    simp only [Option.bind_eq_bind, Ry, Rmo, Rdy, Rh, Rmi, Rs, RusN, expectChar,
      Option.some_bind, List.isEmpty_nil, if_true]

/-! ### JSON round trip: string escapes -/

theorem hexVal_hexDigitChar {d : Nat} (h : d < 16) : hexVal (hexDigitChar d) = some d := by
  interval_cases d <;> decide

theorem readHex4_hex4 {n : Nat} (h : n < 65536) (rest : PyStr) :
    readHex4 (hex4 n ++ rest) = some (n, rest) := by
  show readHex4 (hexDigitChar (n / 4096 % 16) :: hexDigitChar (n / 256 % 16) ::
    hexDigitChar (n / 16 % 16) :: hexDigitChar (n % 16) :: rest) = some (n, rest)
  simp only [readHex4, hexVal_hexDigitChar (show n / 4096 % 16 < 16 by omega),
    hexVal_hexDigitChar (show n / 256 % 16 < 16 by omega),
    hexVal_hexDigitChar (show n / 16 % 16 < 16 by omega),
    hexVal_hexDigitChar (show n % 16 < 16 by omega),
    Option.bind_eq_bind, Option.some_bind]
  have harith : 4096 * (n / 4096 % 16) + 256 * (n / 256 % 16) + 16 * (n / 16 % 16) + n % 16
      = n := by omega
  rw [harith]

theorem charToNat_lt (c : Char) : c.toNat < 1114112 := by
  have hb : c.toNat = c.val.toNat := rfl
  rcases c.valid with h | ⟨_, h2⟩ <;> omega

theorem charValid (c : Char) : c.toNat < 55296 ∨ 57344 ≤ c.toNat := by
  have hb : c.toNat = c.val.toNat := rfl
  rcases c.valid with h | ⟨h1, _⟩
  · exact Or.inl (by omega)
  · exact Or.inr (by omega)

/-- Decoding one escaped character: the parser consumes exactly the encoding
of `c` and emits `c`, whatever the rest of the input. -/
theorem parseJStrAux_escape (c : Char) (tail : PyStr) (fuel : Nat) :
    parseJStrAux (fuel + 1) (jsonEscapeChar c ++ tail)
      = (parseJStrAux fuel tail).map fun p => (c :: p.1, p.2) := by
  unfold jsonEscapeChar
  by_cases h1 : c = '"'
  · subst h1
    rw [if_pos rfl]
    cases hre : parseJStrAux fuel tail with
    | none => simp [parseJStrAux, hre]
    | some p => simp [parseJStrAux, hre]
  rw [if_neg h1]
  by_cases h2 : c = '\\'
  · subst h2
    rw [if_pos rfl]
    cases hre : parseJStrAux fuel tail with
    | none => simp [parseJStrAux, hre]
    | some p => simp [parseJStrAux, hre]
  rw [if_neg h2]
  by_cases h3 : c = '\n'
  · subst h3
    rw [if_pos rfl]
    cases hre : parseJStrAux fuel tail with
    | none => simp [parseJStrAux, hre]
    | some p => simp [parseJStrAux, hre]
  rw [if_neg h3]
  by_cases h4 : c = '\r'
  · subst h4
    rw [if_pos rfl]
    cases hre : parseJStrAux fuel tail with
    | none => simp [parseJStrAux, hre]
    | some p => simp [parseJStrAux, hre]
  rw [if_neg h4]
  by_cases h5 : c = '\t'
  · subst h5
    rw [if_pos rfl]
    cases hre : parseJStrAux fuel tail with
    | none => simp [parseJStrAux, hre]
    | some p => simp [parseJStrAux, hre]
  rw [if_neg h5]
  by_cases h6 : c = '\x08'
  · subst h6
    rw [if_pos rfl]
    cases hre : parseJStrAux fuel tail with
    | none => simp [parseJStrAux, hre]
    | some p => simp [parseJStrAux, hre]
  rw [if_neg h6]
  by_cases h7 : c = '\x0c'
  · subst h7
    rw [if_pos rfl]
    cases hre : parseJStrAux fuel tail with
    | none => simp [parseJStrAux, hre]
    | some p => simp [parseJStrAux, hre]
  rw [if_neg h7]
  by_cases h8 : c.toNat < 32
  · rw [if_pos h8]
    have hrd : readHex4 (hex4 c.toNat ++ tail) = some (c.toNat, tail) :=
      readHex4_hex4 (by omega) tail
    rw [show hex4 c.toNat ++ tail = hexDigitChar (c.toNat / 4096 % 16) ::
      hexDigitChar (c.toNat / 256 % 16) :: hexDigitChar (c.toNat / 16 % 16) ::
      hexDigitChar (c.toNat % 16) :: tail from rfl] at hrd
    have hcond : c.toNat < 55296 ∨ 57344 ≤ c.toNat := Or.inl (by omega)
    cases hre : parseJStrAux fuel tail with
    | none => simp [parseJStrAux, hex4, hrd, hcond, hre, Char.ofNat_toNat]
    | some p => simp [parseJStrAux, hex4, hrd, hcond, hre, Char.ofNat_toNat]
  rw [if_neg h8]
  by_cases h9 : c.toNat ≤ 126
  · rw [if_pos h9]
    show parseJStrAux (fuel + 1) (c :: tail) = (parseJStrAux fuel tail).map fun p => (c :: p.1, p.2)
    have h32 : ¬ (c.toNat < 32) := by omega
    cases hre : parseJStrAux fuel tail with
    | none => simp [parseJStrAux, h1, h2, h32, hre]
    | some p => simp [parseJStrAux, h1, h2, h32, hre]
  rw [if_neg h9]
  by_cases h10 : c.toNat < 65536
  · rw [if_pos h10]
    have hrd : readHex4 (hex4 c.toNat ++ tail) = some (c.toNat, tail) :=
      readHex4_hex4 (by omega) tail
    rw [show hex4 c.toNat ++ tail = hexDigitChar (c.toNat / 4096 % 16) ::
      hexDigitChar (c.toNat / 256 % 16) :: hexDigitChar (c.toNat / 16 % 16) ::
      hexDigitChar (c.toNat % 16) :: tail from rfl] at hrd
    have hcond := charValid c
    cases hre : parseJStrAux fuel tail with
    | none => simp [parseJStrAux, hex4, hrd, hcond, hre, Char.ofNat_toNat]
    | some p => simp [parseJStrAux, hex4, hrd, hcond, hre, Char.ofNat_toNat]
  rw [if_neg h10]
  have hlt := charToNat_lt c
  obtain ⟨hi, hH⟩ : ∃ hi, 55296 + (c.toNat - 65536) / 1024 = hi := ⟨_, rfl⟩
  obtain ⟨lo, hL⟩ : ∃ lo, 56320 + (c.toNat - 65536) % 1024 = lo := ⟨_, rfl⟩
  have hnsa : ¬ (hi < 55296) := by omega
  have hnsb : ¬ (57344 ≤ hi) := by omega
  have hhi : hi < 56320 := by omega
  have hlo : 56320 ≤ lo ∧ lo < 57344 := by omega
  have hval : 65536 + (hi - 55296) * 1024 + (lo - 56320) = c.toNat := by omega
  rw [hH, hL]
  have hshape : ('\\' :: 'u' :: hex4 hi ++ '\\' :: 'u' :: hex4 lo) ++ tail
      = '\\' :: 'u' :: (hex4 hi ++ ('\\' :: 'u' :: (hex4 lo ++ tail))) := by
    simp [hex4]
  rw [hshape]
  have hrd1 : readHex4 (hex4 hi ++ ('\\' :: 'u' :: (hex4 lo ++ tail)))
      = some (hi, '\\' :: 'u' :: (hex4 lo ++ tail)) :=
    readHex4_hex4 (by omega) _
  have hrd2 : readHex4 (hex4 lo ++ tail) = some (lo, tail) :=
    readHex4_hex4 (by omega) tail
  simp only [hex4, List.cons_append, List.nil_append] at hrd1 hrd2
  cases hre : parseJStrAux fuel tail with
  | none =>
    simp only [parseJStrAux, hex4, List.append_eq, List.cons_append, List.nil_append,
      if_true, hrd1]
    rw [if_neg (show ¬ (hi < 55296 ∨ 57344 ≤ hi) from fun hor => hor.elim hnsa hnsb)]
    simp only [if_pos hhi, hrd2, if_pos (And.intro hlo.1 hlo.2), hre]
    rw [if_neg (show ¬ ('\\' = '"') by decide)]
    rfl
  | some p =>
    simp only [parseJStrAux, hex4, List.append_eq, List.cons_append, List.nil_append,
      if_true, hrd1]
    rw [if_neg (show ¬ (hi < 55296 ∨ 57344 ≤ hi) from fun hor => hor.elim hnsa hnsb)]
    simp only [if_pos hhi, hrd2, if_pos (And.intro hlo.1 hlo.2), hre]
    rw [if_neg (show ¬ ('\\' = '"') by decide), hval, Char.ofNat_toNat]
    rfl

theorem parseJStrAux_escapeAll :
    ∀ (s : PyStr) (fuel : Nat) (rest : PyStr), s.length < fuel →
      parseJStrAux fuel (escapeAll s ++ '"' :: rest) = some (s, rest) := by
  intro s
  induction s with
  | nil =>
    intro fuel rest h
    obtain ⟨f, rfl⟩ : ∃ f, fuel = f + 1 := ⟨fuel - 1, by omega⟩
    show parseJStrAux (f + 1) ('"' :: rest) = some ([], rest)
    unfold parseJStrAux
    rw [if_pos rfl]
  | cons c s' ih =>
    intro fuel rest h
    obtain ⟨f, rfl⟩ : ∃ f, fuel = f + 1 := ⟨fuel - 1, by omega⟩
    have hshape : escapeAll (c :: s') ++ '"' :: rest
        = jsonEscapeChar c ++ (escapeAll s' ++ '"' :: rest) := by
      show jsonEscapeChar c ++ escapeAll s' ++ '"' :: rest = _
      rw [List.append_assoc]
    rw [hshape, parseJStrAux_escape, ih f rest (by simpa using Nat.lt_of_succ_lt_succ h)]
    rfl

theorem one_le_length_jsonEscapeChar (c : Char) : 1 ≤ (jsonEscapeChar c).length := by
  unfold jsonEscapeChar
  by_cases h1 : c = '"'
  · rw [if_pos h1]; decide
  rw [if_neg h1]
  by_cases h2 : c = '\\'
  · rw [if_pos h2]; decide
  rw [if_neg h2]
  by_cases h3 : c = '\n'
  · rw [if_pos h3]; decide
  rw [if_neg h3]
  by_cases h4 : c = '\r'
  · rw [if_pos h4]; decide
  rw [if_neg h4]
  by_cases h5 : c = '\t'
  · rw [if_pos h5]; decide
  rw [if_neg h5]
  by_cases h6 : c = '\x08'
  · rw [if_pos h6]; decide
  rw [if_neg h6]
  by_cases h7 : c = '\x0c'
  · rw [if_pos h7]; decide
  rw [if_neg h7]
  by_cases h8 : c.toNat < 32
  · rw [if_pos h8]; simp [hex4]
  rw [if_neg h8]
  by_cases h9 : c.toNat ≤ 126
  · rw [if_pos h9]; simp
  rw [if_neg h9]
  by_cases h10 : c.toNat < 65536
  · rw [if_pos h10]; simp [hex4]
  rw [if_neg h10]
  simp [hex4]

theorem length_le_escapeAll (s : PyStr) : s.length ≤ (escapeAll s).length := by
  induction s with
  | nil => simp [escapeAll]
  | cons c s' ih =>
    show s'.length + 1 ≤ (jsonEscapeChar c ++ escapeAll s').length
    rw [List.length_append]
    have hpos := one_le_length_jsonEscapeChar c
    omega

/-- The string-body parser at the fuel `parseJVal` supplies. -/
theorem parseJStr_full (s : PyStr) (rest : PyStr) :
    parseJStrAux ((escapeAll s ++ '"' :: rest).length + 1) (escapeAll s ++ '"' :: rest)
      = some (s, rest) := by
  apply parseJStrAux_escapeAll
  have := length_le_escapeAll s
  rw [List.length_append]
  omega

/-! ### JSON round trip: numbers -/

/-- The input may legally follow a JSON number: empty, or a character that
neither extends the digit string nor turns it into a float literal. -/
def jNumStop : PyStr → Bool
  | [] => true
  | c :: _ => !(isDigitChar c || c == '.' || c == 'e' || c == 'E')

theorem takeDigits_append {ds : PyStr} (hds : ∀ c ∈ ds, isDigitChar c = true)
    {r : PyStr} (hr : jNumStop r = true) : takeDigits (ds ++ r) = (ds, r) := by
  induction ds with
  | nil =>
    cases r with
    | nil => rfl
    | cons c t =>
      have hc : isDigitChar c = false := by
        simp only [jNumStop, Bool.not_eq_true', Bool.or_eq_false_iff] at hr
        exact hr.1.1.1
      show takeDigits (c :: t) = ([], c :: t)
      unfold takeDigits
      rw [hc]
      rfl
  | cons d ds' ih =>
    show takeDigits (d :: (ds' ++ r)) = (d :: ds', r)
    unfold takeDigits
    rw [hds d (List.mem_cons_self d ds'), ih fun c hc => hds c (List.mem_cons_of_mem d hc)]
    rfl

theorem jnumContinues_of_stop {r : PyStr} (hr : jNumStop r = true) :
    jnumContinues r = false := by
  cases r with
  | nil => rfl
  | cons c t =>
    simp only [jNumStop, Bool.not_eq_true', Bool.or_eq_false_iff] at hr
    simp only [jnumContinues, Bool.or_eq_false_iff]
    exact ⟨⟨hr.1.1.2, hr.1.2⟩, hr.2⟩

theorem parseJNumCore_digits_neg {ds : PyStr} (hne : ds ≠ [])
    (hds : ∀ c ∈ ds, isDigitChar c = true) {r : PyStr} (hr : jNumStop r = true) :
    parseJNumCore true (ds ++ r) = some (.int (-(charsToNat ds : Int)), r) := by
  unfold parseJNumCore
  rw [takeDigits_append hds hr]
  have hie : ds.isEmpty = false := by cases ds with | nil => exact absurd rfl hne | cons _ _ => rfl
  show (if ds.isEmpty = true then (Option.none : Option (PyVal × PyStr))
    else if jnumContinues r = true then Option.none
    else some (PyVal.int (-(charsToNat ds : Int)), r))
    = some (PyVal.int (-(charsToNat ds : Int)), r)
  rw [hie, jnumContinues_of_stop hr]
  simp only [Bool.false_eq_true, if_false]

theorem parseJNumCore_digits_pos {ds : PyStr} (hne : ds ≠ [])
    (hds : ∀ c ∈ ds, isDigitChar c = true) {r : PyStr} (hr : jNumStop r = true) :
    parseJNumCore false (ds ++ r) = some (.int ((charsToNat ds : Int)), r) := by
  unfold parseJNumCore
  rw [takeDigits_append hds hr]
  have hie : ds.isEmpty = false := by cases ds with | nil => exact absurd rfl hne | cons _ _ => rfl
  show (if ds.isEmpty = true then (Option.none : Option (PyVal × PyStr))
    else if jnumContinues r = true then Option.none
    else some (PyVal.int ((charsToNat ds : Int)), r))
    = some (PyVal.int ((charsToNat ds : Int)), r)
  rw [hie, jnumContinues_of_stop hr]
  simp only [Bool.false_eq_true, if_false]

theorem parseJNum_pyIntRepr (i : Int) {rest : PyStr} (hr : jNumStop rest = true) :
    parseJNum (pyIntRepr i ++ rest) = some (.int i, rest) := by
  by_cases hneg : i < 0
  · have hshape : pyIntRepr i ++ rest = '-' :: (pyNatRepr i.natAbs ++ rest) := by
      rw [pyIntRepr, if_pos hneg]
      rfl
    rw [hshape]
    show (if '-' = '-' then parseJNumCore true (pyNatRepr i.natAbs ++ rest)
      else parseJNumCore false ('-' :: (pyNatRepr i.natAbs ++ rest))) = some (.int i, rest)
    rw [if_pos rfl,
      parseJNumCore_digits_neg (pyNatRepr_ne_nil _) (pyNatRepr_all_digits _) hr,
      charsToNat_pyNatRepr]
    have hv : -((i.natAbs : Nat) : Int) = i := by omega
    rw [hv]
  · have hrepr : pyIntRepr i = pyNatRepr i.natAbs := by rw [pyIntRepr, if_neg hneg]
    obtain ⟨c₀, t₀, hct⟩ : ∃ c₀ t₀, pyNatRepr i.natAbs = c₀ :: t₀ := by
      rcases h : pyNatRepr i.natAbs with _ | ⟨c₀, t₀⟩
      · exact absurd h (pyNatRepr_ne_nil _)
      · exact ⟨c₀, t₀, rfl⟩
    have hdig : isDigitChar c₀ = true := pyNatRepr_all_digits _ c₀ (by rw [hct]; simp)
    have hcm : c₀ ≠ '-' := by
      rintro rfl
      rw [not_digit_dash] at hdig
      exact Bool.false_ne_true hdig
    rw [hrepr, hct]
    show (if c₀ = '-' then parseJNumCore true (t₀ ++ rest)
      else parseJNumCore false (c₀ :: (t₀ ++ rest))) = some (.int i, rest)
    rw [if_neg hcm]
    have hre : (c₀ :: (t₀ ++ rest)) = (c₀ :: t₀) ++ rest := rfl
    rw [hre, ← hct,
      parseJNumCore_digits_pos (pyNatRepr_ne_nil _) (pyNatRepr_all_digits _) hr,
      charsToNat_pyNatRepr]
    have hv : ((i.natAbs : Nat) : Int) = i := by omega
    rw [hv]

/-! ### JSON round trip: dispatch and whitespace -/

theorem skipJWs_of_head {c : Char} (h : isJsonWs c = false) (t : PyStr) :
    skipJWs (c :: t) = c :: t := by
  simp [skipJWs, h]

theorem skipJWs_ws {c : Char} (h : isJsonWs c = true) (t : PyStr) :
    skipJWs (c :: t) = skipJWs t := by
  simp [skipJWs, h]

theorem parseJVal_ws {c : Char} (h : isJsonWs c = true) (fuel : Nat) (z : PyStr) :
    parseJVal fuel (c :: z) = parseJVal fuel z := by
  cases fuel with
  | zero => rfl
  | succ f =>
    show parseJVal (f + 1) (c :: z) = parseJVal (f + 1) z
    unfold parseJVal
    rw [skipJWs_ws h]

theorem parseJElems_ws {c : Char} (h : isJsonWs c = true) (f : Nat) (z : PyStr) :
    parseJElems (f + 1) (c :: z) = parseJElems (f + 1) z := by
  unfold parseJElems
  rw [parseJVal_ws h]

theorem parseJMembers_ws {c : Char} (h : isJsonWs c = true) (f : Nat) (z : PyStr) :
    parseJMembers (f + 1) (c :: z) = parseJMembers (f + 1) z := by
  unfold parseJMembers
  rw [skipJWs_ws h]

theorem digit_not_ws {c : Char} (h : isDigitChar c = true) : isJsonWs c = false := by
  have hs : c ≠ ' ' := by rintro rfl; exact absurd h (by decide)
  have ht : c ≠ '\t' := by rintro rfl; exact absurd h (by decide)
  have hn : c ≠ '\n' := by rintro rfl; exact absurd h (by decide)
  have hr : c ≠ '\r' := by rintro rfl; exact absurd h (by decide)
  simp [isJsonWs, hs, ht, hn, hr]

theorem digit_not_key {c : Char} (h : isDigitChar c = true) :
    c ≠ 'n' ∧ c ≠ 't' ∧ c ≠ 'f' ∧ c ≠ '"' ∧ c ≠ '[' ∧ c ≠ '{' ∧ c ≠ ']' ∧ c ≠ '}' := by
  refine ⟨?_, ?_, ?_, ?_, ?_, ?_, ?_, ?_⟩ <;> (rintro rfl; exact absurd h (by decide))

/-- The head character of any serialized JSON value is not whitespace and
closes no bracket. -/
theorem jsonDumps_head {v : PyVal} {out : PyStr} (h : jsonDumps v = .ok out) :
    ∃ c t, out = c :: t ∧ isJsonWs c = false ∧ c ≠ ']' ∧ c ≠ '}' := by
  cases v with
  | none =>
    have hout : out = 'n' :: "ull".data := by
      have hh : jsonDumps PyVal.none = .ok "null".data := rfl
      rw [hh] at h
      injection h with h
      exact h.symm
    exact ⟨'n', _, hout, by decide, by decide, by decide⟩
  | bool b =>
    cases b with
    | true =>
      have hout : out = 't' :: "rue".data := by
        have hh : jsonDumps (PyVal.bool true) = .ok "true".data := rfl
        rw [hh] at h
        injection h with h
        exact h.symm
      exact ⟨'t', _, hout, by decide, by decide, by decide⟩
    | false =>
      have hout : out = 'f' :: "alse".data := by
        have hh : jsonDumps (PyVal.bool false) = .ok "false".data := rfl
        rw [hh] at h
        injection h with h
        exact h.symm
      exact ⟨'f', _, hout, by decide, by decide, by decide⟩
  | int n =>
    have hout : out = pyIntRepr n := by
      have hh : jsonDumps (PyVal.int n) = .ok (pyIntRepr n) := rfl
      rw [hh] at h
      injection h with h
      exact h.symm
    by_cases hneg : n < 0
    · refine ⟨'-', pyNatRepr n.natAbs, ?_, by decide, by decide, by decide⟩
      rw [hout, pyIntRepr, if_pos hneg]
    · obtain ⟨c₀, t₀, hct⟩ : ∃ c₀ t₀, pyNatRepr n.natAbs = c₀ :: t₀ := by
        rcases hh : pyNatRepr n.natAbs with _ | ⟨c₀, t₀⟩
        · exact absurd hh (pyNatRepr_ne_nil _)
        · exact ⟨c₀, t₀, rfl⟩
      have hdig : isDigitChar c₀ = true := pyNatRepr_all_digits _ c₀ (by rw [hct]; simp)
      refine ⟨c₀, t₀, ?_, digit_not_ws hdig, (digit_not_key hdig).2.2.2.2.2.2.1,
        (digit_not_key hdig).2.2.2.2.2.2.2⟩
      rw [hout, pyIntRepr, if_neg hneg, hct]
  | str s =>
    have hout : out = '"' :: (escapeAll s ++ ['"']) := by
      have hh : jsonDumps (PyVal.str s) = .ok ('"' :: (escapeAll s ++ ['"'])) := rfl
      rw [hh] at h
      injection h with h
      exact h.symm
    exact ⟨'"', _, hout, by decide, by decide, by decide⟩
  | list xs =>
    have hstep : jsonDumps (PyVal.list xs)
        = (jsonDumpsElems xs).bind fun body => Except.ok ('[' :: (body ++ [']'])) := rfl
    rw [hstep] at h
    cases hb : jsonDumpsElems xs with
    | error e => rw [hb] at h; exact absurd h (by simp [Except.bind])
    | ok body =>
      rw [hb] at h
      have hout : out = '[' :: (body ++ [']']) := by
        simp only [Except.bind] at h
        injection h with h
        exact h.symm
      exact ⟨'[', _, hout, by decide, by decide, by decide⟩
  | dict kvs =>
    have hstep : jsonDumps (PyVal.dict kvs)
        = (jsonDumpsMembers kvs).bind fun body => Except.ok ('{' :: (body ++ ['}'])) := rfl
    rw [hstep] at h
    cases hb : jsonDumpsMembers kvs with
    | error e => rw [hb] at h; exact absurd h (by simp [Except.bind])
    | ok body =>
      rw [hb] at h
      have hout : out = '{' :: (body ++ ['}']) := by
        simp only [Except.bind] at h
        injection h with h
        exact h.symm
      exact ⟨'{', _, hout, by decide, by decide, by decide⟩
  | float q => exact absurd h (by simp [jsonDumps])
  | dec nd dd ed => exact absurd h (by simp [jsonDumps])
  | range lo hi => exact absurd h (by simp [jsonDumps])
  | datetime d => exact absurd h (by simp [jsonDumps])

/-- Inversion for binds in the `Except` monad. -/
theorem exceptBind_ok {α β : Type} {x : Except PyErr α} {f : α → Except PyErr β} {out : β}
    (h : x.bind f = .ok out) : ∃ a, x = .ok a ∧ f a = .ok out := by
  cases x with
  | error e => exact absurd h (by simp [Except.bind])
  | ok a => exact ⟨a, rfl, by simpa [Except.bind] using h⟩

theorem jsonDumps_list_inv {xs : List PyVal} {out : PyStr}
    (h : jsonDumps (.list xs) = .ok out) :
    ∃ body, jsonDumpsElems xs = .ok body ∧ out = '[' :: (body ++ [']']) := by
  have hstep : jsonDumps (PyVal.list xs)
      = (jsonDumpsElems xs).bind fun body => Except.ok ('[' :: (body ++ [']'])) := rfl
  rw [hstep] at h
  obtain ⟨body, hb, hout⟩ := exceptBind_ok h
  injection hout with hout
  exact ⟨body, hb, hout.symm⟩

theorem jsonDumps_dict_inv {kvs : List (PyStr × PyVal)} {out : PyStr}
    (h : jsonDumps (.dict kvs) = .ok out) :
    ∃ body, jsonDumpsMembers kvs = .ok body ∧ out = '{' :: (body ++ ['}']) := by
  have hstep : jsonDumps (PyVal.dict kvs)
      = (jsonDumpsMembers kvs).bind fun body => Except.ok ('{' :: (body ++ ['}'])) := rfl
  rw [hstep] at h
  obtain ⟨body, hb, hout⟩ := exceptBind_ok h
  injection hout with hout
  exact ⟨body, hb, hout.symm⟩

theorem jsonDumpsElems_single (x : PyVal) : jsonDumpsElems [x] = jsonDumps x := rfl

theorem jsonDumpsElems_cons_inv {x y : PyVal} {rest : List PyVal} {body : PyStr}
    (h : jsonDumpsElems (x :: y :: rest) = .ok body) :
    ∃ a b, jsonDumps x = .ok a ∧ jsonDumpsElems (y :: rest) = .ok b ∧
      body = a ++ (',' :: ' ' :: b) := by
  have hstep : jsonDumpsElems (x :: y :: rest)
      = (jsonDumps x).bind fun a => (jsonDumpsElems (y :: rest)).bind fun b =>
          Except.ok (a ++ ", ".data ++ b) := rfl
  rw [hstep] at h
  obtain ⟨a, ha, h₂⟩ := exceptBind_ok h
  obtain ⟨b, hb, h₃⟩ := exceptBind_ok h₂
  injection h₃ with h₃
  refine ⟨a, b, ha, hb, ?_⟩
  rw [← h₃, List.append_assoc]
  rfl

theorem jsonDumpsMembers_single_inv {k : PyStr} {v : PyVal} {body : PyStr}
    (h : jsonDumpsMembers [(k, v)] = .ok body) :
    ∃ a, jsonDumps v = .ok a ∧
      body = '"' :: (escapeAll k ++ ('"' :: ':' :: ' ' :: a)) := by
  have hstep : jsonDumpsMembers [(k, v)]
      = (jsonDumps v).bind fun a => Except.ok (jsonQuote k ++ ": ".data ++ a) := rfl
  rw [hstep] at h
  obtain ⟨a, ha, h₂⟩ := exceptBind_ok h
  injection h₂ with h₂
  refine ⟨a, ha, ?_⟩
  rw [← h₂]
  show jsonQuote k ++ ": ".data ++ a = _
  simp [jsonQuote, List.append_assoc]

theorem jsonDumpsMembers_cons_inv {k : PyStr} {v : PyVal} {kv : PyStr × PyVal}
    {rest : List (PyStr × PyVal)} {body : PyStr}
    (h : jsonDumpsMembers ((k, v) :: kv :: rest) = .ok body) :
    ∃ a b, jsonDumps v = .ok a ∧ jsonDumpsMembers (kv :: rest) = .ok b ∧
      body = '"' :: (escapeAll k ++ ('"' :: ':' :: ' ' :: (a ++ (',' :: ' ' :: b)))) := by
  have hstep : jsonDumpsMembers ((k, v) :: kv :: rest)
      = (jsonDumps v).bind fun a => (jsonDumpsMembers (kv :: rest)).bind fun b =>
          Except.ok (jsonQuote k ++ ": ".data ++ a ++ ", ".data ++ b) := rfl
  rw [hstep] at h
  obtain ⟨a, ha, h₂⟩ := exceptBind_ok h
  obtain ⟨b, hb, h₃⟩ := exceptBind_ok h₂
  injection h₃ with h₃
  refine ⟨a, b, ha, hb, ?_⟩
  rw [← h₃]
  show jsonQuote k ++ ": ".data ++ a ++ ", ".data ++ b = _
  simp [jsonQuote, List.append_assoc]

/-- The head of a non-empty serialized element list is a value head. -/
theorem jsonDumpsElems_head {x : PyVal} {xs : List PyVal} {body : PyStr}
    (h : jsonDumpsElems (x :: xs) = .ok body) :
    ∃ c t, body = c :: t ∧ isJsonWs c = false ∧ c ≠ ']' ∧ c ≠ '}' := by
  cases xs with
  | nil =>
    rw [jsonDumpsElems_single] at h
    exact jsonDumps_head h
  | cons y rest =>
    obtain ⟨a, b, ha, _, hbody⟩ := jsonDumpsElems_cons_inv h
    obtain ⟨c, t, hat, hws, hbr, hbc⟩ := jsonDumps_head ha
    exact ⟨c, t ++ (',' :: ' ' :: b), by rw [hbody, hat]; rfl, hws, hbr, hbc⟩


theorem parseJVal_num {c : Char} (t : PyStr) (f : Nat)
    (hws : isJsonWs c = false) (h1 : c ≠ 'n') (h2 : c ≠ 't') (h3 : c ≠ 'f')
    (h4 : c ≠ '"') (h5 : c ≠ '[') (h6 : c ≠ '{') :
    parseJVal (f + 1) (c :: t) = parseJNum (c :: t) := by
  unfold parseJVal
  rw [skipJWs_of_head hws]
  show (if c = 'n' then
      match t with
      | 'u' :: 'l' :: 'l' :: r => some (PyVal.none, r)
      | _ => Option.none
    else if c = 't' then
      match t with
      | 'r' :: 'u' :: 'e' :: r => some (PyVal.bool true, r)
      | _ => Option.none
    else if c = 'f' then
      match t with
      | 'a' :: 'l' :: 's' :: 'e' :: r => some (PyVal.bool false, r)
      | _ => Option.none
    else if c = '"' then
      (parseJStrAux (t.length + 1) t).map fun p => (PyVal.str p.1, p.2)
    else if c = '[' then
      match skipJWs t with
      | [] => Option.none
      | c₁ :: t₁ =>
        if c₁ = ']' then some (PyVal.list [], t₁)
        else (parseJElems f (c₁ :: t₁)).map fun p => (PyVal.list p.1, p.2)
    else if c = '{' then
      match skipJWs t with
      | [] => Option.none
      | c₁ :: t₁ =>
        if c₁ = '}' then some (PyVal.dict [], t₁)
        else (parseJMembers f (c₁ :: t₁)).map fun p => (PyVal.dict p.1, p.2)
    else parseJNum (c :: t)) = parseJNum (c :: t)
  rw [if_neg h1, if_neg h2, if_neg h3, if_neg h4, if_neg h5, if_neg h6]

theorem parseJVal_quote (f : Nat) (t : PyStr) :
    parseJVal (f + 1) ('"' :: t)
      = (parseJStrAux (t.length + 1) t).map fun p => (PyVal.str p.1, p.2) := rfl

theorem parseJVal_lbracket (f : Nat) (t : PyStr) :
    parseJVal (f + 1) ('[' :: t)
      = match skipJWs t with
        | [] => Option.none
        | c₁ :: t₁ =>
          if c₁ = ']' then some (PyVal.list [], t₁)
          else (parseJElems f (c₁ :: t₁)).map fun p => (PyVal.list p.1, p.2) := rfl

theorem parseJVal_lbrace (f : Nat) (t : PyStr) :
    parseJVal (f + 1) ('{' :: t)
      = match skipJWs t with
        | [] => Option.none
        | c₁ :: t₁ =>
          if c₁ = '}' then some (PyVal.dict [], t₁)
          else (parseJMembers f (c₁ :: t₁)).map fun p => (PyVal.dict p.1, p.2) := rfl

theorem parseJElems_succ (f : Nat) (s : PyStr) :
    parseJElems (f + 1) s
      = (parseJVal f s).bind fun p =>
          match skipJWs p.2 with
          | [] => Option.none
          | c :: r' =>
            if c = ',' then (parseJElems f r').bind fun q => some (p.1 :: q.1, q.2)
            else if c = ']' then some ([p.1], r')
            else Option.none := by
  conv_lhs => rw [parseJElems]
  cases hp : parseJVal f s with
  | none => rfl
  | some p => rfl

theorem parseJMembers_succ (f : Nat) (s : PyStr) :
    parseJMembers (f + 1) s
      = match skipJWs s with
        | [] => Option.none
        | c₀ :: t =>
          if c₀ = '"' then
            (parseJStrAux (t.length + 1) t).bind fun pk =>
              match skipJWs pk.2 with
              | [] => Option.none
              | c₁ :: r₁ =>
                if c₁ = ':' then
                  (parseJVal f r₁).bind fun pv =>
                    match skipJWs pv.2 with
                    | [] => Option.none
                    | c₂ :: r₃ =>
                      if c₂ = ',' then
                        (parseJMembers f r₃).bind fun q =>
                          some ((pk.1, pv.1) :: q.1, q.2)
                      else if c₂ = '}' then some ([(pk.1, pv.1)], r₃)
                      else Option.none
                else Option.none
          else Option.none := rfl

theorem jsonDumpsMembers_head {k : PyStr} {v : PyVal} {kvs : List (PyStr × PyVal)} {body : PyStr}
    (h : jsonDumpsMembers ((k, v) :: kvs) = .ok body) :
    ∃ t₀, body = '"' :: t₀ := by
  cases kvs with
  | nil =>
    obtain ⟨a, _, rfl⟩ := jsonDumpsMembers_single_inv h
    exact ⟨_, rfl⟩
  | cons kv rest =>
    obtain ⟨k₂, v₂⟩ := kv
    obtain ⟨a, b, _, _, rfl⟩ := jsonDumpsMembers_cons_inv h
    exact ⟨_, rfl⟩

/-- The JSON parser inverts the serializer: values, element lists (up to a
closing bracket) and member lists (up to a closing brace), at any
sufficient fuel. -/
theorem rtTriple : ∀ fuel : Nat,
    (∀ (v : PyVal) (out rest : PyStr), jsonDumps v = .ok out → out.length < fuel →
      jNumStop rest = true → parseJVal fuel (out ++ rest) = some (v, rest)) ∧
    (∀ (x : PyVal) (xs : List PyVal) (body rest : PyStr),
      jsonDumpsElems (x :: xs) = .ok body → body.length + 1 < fuel →
      parseJElems fuel (body ++ ']' :: rest) = some (x :: xs, rest)) ∧
    (∀ (k : PyStr) (v : PyVal) (kvs : List (PyStr × PyVal)) (body rest : PyStr),
      jsonDumpsMembers ((k, v) :: kvs) = .ok body → body.length + 1 < fuel →
      parseJMembers fuel (body ++ '}' :: rest) = some ((k, v) :: kvs, rest)) := by
  intro fuel
  induction fuel using Nat.strong_induction_on with
  | _ fuel ih =>
  refine ⟨?_, ?_, ?_⟩
  · intro v out rest h hf hr
    obtain ⟨f, rfl⟩ : ∃ f, fuel = f + 1 := ⟨fuel - 1, by omega⟩
    cases v with
    | none =>
      obtain rfl : out = 'n' :: 'u' :: 'l' :: 'l' :: [] := by
        have hh : jsonDumps PyVal.none = .ok ('n' :: 'u' :: 'l' :: 'l' :: []) := rfl
        rw [hh] at h
        injection h with h
        exact h.symm
      rfl
    | bool b =>
      cases b with
      | true =>
        obtain rfl : out = 't' :: 'r' :: 'u' :: 'e' :: [] := by
          have hh : jsonDumps (PyVal.bool true) = .ok ('t' :: 'r' :: 'u' :: 'e' :: []) := rfl
          rw [hh] at h
          injection h with h
          exact h.symm
        rfl
      | false =>
        obtain rfl : out = 'f' :: 'a' :: 'l' :: 's' :: 'e' :: [] := by
          have hh : jsonDumps (PyVal.bool false) = .ok ('f' :: 'a' :: 'l' :: 's' :: 'e' :: []) := rfl
          rw [hh] at h
          injection h with h
          exact h.symm
        rfl
    | int n =>
      obtain rfl : out = pyIntRepr n := by
        have hh : jsonDumps (PyVal.int n) = .ok (pyIntRepr n) := rfl
        rw [hh] at h
        injection h with h
        exact h.symm
      by_cases hneg : n < 0
      · have hshape : pyIntRepr n ++ rest = '-' :: (pyNatRepr n.natAbs ++ rest) := by
          rw [pyIntRepr, if_pos hneg]
          rfl
        rw [hshape, parseJVal_num _ f (by decide) (by decide) (by decide) (by decide)
          (by decide) (by decide) (by decide), ← hshape]
        exact parseJNum_pyIntRepr n hr
      · obtain ⟨c₀, t₀, hct⟩ : ∃ c₀ t₀, pyNatRepr n.natAbs = c₀ :: t₀ := by
          rcases hh : pyNatRepr n.natAbs with _ | ⟨c₀, t₀⟩
          · exact absurd hh (pyNatRepr_ne_nil _)
          · exact ⟨c₀, t₀, rfl⟩
        have hdig : isDigitChar c₀ = true := pyNatRepr_all_digits _ c₀ (by rw [hct]; simp)
        have hkey := digit_not_key hdig
        have hshape : pyIntRepr n ++ rest = c₀ :: (t₀ ++ rest) := by
          rw [pyIntRepr, if_neg hneg, hct]
          rfl
        rw [hshape, parseJVal_num _ f (digit_not_ws hdig) hkey.1 hkey.2.1 hkey.2.2.1
          hkey.2.2.2.1 hkey.2.2.2.2.1 hkey.2.2.2.2.2.1, ← hshape]
        exact parseJNum_pyIntRepr n hr
    | str s =>
      obtain rfl : out = jsonQuote s := by
        have hh : jsonDumps (PyVal.str s) = .ok (jsonQuote s) := rfl
        rw [hh] at h
        injection h with h
        exact h.symm
      have hshape : jsonQuote s ++ rest = '"' :: (escapeAll s ++ '"' :: rest) := by
        simp [jsonQuote]
      rw [hshape, parseJVal_quote, parseJStr_full]
      rfl
    | list xs =>
      obtain ⟨body, hb, rfl⟩ := jsonDumps_list_inv h
      cases xs with
      | nil =>
        obtain rfl : body = [] := by
          have hh : jsonDumpsElems [] = Except.ok ([] : PyStr) := rfl
          rw [hh] at hb
          injection hb with hb
          exact hb.symm
        rfl
      | cons x xs' =>
        have hflen : body.length + 1 < f := by
          simp at hf
          omega
        obtain ⟨c₀, t₀, hbodyshape, hws₀, hbr, _⟩ := jsonDumpsElems_head hb
        have hshape : ('[' :: (body ++ [']'])) ++ rest = '[' :: (body ++ ']' :: rest) := by
          simp
        have hstep : body ++ ']' :: rest = c₀ :: (t₀ ++ ']' :: rest) := by
          rw [hbodyshape]
          rfl
        rw [hshape, parseJVal_lbracket, hstep, skipJWs_of_head hws₀]
        show (if c₀ = ']' then some (PyVal.list [], t₀ ++ ']' :: rest)
          else (parseJElems f (c₀ :: (t₀ ++ ']' :: rest))).map fun p => (PyVal.list p.1, p.2))
            = some (PyVal.list (x :: xs'), rest)
        rw [if_neg hbr, ← hstep, (ih f (by omega)).2.1 x xs' body rest hb hflen]
        rfl
    | dict kvs =>
      obtain ⟨body, hb, rfl⟩ := jsonDumps_dict_inv h
      cases kvs with
      | nil =>
        obtain rfl : body = [] := by
          have hh : jsonDumpsMembers [] = Except.ok ([] : PyStr) := rfl
          rw [hh] at hb
          injection hb with hb
          exact hb.symm
        rfl
      | cons kv kvs' =>
        obtain ⟨k, v⟩ := kv
        have hflen : body.length + 1 < f := by
          simp at hf
          omega
        obtain ⟨t₀, hbodyshape⟩ := jsonDumpsMembers_head hb
        have hshape : ('{' :: (body ++ ['}'])) ++ rest = '{' :: (body ++ '}' :: rest) := by
          simp
        have hstep : body ++ '}' :: rest = '"' :: (t₀ ++ '}' :: rest) := by
          rw [hbodyshape]
          rfl
        rw [hshape, parseJVal_lbrace, hstep, skipJWs_of_head (by decide)]
        show (if '"' = '}' then some (PyVal.dict [], t₀ ++ '}' :: rest)
          else (parseJMembers f ('"' :: (t₀ ++ '}' :: rest))).map fun p => (PyVal.dict p.1, p.2))
            = some (PyVal.dict ((k, v) :: kvs'), rest)
        rw [if_neg (by decide : ¬('"' = '}')), ← hstep,
          (ih f (by omega)).2.2 k v kvs' body rest hb hflen]
        rfl
    | float q => exact absurd h (by simp [jsonDumps])
    | dec nd dd ed => exact absurd h (by simp [jsonDumps])
    | range lo hi => exact absurd h (by simp [jsonDumps])
    | datetime d => exact absurd h (by simp [jsonDumps])
  · intro x xs body rest h hf
    obtain ⟨f, rfl⟩ : ∃ f, fuel = f + 1 := ⟨fuel - 1, by omega⟩
    rw [parseJElems_succ]
    cases xs with
    | nil =>
      rw [jsonDumpsElems_single] at h
      rw [(ih f (by omega)).1 x body (']' :: rest) h (by omega) rfl]
      rfl
    | cons y ys =>
      obtain ⟨a, b, ha, hbE, rfl⟩ := jsonDumpsElems_cons_inv h
      have hshape : (a ++ (',' :: ' ' :: b)) ++ ']' :: rest
          = a ++ (',' :: ' ' :: (b ++ ']' :: rest)) := by
        simp
      rw [hshape, (ih f (by omega)).1 x a (',' :: ' ' :: (b ++ ']' :: rest)) ha
        (by simp at hf; omega) rfl]
      obtain ⟨f', rfl⟩ : ∃ f', f = f' + 1 := ⟨f - 1, by simp at hf; omega⟩
      show (parseJElems (f' + 1) (' ' :: (b ++ ']' :: rest))).bind
          (fun q => some (x :: q.1, q.2)) = some (x :: y :: ys, rest)
      rw [parseJElems_ws (by decide) f' (b ++ ']' :: rest),
        (ih (f' + 1) (by omega)).2.1 y ys b rest hbE (by simp at hf; omega)]
      rfl
  · intro k v kvs body rest h hf
    obtain ⟨f, rfl⟩ : ∃ f, fuel = f + 1 := ⟨fuel - 1, by omega⟩
    rw [parseJMembers_succ]
    cases kvs with
    | nil =>
      obtain ⟨a, ha, rfl⟩ := jsonDumpsMembers_single_inv h
      have hshape : ('"' :: (escapeAll k ++ ('"' :: ':' :: ' ' :: a))) ++ '}' :: rest
          = '"' :: (escapeAll k ++ '"' :: (':' :: ' ' :: (a ++ '}' :: rest))) := by
        simp
      rw [hshape, skipJWs_of_head (by decide)]
      show (if '"' = '"' then
          (parseJStrAux ((escapeAll k ++ '"' :: (':' :: ' ' :: (a ++ '}' :: rest))).length + 1)
            (escapeAll k ++ '"' :: (':' :: ' ' :: (a ++ '}' :: rest)))).bind fun pk =>
            match skipJWs pk.2 with
            | [] => Option.none
            | c₁ :: r₁ =>
              if c₁ = ':' then
                (parseJVal f r₁).bind fun pv =>
                  match skipJWs pv.2 with
                  | [] => Option.none
                  | c₂ :: r₃ =>
                    if c₂ = ',' then
                      (parseJMembers f r₃).bind fun q => some ((pk.1, pv.1) :: q.1, q.2)
                    else if c₂ = '}' then some ([(pk.1, pv.1)], r₃)
                    else Option.none
              else Option.none
        else Option.none) = some ([(k, v)], rest)
      rw [if_pos rfl, parseJStr_full]
      show (parseJVal f (' ' :: (a ++ '}' :: rest))).bind (fun pv =>
        match skipJWs pv.2 with
        | [] => Option.none
        | c₂ :: r₃ =>
          if c₂ = ',' then (parseJMembers f r₃).bind fun q => some ((k, pv.1) :: q.1, q.2)
          else if c₂ = '}' then some ([(k, pv.1)], r₃)
          else Option.none) = some ([(k, v)], rest)
      rw [parseJVal_ws (by decide), (ih f (by omega)).1 v a ('}' :: rest) ha
        (by simp at hf; omega) rfl]
      rfl
    | cons kv kvs' =>
      obtain ⟨k₂, v₂⟩ := kv
      obtain ⟨a, b, ha, hbM, rfl⟩ := jsonDumpsMembers_cons_inv h
      have hshape : ('"' :: (escapeAll k ++ ('"' :: ':' :: ' ' :: (a ++ (',' :: ' ' :: b))))) ++ '}' :: rest
          = '"' :: (escapeAll k ++ '"' :: (':' :: ' ' :: (a ++ ',' :: ' ' :: (b ++ '}' :: rest)))) := by
        simp
      rw [hshape, skipJWs_of_head (by decide)]
      show (if '"' = '"' then
          (parseJStrAux ((escapeAll k ++ '"' :: (':' :: ' ' :: (a ++ ',' :: ' ' :: (b ++ '}' :: rest)))).length + 1)
            (escapeAll k ++ '"' :: (':' :: ' ' :: (a ++ ',' :: ' ' :: (b ++ '}' :: rest))))).bind fun pk =>
            match skipJWs pk.2 with
            | [] => Option.none
            | c₁ :: r₁ =>
              if c₁ = ':' then
                (parseJVal f r₁).bind fun pv =>
                  match skipJWs pv.2 with
                  | [] => Option.none
                  | c₂ :: r₃ =>
                    if c₂ = ',' then
                      (parseJMembers f r₃).bind fun q => some ((pk.1, pv.1) :: q.1, q.2)
                    else if c₂ = '}' then some ([(pk.1, pv.1)], r₃)
                    else Option.none
              else Option.none
        else Option.none) = some ((k, v) :: (k₂, v₂) :: kvs', rest)
      rw [if_pos rfl, parseJStr_full]
      show (parseJVal f (' ' :: (a ++ ',' :: ' ' :: (b ++ '}' :: rest)))).bind (fun pv =>
        match skipJWs pv.2 with
        | [] => Option.none
        | c₂ :: r₃ =>
          if c₂ = ',' then (parseJMembers f r₃).bind fun q => some ((k, pv.1) :: q.1, q.2)
          else if c₂ = '}' then some ([(k, pv.1)], r₃)
          else Option.none) = some ((k, v) :: (k₂, v₂) :: kvs', rest)
      rw [parseJVal_ws (by decide),
        (ih f (by omega)).1 v a (',' :: ' ' :: (b ++ '}' :: rest)) ha
        (by simp at hf; omega) rfl]
      obtain ⟨f', rfl⟩ : ∃ f', f = f' + 1 := ⟨f - 1, by simp at hf; omega⟩
      show (parseJMembers (f' + 1) (' ' :: (b ++ '}' :: rest))).bind
          (fun q => some ((k, v) :: q.1, q.2)) = some ((k, v) :: (k₂, v₂) :: kvs', rest)
      rw [parseJMembers_ws (by decide) f' (b ++ '}' :: rest),
        (ih (f' + 1) (by omega)).2.2 k₂ v₂ kvs' b rest hbM (by simp at hf; omega)]
      rfl

/-- `json.loads` inverts `json.dumps` whenever serialization succeeds. -/
theorem jsonLoads_dumps {v : PyVal} {out : PyStr} (h : jsonDumps v = .ok out) :
    jsonLoads out = .ok v := by
  unfold jsonLoads
  have hp := (rtTriple (out.length + 1)).1 v out [] h (by omega) rfl
  rw [List.append_nil] at hp
  rw [hp]
  rfl

/-- `DictOption` round trip: any serializable value survives
`from_str(to_str(v))`. -/
theorem roundTrip_dict {v : PyVal} {out : PyStr} (h : jsonDumps v = .ok out) :
    roundTrip .dictO v = .ok v := by
  obtain ⟨c, t, rfl, -, -, -⟩ := jsonDumps_head h
  have h1 : kToStr .dictO v = .ok (.str (c :: t)) := by
    show (jsonDumps v).map PyVal.str = _
    rw [h]
    rfl
  unfold roundTrip
  rw [h1]
  show dictFromStr (c :: t) = .ok v
  rw [dictFromStr, if_neg (by simp)]
  exact jsonLoads_dumps h

/-! ## Parser-merge algebra (re-reading after staging an edit) -/

theorem lookupA_updateA {β : Type} (l : List (PyStr × β)) (k k' : PyStr) (v : β) :
    lookupA (updateA l k v) k' = if k = k' then some v else lookupA l k' := by
  induction l with
  | nil =>
    show lookupA [(k, v)] k' = _
    by_cases h : k = k'
    · simp [lookupA, h]
    · simp [lookupA, h]
  | cons a t ih =>
    obtain ⟨ak, av⟩ := a
    show lookupA (if ak = k then (ak, v) :: t else (ak, av) :: updateA t k v) k' = _
    by_cases hak : ak = k
    · subst hak
      rw [if_pos rfl]
      show (if ak = k' then some v else lookupA t k') = _
      by_cases h' : ak = k'
      · rw [if_pos h', if_pos h']
      · rw [if_neg h', if_neg h']
        show _ = lookupA ((ak, av) :: t) k'
        rw [show lookupA ((ak, av) :: t) k' = if ak = k' then some av else lookupA t k' from rfl,
          if_neg h']
    · rw [if_neg hak]
      show (if ak = k' then some av else lookupA (updateA t k v) k') = _
      by_cases h' : ak = k'
      · rw [if_pos h']
        have hkk : ¬(k = k') := fun h => hak (h' ▸ h.symm ▸ rfl)
        rw [if_neg hkk]
        show _ = lookupA ((ak, av) :: t) k'
        rw [show lookupA ((ak, av) :: t) k' = if ak = k' then some av else lookupA t k' from rfl,
          if_pos h']
      · rw [if_neg h', ih]
        by_cases hkk : k = k'
        · rw [if_pos hkk, if_pos hkk]
        · rw [if_neg hkk, if_neg hkk]
          show _ = lookupA ((ak, av) :: t) k'
          rw [show lookupA ((ak, av) :: t) k' = if ak = k' then some av else lookupA t k' from rfl,
            if_neg h']

theorem lookupA_append {β : Type} (l₁ l₂ : List (PyStr × β)) (k : PyStr) :
    lookupA (l₁ ++ l₂) k
      = match lookupA l₁ k with
        | some v => some v
        | Option.none => lookupA l₂ k := by
  induction l₁ with
  | nil => rfl
  | cons a t ih =>
    obtain ⟨ak, av⟩ := a
    have hcons : lookupA ((ak, av) :: t) k = if ak = k then some av else lookupA t k := rfl
    show (if ak = k then some av else lookupA (t ++ l₂) k) = _
    rw [hcons]
    by_cases h : ak = k
    · rw [if_pos h, if_pos h]
    · rw [if_neg h, if_neg h, ih]

theorem lookupA_mem {β : Type} {l : List (PyStr × β)} {k : PyStr} {w : β}
    (h : lookupA l k = some w) : k ∈ l.map Prod.fst := by
  induction l with
  | nil => exact Option.noConfusion h
  | cons a t ih =>
    obtain ⟨ak, av⟩ := a
    rw [show lookupA ((ak, av) :: t) k = if ak = k then some av else lookupA t k from rfl] at h
    by_cases hc : ak = k
    · subst hc
      rw [List.map_cons]
      exact List.mem_cons_self _ _
    · rw [if_neg hc] at h
      rw [List.map_cons]
      exact List.mem_cons_of_mem _ (ih h)

/-- Folding a key-wise update of `dkvs` into `kvs`: present keys of `dkvs`
win, all other keys keep their `kvs` binding. -/
theorem lookupA_foldUpd (dkvs : RawSec) (hnd : (dkvs.map Prod.fst).Nodup) :
    ∀ (kvs : RawSec) (n : PyStr),
      lookupA (dkvs.foldl (fun acc (kv : PyStr × PyStr) => updateA acc kv.1 kv.2) kvs) n
        = match lookupA dkvs n with
          | some w => some w
          | Option.none => lookupA kvs n := by
  induction dkvs with
  | nil => intro kvs n; rfl
  | cons a t ih =>
    obtain ⟨ak, av⟩ := a
    intro kvs n
    rw [List.map_cons, List.nodup_cons] at hnd
    show lookupA (t.foldl (fun acc (kv : PyStr × PyStr) => updateA acc kv.1 kv.2)
      (updateA kvs ak av)) n = _
    rw [ih hnd.2 (updateA kvs ak av) n]
    by_cases h : ak = n
    · subst h
      have ht : lookupA t ak = Option.none := by
        cases hl : lookupA t ak with
        | none => rfl
        | some w => exact absurd (lookupA_mem hl) hnd.1
      have hcons : lookupA ((ak, av) :: t) ak = some av := by
        rw [show lookupA ((ak, av) :: t) ak = if ak = ak then some av else lookupA t ak from rfl,
          if_pos rfl]
      rw [ht, hcons, lookupA_updateA, if_pos rfl]
    · have hcons : lookupA ((ak, av) :: t) n = lookupA t n := by
        rw [show lookupA ((ak, av) :: t) n = if ak = n then some av else lookupA t n from rfl,
          if_neg h]
      rw [lookupA_updateA, if_neg h, hcons]

theorem psGet_eq (p : ParserModel) (s n : PyStr) :
    psGet p s n
      = match lookupA p s with
        | Option.none => .error (.noSection s)
        | some kvs =>
          match lookupA kvs n with
          | some raw => .ok raw
          | Option.none => .error (.noOption n s) := by
  unfold psGet
  cases lookupA p s with
  | none => rfl
  | some kvs => rfl

theorem lookupA_mergeSec_ne {q : ParserModel} {ds s : PyStr} (dkvs : RawSec) (h : ds ≠ s) :
    lookupA (mergeSec q ds dkvs) s = lookupA q s := by
  unfold mergeSec
  cases hq : lookupA q ds with
  | none =>
    rw [lookupA_append]
    cases hs : lookupA q s with
    | some w => rfl
    | none =>
      show lookupA [(ds, dkvs)] s = Option.none
      rw [show lookupA [(ds, dkvs)] s
          = if ds = s then some dkvs else lookupA ([] : ParserModel) s from rfl, if_neg h]
      rfl
  | some old =>
    rw [lookupA_updateA, if_neg h]

theorem psGet_mergeSec_ne {q : ParserModel} {ds s : PyStr} (dkvs : RawSec) (h : ds ≠ s)
    (n : PyStr) : psGet (mergeSec q ds dkvs) s n = psGet q s n := by
  unfold psGet
  rw [lookupA_mergeSec_ne dkvs h]

theorem lookupA_mergeRead_none : ∀ (disk q : ParserModel) (s : PyStr),
    lookupA disk s = Option.none → lookupA (mergeRead q disk) s = lookupA q s := by
  intro disk
  induction disk with
  | nil =>
    intro q s h
    rfl
  | cons a rest ih =>
    obtain ⟨ds, dkvs⟩ := a
    intro q s h
    rw [show lookupA ((ds, dkvs) :: rest) s
        = if ds = s then some dkvs else lookupA rest s from rfl] at h
    by_cases hd : ds = s
    · rw [if_pos hd] at h
      exact Option.noConfusion h
    · rw [if_neg hd] at h
      show lookupA (mergeRead (mergeSec q ds dkvs) rest) s = _
      rw [ih (mergeSec q ds dkvs) s h, lookupA_mergeSec_ne dkvs hd]

/-- Wellformedness `ConfigParser` guarantees for parsed file contents:
section names are unique and so are the keys inside each section. -/
def wfParser (p : ParserModel) : Bool :=
  decide ((p.map Prod.fst).Nodup) && p.all fun s => decide ((s.2.map Prod.fst).Nodup)

/-- Keys of `dt` all differ from `k`: the per-key update fold passes over a
`(k, v)` head untouched. -/
theorem foldUpd_cons_ne (dt : List (PyStr × PyStr)) :
    ∀ (k : PyStr) (v : PyStr) (qt : RawSec), (∀ kv ∈ dt, kv.1 ≠ k) →
      dt.foldl (fun acc (kv : PyStr × PyStr) => updateA acc kv.1 kv.2) ((k, v) :: qt)
        = (k, v) :: dt.foldl (fun acc (kv : PyStr × PyStr) => updateA acc kv.1 kv.2) qt := by
  induction dt with
  | nil => intro k v qt _; rfl
  | cons a t ih =>
    obtain ⟨ak, av⟩ := a
    intro k v qt hne
    have hak : ak ≠ k := hne (ak, av) (List.mem_cons_self _ _)
    have hkak : ¬(k = ak) := fun h => hak h.symm
    show t.foldl (fun acc (kv : PyStr × PyStr) => updateA acc kv.1 kv.2)
        (updateA ((k, v) :: qt) ak av) = _
    rw [show updateA ((k, v) :: qt) ak av
        = if k = ak then (k, av) :: qt else (k, v) :: updateA qt ak av from rfl, if_neg hkak]
    rw [ih k v (updateA qt ak av) fun kv hkv => hne kv (List.mem_cons_of_mem _ hkv)]
    rfl

/-- Merging a section whose keys are exactly those already present (in order)
replaces the section's bindings wholesale: the fold of per-key updates of
`dkvs` over a same-shaped `qkvs` is `dkvs` itself. -/
theorem foldUpd_eq_self : ∀ (dkvs qkvs : RawSec),
    (dkvs.map Prod.fst).Nodup → qkvs.map Prod.fst = dkvs.map Prod.fst →
    dkvs.foldl (fun acc (kv : PyStr × PyStr) => updateA acc kv.1 kv.2) qkvs = dkvs := by
  intro dkvs
  induction dkvs with
  | nil =>
    intro qkvs _ hsh
    cases qkvs with
    | nil => rfl
    | cons q qt => exact absurd hsh (by simp)
  | cons d dt ih =>
    obtain ⟨k, v⟩ := d
    intro qkvs hnd hsh
    rw [List.map_cons, List.nodup_cons] at hnd
    cases qkvs with
    | nil => exact absurd hsh (by simp)
    | cons q qt =>
      obtain ⟨qk, qv⟩ := q
      rw [List.map_cons, List.map_cons, List.cons.injEq] at hsh
      obtain ⟨hk, hsh'⟩ := hsh
      have hk' : qk = k := hk
      show dt.foldl (fun acc (kv : PyStr × PyStr) => updateA acc kv.1 kv.2)
          (updateA ((qk, qv) :: qt) k v) = _
      rw [show updateA ((qk, qv) :: qt) k v
          = if qk = k then (qk, v) :: qt else (qk, qv) :: updateA qt k v from rfl, if_pos hk']
      have hne : ∀ kv ∈ dt, kv.1 ≠ qk := by
        intro kv hkv he
        have hm : kv.1 ∈ dt.map Prod.fst := List.mem_map_of_mem Prod.fst hkv
        rw [he, hk'] at hm
        exact hnd.1 hm
      rw [foldUpd_cons_ne dt qk v qt hne, ih qt hnd.2 hsh', hk']

/-- `mergeSec` on a section name different from a head entry passes the head
through. -/
theorem mergeSec_cons_ne {ds s : PyStr} (h : ds ≠ s) (x : RawSec) (qt : ParserModel)
    (kvs : RawSec) :
    mergeSec ((ds, x) :: qt) s kvs = (ds, x) :: mergeSec qt s kvs := by
  unfold mergeSec
  rw [show lookupA ((ds, x) :: qt) s = if ds = s then some x else lookupA qt s from rfl,
    if_neg h]
  cases hq : lookupA qt s with
  | none => rfl
  | some old =>
    show updateA ((ds, x) :: qt) s _ = _
    rw [show updateA ((ds, x) :: qt) s (kvs.foldl
        (fun acc (kv : PyStr × PyStr) => updateA acc kv.1 kv.2) old)
      = if ds = s then (ds, kvs.foldl
          (fun acc (kv : PyStr × PyStr) => updateA acc kv.1 kv.2) old) :: qt
        else (ds, x) :: updateA qt s (kvs.foldl
          (fun acc (kv : PyStr × PyStr) => updateA acc kv.1 kv.2) old) from rfl, if_neg h]

/-- `read_file` of sections none of which is named `ds` passes a `(ds, x)`
head of the parser state through. -/
theorem mergeRead_cons_notin : ∀ (rest : ParserModel) (ds : PyStr) (x : RawSec)
    (qt : ParserModel), (∀ skvs ∈ rest, skvs.1 ≠ ds) →
    mergeRead ((ds, x) :: qt) rest = (ds, x) :: mergeRead qt rest := by
  intro rest
  induction rest with
  | nil => intro ds x qt _; rfl
  | cons a r2 ih =>
    obtain ⟨s, kvs⟩ := a
    intro ds x qt hne
    have hs : s ≠ ds := hne (s, kvs) (List.mem_cons_self _ _)
    have hds : ds ≠ s := fun h => hs h.symm
    show mergeRead (mergeSec ((ds, x) :: qt) s kvs) r2 = _
    rw [mergeSec_cons_ne hds x qt kvs,
      ih ds x (mergeSec qt s kvs) fun skvs hskvs => hne skvs (List.mem_cons_of_mem _ hskvs)]
    rfl

/-- `read_file` into a parser state disjoint from the file appends the file's
sections. -/
theorem mergeRead_fresh : ∀ (disk acc : ParserModel),
    ((disk.map Prod.fst).Nodup) → (∀ skvs ∈ disk, lookupA acc skvs.1 = Option.none) →
    mergeRead acc disk = acc ++ disk := by
  intro disk
  induction disk with
  | nil => intro acc _ _; exact (List.append_nil acc).symm
  | cons a rest ih =>
    obtain ⟨ds, dkvs⟩ := a
    intro acc hnd hdisj
    rw [List.map_cons, List.nodup_cons] at hnd
    have hacc : lookupA acc ds = Option.none := hdisj (ds, dkvs) (List.mem_cons_self _ _)
    show mergeRead (mergeSec acc ds dkvs) rest = _
    unfold mergeSec
    rw [hacc]
    have hdisj' : ∀ skvs ∈ rest, lookupA (acc ++ [(ds, dkvs)]) skvs.1 = Option.none := by
      intro skvs hskvs
      have h1 : lookupA acc skvs.1 = Option.none := hdisj skvs (List.mem_cons_of_mem _ hskvs)
      have h2 : ds ≠ skvs.1 := by
        intro he
        have hm : skvs.1 ∈ rest.map Prod.fst := List.mem_map_of_mem Prod.fst hskvs
        rw [← he] at hm
        exact hnd.1 hm
      have h3 : lookupA [(ds, dkvs)] skvs.1 = Option.none := by
        rw [show lookupA [(ds, dkvs)] skvs.1
            = if ds = skvs.1 then some dkvs else lookupA ([] : ParserModel) skvs.1 from rfl,
          if_neg h2]
        rfl
      rw [lookupA_append, h1, h3]
    rw [ih (acc ++ [(ds, dkvs)]) hnd.2 hdisj', List.append_assoc]
    rfl

/-- `read()` on a fresh parser reproduces exactly the (wellformed) on-disk
contents. -/
theorem mergeRead_nil (disk : ParserModel) (hwf : wfParser disk = true) :
    mergeRead [] disk = disk := by
  unfold wfParser at hwf
  rw [Bool.and_eq_true] at hwf
  exact mergeRead_fresh disk [] (of_decide_eq_true hwf.1) (fun _ _ => rfl)

/-- In-place update at a present key keeps an association list's key
sequence. -/
theorem updateA_map_fst {β : Type} : ∀ (l : List (PyStr × β)) (key : PyStr) (v u : β),
    lookupA l key = some u → (updateA l key v).map Prod.fst = l.map Prod.fst := by
  intro l
  induction l with
  | nil => intro key v u h; exact Option.noConfusion h
  | cons a t ih =>
    obtain ⟨ak, av⟩ := a
    intro key v u h
    rw [show lookupA ((ak, av) :: t) key
        = if ak = key then some av else lookupA t key from rfl] at h
    show ((if ak = key then (ak, v) :: t else (ak, av) :: updateA t key v).map Prod.fst) = _
    by_cases hc : ak = key
    · rw [if_pos hc]
      rfl
    · rw [if_neg hc] at h ⊢
      rw [List.map_cons, List.map_cons, ih key v u h]

/-- Overwriting the value of one present key relates the new parser state to
the old one shape-for-shape: same section names, same key sequences. -/
theorem updateA_shape : ∀ (disk : ParserModel) (sec : PyStr) (newsec ddkvs : RawSec),
    lookupA disk sec = some ddkvs → newsec.map Prod.fst = ddkvs.map Prod.fst →
    List.Forall₂ (fun (a b : PyStr × RawSec) =>
        a.1 = b.1 ∧ a.2.map Prod.fst = b.2.map Prod.fst)
      (updateA disk sec newsec) disk := by
  intro disk
  induction disk with
  | nil => intro sec newsec ddkvs h _; exact Option.noConfusion h
  | cons a t ih =>
    obtain ⟨ak, av⟩ := a
    intro sec newsec ddkvs h hsh
    rw [show lookupA ((ak, av) :: t) sec
        = if ak = sec then some av else lookupA t sec from rfl] at h
    show List.Forall₂ _ (if ak = sec then (ak, newsec) :: t else (ak, av) :: updateA t sec newsec) _
    by_cases hc : ak = sec
    · rw [if_pos hc] at h ⊢
      have hav : av = ddkvs := by injection h
      refine List.Forall₂.cons ⟨rfl, ?_⟩ ?_
      · rw [hsh, hav]
      · exact List.forall₂_same.mpr fun x _ => ⟨rfl, rfl⟩
    · rw [if_neg hc] at h ⊢
      exact List.Forall₂.cons ⟨rfl, rfl⟩ (ih sec newsec ddkvs h hsh)

/-- Re-reading a wellformed file over a parser state of the same shape (same
section names in order, same key sequences per section) restores exactly the
file's contents: every key the state holds is overwritten by the file's
binding. -/
theorem mergeRead_overwrite : ∀ (disk q : ParserModel), wfParser disk = true →
    List.Forall₂ (fun (a b : PyStr × RawSec) =>
        a.1 = b.1 ∧ a.2.map Prod.fst = b.2.map Prod.fst) q disk →
    mergeRead q disk = disk := by
  intro disk
  induction disk with
  | nil =>
    intro q _ hf
    cases hf
    rfl
  | cons b rest ih =>
    obtain ⟨ds, dkvs⟩ := b
    intro q hwf hf
    cases hf with
    | cons hab hf' =>
      rename_i a qt
      obtain ⟨qs, qkvs⟩ := a
      obtain ⟨h1, h2⟩ := hab
      have hqs : qs = ds := h1
      unfold wfParser at hwf
      rw [Bool.and_eq_true, List.all_cons, Bool.and_eq_true] at hwf
      obtain ⟨hnd, hdk, hall⟩ := hwf
      rw [List.map_cons] at hnd
      have hnd' := of_decide_eq_true hnd
      rw [List.nodup_cons] at hnd'
      have hwfrest : wfParser rest = true := by
        unfold wfParser
        rw [Bool.and_eq_true]
        exact ⟨decide_eq_true hnd'.2, hall⟩
      show mergeRead (mergeSec ((qs, qkvs) :: qt) ds dkvs) rest = _
      unfold mergeSec
      rw [show lookupA ((qs, qkvs) :: qt) ds
          = if qs = ds then some qkvs else lookupA qt ds from rfl, if_pos hqs]
      show mergeRead (updateA ((qs, qkvs) :: qt) ds
        (List.foldl (fun acc (kv : PyStr × PyStr) => updateA acc kv.1 kv.2) qkvs dkvs)) rest = _
      rw [foldUpd_eq_self dkvs qkvs (of_decide_eq_true hdk) h2]
      rw [show updateA ((qs, qkvs) :: qt) ds dkvs
          = if qs = ds then (qs, dkvs) :: qt else (qs, qkvs) :: updateA qt ds dkvs from rfl,
        if_pos hqs]
      have hne : ∀ skvs ∈ rest, skvs.1 ≠ qs := by
        intro skvs hskvs he
        have hm : skvs.1 ∈ rest.map Prod.fst := List.mem_map_of_mem Prod.fst hskvs
        rw [he, hqs] at hm
        exact hnd'.1 hm
      rw [mergeRead_cons_notin rest qs dkvs qt hne, ih qt hwfrest hf', hqs]

/-- What `parser.get` sees after `read_file` merges a (wellformed) file into
an existing parser state: keys present in the file win; everything else
falls back to the pre-merge state. -/
theorem psGet_mergeRead : ∀ (disk : ParserModel), wfParser disk = true →
    ∀ (q : ParserModel) (s n : PyStr),
      psGet (mergeRead q disk) s n
        = match lookupA disk s with
          | some dkvs =>
            match lookupA dkvs n with
            | some w => .ok w
            | Option.none =>
              match lookupA q s with
              | some kvs =>
                match lookupA kvs n with
                | some w₂ => .ok w₂
                | Option.none => .error (.noOption n s)
              | Option.none => .error (.noOption n s)
          | Option.none => psGet q s n := by
  intro disk
  induction disk with
  | nil =>
    intro _ q s n
    rfl
  | cons a rest ih =>
    obtain ⟨ds, dkvs⟩ := a
    intro hwf q s n
    have hwf' := hwf
    unfold wfParser at hwf'
    rw [Bool.and_eq_true, List.all_cons, Bool.and_eq_true] at hwf'
    obtain ⟨hnd, hdk, hall⟩ := hwf'
    rw [List.map_cons] at hnd
    have hnd' := of_decide_eq_true hnd
    rw [List.nodup_cons] at hnd'
    obtain ⟨hds, hndrest⟩ := hnd'
    have hdk' : (dkvs.map Prod.fst).Nodup := of_decide_eq_true hdk
    have hrest : wfParser rest = true := by
      unfold wfParser
      rw [Bool.and_eq_true]
      exact ⟨decide_eq_true hndrest, hall⟩
    show psGet (mergeRead (mergeSec q ds dkvs) rest) s n = _
    rw [ih hrest (mergeSec q ds dkvs) s n]
    by_cases hd : ds = s
    · subst hd
      have hrs : lookupA rest ds = Option.none := by
        cases hl : lookupA rest ds with
        | none => rfl
        | some w => exact absurd (lookupA_mem hl) hds
      have hcons : lookupA ((ds, dkvs) :: rest) ds = some dkvs := by
        rw [show lookupA ((ds, dkvs) :: rest) ds
            = if ds = ds then some dkvs else lookupA rest ds from rfl, if_pos rfl]
      rw [hrs, hcons]
      show psGet (mergeSec q ds dkvs) ds n = _
      unfold mergeSec
      cases hq : lookupA q ds with
      | none =>
        have h1 : lookupA [(ds, dkvs)] ds = some dkvs := by
          rw [show lookupA [(ds, dkvs)] ds
              = if ds = ds then some dkvs else lookupA ([] : ParserModel) ds from rfl,
            if_pos rfl]
        rw [psGet_eq, lookupA_append, hq, h1]
      | some old =>
        rw [psGet_eq, lookupA_updateA, if_pos rfl]
        show (match lookupA (dkvs.foldl
            (fun acc (kv : PyStr × PyStr) => updateA acc kv.1 kv.2) old) n with
          | some raw => Except.ok raw
          | Option.none => Except.error (PyErr.noOption n ds)) = _
        rw [lookupA_foldUpd dkvs hdk' old n]
        show (match (match lookupA dkvs n with
            | some w => some w
            | Option.none => lookupA old n) with
          | some raw => Except.ok raw
          | Option.none => Except.error (PyErr.noOption n ds))
          = (match lookupA dkvs n with
            | some w => Except.ok w
            | Option.none =>
              match lookupA old n with
              | some w₂ => Except.ok w₂
              | Option.none => Except.error (PyErr.noOption n ds))
        cases hdn : lookupA dkvs n with
        | some w => rfl
        | none => rfl
    · have hcons : lookupA ((ds, dkvs) :: rest) s = lookupA rest s := by
        rw [show lookupA ((ds, dkvs) :: rest) s
            = if ds = s then some dkvs else lookupA rest s from rfl, if_neg hd]
      rw [hcons, lookupA_mergeSec_ne dkvs hd, psGet_mergeSec_ne dkvs hd]

/-- A schema that declares only concrete options (no `OptionCollection`). -/
def schemaSimple (schema : Schema) : Bool :=
  schema.all fun s => s.2.all fun d =>
    match d with
    | .simple _ => true
    | .collection _ => false

/-- Registering concrete options never consults the parser, so a
collection-free section builds identically over any parser state. -/
theorem buildSection_indep (p p₂ : ParserModel) (secName : PyStr) (defs : List OptDef)
    (hall : (defs.all fun d =>
      match d with
      | .simple _ => true
      | .collection _ => false) = true) :
    buildSection p secName defs = buildSection p₂ secName defs := by
  suffices h : ∀ (ds : List OptDef), (ds.all fun d =>
      match d with
      | .simple _ => true
      | .collection _ => false) = true →
      ∀ os, ds.foldlM (registerOption p secName) os = ds.foldlM (registerOption p₂ secName) os by
    exact h defs hall []
  intro ds
  induction ds with
  | nil =>
    intro _ os
    rfl
  | cons d rest ih =>
    intro hall₂ os
    rw [List.all_cons, Bool.and_eq_true] at hall₂
    obtain ⟨hd, hrest⟩ := hall₂
    cases d with
    | collection maker => exact absurd hd (by simp)
    | simple sd =>
      rw [List.foldlM_cons, List.foldlM_cons]
      show (registerSimple secName os sd) >>= _ = (registerSimple secName os sd) >>= _
      cases hr : registerSimple secName os sd with
      | error e => rfl
      | ok os₂ => exact ih hrest os₂

/-- A collection-free schema builds identically over any parser state. -/
theorem buildSections_indep (p p₂ : ParserModel) (schema : Schema)
    (hs : schemaSimple schema = true) :
    buildSections p schema = buildSections p₂ schema := by
  suffices h : ∀ (sch : Schema), (sch.all fun s => s.2.all fun d =>
      match d with
      | .simple _ => true
      | .collection _ => false) = true →
      ∀ (acc : Sections), sch.foldlM (fun (secs : Sections) (sd : PyStr × List OptDef) =>
          if secs.any fun s => decide (s.1 = sd.1) then
            (.error (.duplicateSection sd.1) : Except PyErr Sections)
          else do
            let opts ← buildSection p sd.1 sd.2
            .ok (secs ++ [(sd.1, opts)])) acc
        = sch.foldlM (fun (secs : Sections) (sd : PyStr × List OptDef) =>
          if secs.any fun s => decide (s.1 = sd.1) then
            (.error (.duplicateSection sd.1) : Except PyErr Sections)
          else do
            let opts ← buildSection p₂ sd.1 sd.2
            .ok (secs ++ [(sd.1, opts)])) acc by
    exact h schema hs []
  intro sch
  induction sch with
  | nil =>
    intro _ acc
    rfl
  | cons sd rest ih =>
    intro hall acc
    rw [List.all_cons, Bool.and_eq_true] at hall
    obtain ⟨hd, hrest⟩ := hall
    rw [List.foldlM_cons, List.foldlM_cons]
    by_cases hdup : (acc.any fun s => decide (s.1 = sd.1)) = true
    · show (if acc.any fun s => decide (s.1 = sd.1) then _ else _) >>= _
        = (if acc.any fun s => decide (s.1 = sd.1) then _ else _) >>= _
      rw [if_pos hdup, if_pos hdup]
      rfl
    · show (if acc.any fun s => decide (s.1 = sd.1) then _ else _) >>= _
        = (if acc.any fun s => decide (s.1 = sd.1) then _ else _) >>= _
      rw [if_neg hdup, if_neg hdup, buildSection_indep p p₂ sd.1 sd.2 hd]
      cases hb : buildSection p₂ sd.1 sd.2 with
      | error e => rfl
      | ok opts => exact ih hrest (acc ++ [(sd.1, opts)])

theorem optParse_congr {p p₂ : ParserModel} (hpt : ∀ s n, psGet p s n = psGet p₂ s n)
    (secName : PyStr) (o : OptSt) : optParse p secName o = optParse p₂ secName o := by
  obtain ⟨sd, val⟩ := o
  cases sd with
  | derived dn refs f => rfl
  | basic n k req =>
    show (optParseCore (kFromStr k) (kEmptyTokens k) (kEmptyVal k) req n secName p).map _
      = (optParseCore (kFromStr k) (kEmptyTokens k) (kEmptyVal k) req n secName p₂).map _
    unfold optParseCore
    rw [hpt secName n]

theorem parseSections_congr {p p₂ : ParserModel} (hpt : ∀ s n, psGet p s n = psGet p₂ s n) :
    ∀ secs, parseSections p secs = parseSections p₂ secs := by
  have hopts : ∀ (secName : PyStr) (opts : List OptSt),
      opts.mapM (optParse p secName) = opts.mapM (optParse p₂ secName) := by
    intro secName opts
    induction opts with
    | nil => rfl
    | cons o rest ih => rw [List.mapM_cons, List.mapM_cons, optParse_congr hpt, ih]
  intro secs
  unfold parseSections
  induction secs with
  | nil => rfl
  | cons s rest ih => rw [List.mapM_cons, List.mapM_cons, hopts s.1 s.2, ih]

/-- If a section key is absent from the (wellformed) file, it is absent from
the parser state a fresh read of that file produces. -/
theorem lookupA_readFresh_none {disk : ParserModel} (hwf : wfParser disk = true)
    {s n : PyStr} {dkvs kvs : RawSec}
    (hds : lookupA disk s = some dkvs) (hdn : lookupA dkvs n = Option.none)
    (hp0 : lookupA (mergeRead [] disk) s = some kvs) :
    lookupA kvs n = Option.none := by
  cases h00 : lookupA kvs n with
  | none => rfl
  | some wx =>
    have hmL : psGet (mergeRead [] disk) s n = Except.ok wx := by
      rw [psGet_eq, hp0]
      show (match lookupA kvs n with
        | some raw => Except.ok raw
        | Option.none => Except.error (PyErr.noOption n s)) = _
      rw [h00]
    have hm := psGet_mergeRead disk hwf [] s n
    rw [hmL, hds] at hm
    have hm₂ : (Except.ok wx : Except PyErr PyStr)
        = (match lookupA dkvs n with
           | some w => Except.ok w
           | Option.none =>
             match lookupA ([] : ParserModel) s with
             | some kvs₂ =>
               match lookupA kvs₂ n with
               | some w₂ => Except.ok w₂
               | Option.none => Except.error (PyErr.noOption n s)
             | Option.none => Except.error (PyErr.noOption n s)) := hm
    rw [hdn] at hm₂
    exact Except.noConfusion
      (show (Except.ok wx : Except PyErr PyStr) = Except.error (PyErr.noOption n s) from hm₂)

/-- A successful `ConfigFile.set` on a persisted option stages exactly one
key of one section of the parser, leaving the rest of the parser state
untouched. -/
theorem cfgSet_ok_staged {st st₂ : CfgSt} {sec opt : PyStr} {v : PyVal}
    (h : cfgSet false st sec opt v = .ok st₂) :
    ∃ (dkvs : RawSec) (w : PyStr),
      lookupA st.parser sec = some dkvs ∧
      st₂.parser = updateA st.parser sec (updateA dkvs opt w) := by
  unfold cfgSet at h
  rw [if_neg (by simp)] at h
  cases hsec : lookupA st.sections sec with
  | none =>
    rw [hsec] at h
    exact Except.noConfusion h
  | some opts =>
    rw [hsec] at h
    have h₁ : (match opts.find? (fun o => decide (o.sdef.name = opt)) with
      | Option.none => (Except.error (PyErr.noOption opt sec) : Except PyErr CfgSt)
      | some o => do
        let o' ← onSet sec o v
        let secs' : List (PyStr × List OptSt) := updateA st.sections sec (updateOpt opts opt o')
        match o'.sdef with
        | SimpleDef.derived dn refs func => Except.ok ⟨st.parser, secs'⟩
        | SimpleDef.basic n k required => do
          let raw ← kToStr k o'.value
          match raw with
          | PyVal.str s => do
            let p₂ ← psSet st.parser sec n s
            Except.ok ⟨p₂, secs'⟩
          | _ => Except.error (PyErr.typeErrorMsg "option values must be strings".data))
        = Except.ok st₂ := h
    cases hfind : opts.find? (fun o => decide (o.sdef.name = opt)) with
    | none =>
      rw [hfind] at h₁
      exact Except.noConfusion h₁
    | some o =>
      rw [hfind] at h₁
      have hp := List.find?_some hfind
      simp only [decide_eq_true_eq] at hp
      have hname : o.sdef.name = opt := hp
      obtain ⟨sd, val⟩ := o
      cases sd with
      | derived dn refs f => exact Except.noConfusion h₁
      | basic n k r =>
        have hn : n = opt := hname
        subst hn
        have h₂ : (do
            let raw ← kToStr k v
            match raw with
            | PyVal.str s => do
              let p₂ ← psSet st.parser sec n s
              (.ok ⟨p₂, updateA st.sections sec
                (updateOpt opts n ⟨SimpleDef.basic n k r, v⟩)⟩ : Except PyErr CfgSt)
            | _ => .error (.typeErrorMsg "option values must be strings".data)) = .ok st₂ := h₁
        cases hk : kToStr k v with
        | error e =>
          rw [hk] at h₂
          exact Except.noConfusion h₂
        | ok raw =>
          rw [hk] at h₂
          cases raw with
          | str sraw =>
            have h₃ : (do
                let p₂ ← psSet st.parser sec n sraw
                (.ok ⟨p₂, updateA st.sections sec
                  (updateOpt opts n ⟨SimpleDef.basic n k r, v⟩)⟩ : Except PyErr CfgSt))
                = .ok st₂ := h₂
            cases hps : psSet st.parser sec n sraw with
            | error e =>
              rw [hps] at h₃
              exact Except.noConfusion h₃
            | ok p₂ =>
              rw [hps] at h₃
              have h₄ : (Except.ok (⟨p₂, updateA st.sections sec
                  (updateOpt opts n ⟨SimpleDef.basic n k r, v⟩)⟩ : CfgSt)
                  : Except PyErr CfgSt) = .ok st₂ := h₃
              injection h₄ with h₄
              unfold psSet at hps
              cases hlp : lookupA st.parser sec with
              | none =>
                rw [hlp] at hps
                exact Except.noConfusion hps
              | some dkvs =>
                rw [hlp] at hps
                injection hps with hps
                refine ⟨dkvs, sraw, rfl, ?_⟩
                rw [← h₄, hps]
          | none => exact Except.noConfusion h₂
          | bool b => exact Except.noConfusion h₂
          | int i => exact Except.noConfusion h₂
          | float q => exact Except.noConfusion h₂
          | dec nd dd ed => exact Except.noConfusion h₂
          | list xs => exact Except.noConfusion h₂
          | range lo hi => exact Except.noConfusion h₂
          | datetime d => exact Except.noConfusion h₂
          | dict kvs => exact Except.noConfusion h₂

/-- Whether the on-disk file binds `key` in section `sec`. -/
def hasKeyOnDisk (disk : ParserModel) (sec key : PyStr) : Bool :=
  match lookupA disk sec with
  | some kvs => (lookupA kvs key).isSome
  | Option.none => false

/-- The value `parser.get` returns after a wellformed file is merged over
base state `q` (named form of `psGet_mergeRead`'s right-hand side). -/
def mergedGet (disk q : ParserModel) (s n : PyStr) : Except PyErr PyStr :=
  match lookupA disk s with
  | some dkvs =>
    match lookupA dkvs n with
    | some w => .ok w
    | Option.none =>
      match lookupA q s with
      | some kvs =>
        match lookupA kvs n with
        | some w₂ => .ok w₂
        | Option.none => .error (.noOption n s)
      | Option.none => .error (.noOption n s)
  | Option.none => psGet q s n

theorem psGet_mergeRead_eq (disk : ParserModel) (hwf : wfParser disk = true)
    (q : ParserModel) (s n : PyStr) :
    psGet (mergeRead q disk) s n = mergedGet disk q s n := by
  rw [psGet_mergeRead disk hwf q s n]
  rfl

/-- Staging one overwrite of a key that the file itself binds changes nothing
the merged parser returns: the file's binding wins either way. -/
theorem mergedGet_update_present {disk : ParserModel} {sec key dw : PyStr}
    {ddkvs : RawSec} (hdd : lookupA disk sec = some ddkvs)
    (hdw : lookupA ddkvs key = some dw)
    {p₀ : ParserModel} {dkvs₀ : RawSec} (hlp : lookupA p₀ sec = some dkvs₀)
    (w : PyStr) (s n : PyStr) :
    mergedGet disk (updateA p₀ sec (updateA dkvs₀ key w)) s n = mergedGet disk p₀ s n := by
  unfold mergedGet
  cases hds : lookupA disk s with
  | none =>
    show psGet (updateA p₀ sec (updateA dkvs₀ key w)) s n = psGet p₀ s n
    have hne : sec ≠ s := fun he => by
      rw [← he] at hds
      rw [hds] at hdd
      exact Option.noConfusion hdd
    rw [psGet_eq, psGet_eq, lookupA_updateA, if_neg hne]
  | some dkvs₂ =>
    show (match lookupA dkvs₂ n with
      | some w₂ => Except.ok w₂
      | Option.none =>
        match lookupA (updateA p₀ sec (updateA dkvs₀ key w)) s with
        | some kvs =>
          match lookupA kvs n with
          | some w₃ => Except.ok w₃
          | Option.none => Except.error (PyErr.noOption n s)
        | Option.none => Except.error (PyErr.noOption n s))
      = (match lookupA dkvs₂ n with
        | some w₂ => Except.ok w₂
        | Option.none =>
          match lookupA p₀ s with
          | some kvs =>
            match lookupA kvs n with
            | some w₃ => Except.ok w₃
            | Option.none => Except.error (PyErr.noOption n s)
          | Option.none => Except.error (PyErr.noOption n s))
    cases hdn : lookupA dkvs₂ n with
    | some w₂ => rfl
    | none =>
      by_cases hse : sec = s
      · subst hse
        have hd2 : ddkvs = dkvs₂ := by
          rw [hdd] at hds
          injection hds
        rw [hd2] at hdw
        have hno : key ≠ n := fun he => by
          rw [he] at hdw
          rw [hdn] at hdw
          exact Option.noConfusion hdw
        rw [lookupA_updateA, if_pos rfl, hlp]
        show (match lookupA (updateA dkvs₀ key w) n with
          | some w₃ => Except.ok w₃
          | Option.none => Except.error (PyErr.noOption n sec))
          = (match lookupA dkvs₀ n with
            | some w₃ => Except.ok w₃
            | Option.none => Except.error (PyErr.noOption n sec))
        rw [lookupA_updateA, if_neg hno]
      · rw [lookupA_updateA, if_neg hse]

/-- C6: after `set(section, option, v)` succeeds and `read()` runs again with
no intervening `save()`, the rebuilt sections coincide with those parsed from
the original on-disk contents alone, whenever the edited option's key is
present in the (wellformed) on-disk file: the re-read overwrites every staged
key the file binds, so the merged parser equals the disk contents exactly and
the rebuild — `OptionCollection`s included — runs from the same parser state
as a fresh read.  (For a key absent from disk the staged edit survives the
re-read: the parser is never cleared; see the counterexample.) -/
theorem C6_reread_after_set (schema : Schema) (disk : ParserModel) (sec key : PyStr)
    (v : PyVal) (st st₂ st₃ : CfgSt)
    (hwf : wfParser disk = true)
    (hkey : hasKeyOnDisk disk sec key = true)
    (h1 : readFresh schema disk = .ok st)
    (h2 : cfgSet false st sec key v = .ok st₂)
    (h3 : readCfg schema disk st₂ = .ok st₃) :
    st₃.sections = st.sections := by
  obtain ⟨ddkvs, hdd, hks⟩ : ∃ ddkvs, lookupA disk sec = some ddkvs ∧
      (lookupA ddkvs key).isSome = true := by
    unfold hasKeyOnDisk at hkey
    cases hdd : lookupA disk sec with
    | none =>
      rw [hdd] at hkey
      exact Bool.noConfusion hkey
    | some ddkvs =>
      rw [hdd] at hkey
      exact ⟨ddkvs, rfl, hkey⟩
  obtain ⟨dw, hdw⟩ : ∃ dw, lookupA ddkvs key = some dw := by
    cases hx : lookupA ddkvs key with
    | none =>
      rw [hx] at hks
      exact Bool.noConfusion hks
    | some dw => exact ⟨dw, rfl⟩
  have hnil : mergeRead [] disk = disk := mergeRead_nil disk hwf
  have h1a : (do
      let bsecs ← buildSections (mergeRead [] disk) schema
      let psecs ← parseSections (mergeRead [] disk) bsecs
      (.ok ⟨mergeRead [] disk, psecs⟩ : Except PyErr CfgSt)) = .ok st := h1
  rw [hnil] at h1a
  cases hbs : buildSections disk schema with
  | error e =>
    rw [hbs] at h1a
    exact Except.noConfusion h1a
  | ok bsecs =>
    rw [hbs] at h1a
    have h1b : (do
        let psecs ← parseSections disk bsecs
        (.ok ⟨disk, psecs⟩ : Except PyErr CfgSt)) = .ok st := h1a
    cases hps : parseSections disk bsecs with
    | error e =>
      rw [hps] at h1b
      exact Except.noConfusion h1b
    | ok psecs =>
      rw [hps] at h1b
      have h1c : (Except.ok (⟨disk, psecs⟩ : CfgSt) : Except PyErr CfgSt) = .ok st := h1b
      injection h1c with h1c
      have hstp : st.parser = disk := by rw [← h1c]
      have hsts : st.sections = psecs := by rw [← h1c]
      obtain ⟨dkvs₀, w, hlp, hp2⟩ := cfgSet_ok_staged h2
      rw [hstp] at hlp hp2
      have hdk0 : dkvs₀ = ddkvs := by
        rw [hlp] at hdd
        injection hdd with hdd
      have hdw₀ : lookupA dkvs₀ key = some dw := by
        rw [hdk0]
        exact hdw
      have hshape := updateA_shape disk sec (updateA dkvs₀ key w) dkvs₀ hlp
        (updateA_map_fst dkvs₀ key w dw hdw₀)
      have hover : mergeRead st₂.parser disk = disk := by
        rw [hp2]
        exact mergeRead_overwrite disk (updateA disk sec (updateA dkvs₀ key w)) hwf hshape
      have h3a : (do
          let bsecs₃ ← buildSections (mergeRead st₂.parser disk) schema
          let psecs₃ ← parseSections (mergeRead st₂.parser disk) bsecs₃
          (.ok ⟨mergeRead st₂.parser disk, psecs₃⟩ : Except PyErr CfgSt)) = .ok st₃ := h3
      rw [hover, hbs] at h3a
      have h3b : (do
          let psecs₃ ← parseSections disk bsecs
          (.ok ⟨disk, psecs₃⟩ : Except PyErr CfgSt)) = .ok st₃ := h3a
      rw [hps] at h3b
      have h3c : (Except.ok (⟨disk, psecs⟩ : CfgSt) : Except PyErr CfgSt) = .ok st₃ := h3b
      injection h3c with h3c
      rw [← h3c, hsts]

/-! ## Remaining claim-level helpers -/

theorem roundTrip_datetime {d : DTime} (h : d.valid) :
    roundTrip .datetimeO (.datetime d) = .ok (.datetime d) := by
  show dtFromStr (dtIsoformat d) = .ok (.datetime d)
  exact dtFromIso_roundtrip h

/-- The spec's description of a `DerivedOption` value access, written from
its words: resolve each reference in declared order (own section when none
is named, else a lookup that fails with NoSection), read each referenced
option's current value, and apply the computation function to the list. -/
def specDerivedValue (valueFn : PyStr → OptSt → Except PyErr PyVal) (secs : Sections)
    (selfSec : PyStr) (refs : List (Option PyStr × PyStr)) (f : List PyVal → PyVal) :
    Except PyErr PyVal :=
  (refs.mapM fun (r : Option PyStr × PyStr) =>
    (match lookupA secs (r.1.getD selfSec) with
    | Option.none => Except.error (PyErr.noSection (r.1.getD selfSec))
    | some opts =>
      match opts.find? fun (o : OptSt) => decide (o.sdef.name = r.2) with
      | Option.none => Except.error (PyErr.noOption r.2 (r.1.getD selfSec))
      | some o => valueFn (r.1.getD selfSec) o : Except PyErr PyVal)).map f

theorem getArgsAux_eq_mapM (valueFn : PyStr → OptSt → Except PyErr PyVal) (secs : Sections)
    (selfSec : PyStr) : ∀ refs : List (Option PyStr × PyStr),
    getArgsAux valueFn secs selfSec refs
      = refs.mapM fun (r : Option PyStr × PyStr) =>
          (match lookupA secs (r.1.getD selfSec) with
          | Option.none => Except.error (PyErr.noSection (r.1.getD selfSec))
          | some opts =>
            match opts.find? fun (o : OptSt) => decide (o.sdef.name = r.2) with
            | Option.none => Except.error (PyErr.noOption r.2 (r.1.getD selfSec))
            | some o => valueFn (r.1.getD selfSec) o : Except PyErr PyVal) := by
  intro refs
  induction refs with
  | nil => rfl
  | cons r rest ih =>
    obtain ⟨sref, oname⟩ := r
    rw [List.mapM_cons]
    show (match lookupA secs (sref.getD selfSec) with
      | Option.none => (.error (.noSection (sref.getD selfSec)) : Except PyErr (List PyVal))
      | some opts =>
        match opts.find? fun (o : OptSt) => decide (o.sdef.name = oname) with
        | Option.none => .error (.noOption oname (sref.getD selfSec))
        | some o => do
          let v ← valueFn (sref.getD selfSec) o
          let vs ← getArgsAux valueFn secs selfSec rest
          .ok (v :: vs))
      = (do
        let v ← (match lookupA secs (sref.getD selfSec) with
          | Option.none => Except.error (PyErr.noSection (sref.getD selfSec))
          | some opts =>
            match opts.find? fun (o : OptSt) => decide (o.sdef.name = oname) with
            | Option.none => Except.error (PyErr.noOption oname (sref.getD selfSec))
            | some o => valueFn (sref.getD selfSec) o : Except PyErr PyVal)
        let vs ← rest.mapM fun (r : Option PyStr × PyStr) =>
          (match lookupA secs (r.1.getD selfSec) with
          | Option.none => Except.error (PyErr.noSection (r.1.getD selfSec))
          | some opts =>
            match opts.find? fun (o : OptSt) => decide (o.sdef.name = r.2) with
            | Option.none => Except.error (PyErr.noOption r.2 (r.1.getD selfSec))
            | some o => valueFn (r.1.getD selfSec) o : Except PyErr PyVal)
        pure (v :: vs))
    cases hsec : lookupA secs (sref.getD selfSec) with
    | none => rfl
    | some opts =>
      show (match opts.find? fun (o : OptSt) => decide (o.sdef.name = oname) with
        | Option.none => (.error (.noOption oname (sref.getD selfSec)) : Except PyErr (List PyVal))
        | some o => do
          let v ← valueFn (sref.getD selfSec) o
          let vs ← getArgsAux valueFn secs selfSec rest
          .ok (v :: vs))
        = (do
          let v ← (match opts.find? fun (o : OptSt) => decide (o.sdef.name = oname) with
            | Option.none => Except.error (PyErr.noOption oname (sref.getD selfSec))
            | some o => valueFn (sref.getD selfSec) o : Except PyErr PyVal)
          let vs ← rest.mapM fun (r : Option PyStr × PyStr) =>
            (match lookupA secs (r.1.getD selfSec) with
            | Option.none => Except.error (PyErr.noSection (r.1.getD selfSec))
            | some opts₂ =>
              match opts₂.find? fun (o : OptSt) => decide (o.sdef.name = r.2) with
              | Option.none => Except.error (PyErr.noOption r.2 (r.1.getD selfSec))
              | some o => valueFn (r.1.getD selfSec) o : Except PyErr PyVal)
          pure (v :: vs))
      cases hfind : opts.find? fun (o : OptSt) => decide (o.sdef.name = oname) with
      | none => rfl
      | some o =>
        show (do
            let v ← valueFn (sref.getD selfSec) o
            let vs ← getArgsAux valueFn secs selfSec rest
            (.ok (v :: vs) : Except PyErr (List PyVal)))
          = (do
            let v ← valueFn (sref.getD selfSec) o
            let vs ← rest.mapM fun (r : Option PyStr × PyStr) =>
              (match lookupA secs (r.1.getD selfSec) with
              | Option.none => Except.error (PyErr.noSection (r.1.getD selfSec))
              | some opts₂ =>
                match opts₂.find? fun (o : OptSt) => decide (o.sdef.name = r.2) with
                | Option.none => Except.error (PyErr.noOption r.2 (r.1.getD selfSec))
                | some o => valueFn (r.1.getD selfSec) o : Except PyErr PyVal)
            pure (v :: vs))
        rw [ih]
        rfl

theorem initOpt_sdef (sd : SimpleDef) : (initOpt sd).sdef = sd := by
  cases sd with
  | basic n k r => rfl
  | derived n refs f => rfl

theorem hasOptNamed_append_one (opts : List OptSt) (x : OptSt) (key : PyStr) :
    hasOptNamed (opts ++ [x]) key = (hasOptNamed opts key || decide (x.sdef.name = key)) := by
  unfold hasOptNamed
  rw [List.any_append, List.any_cons, List.any_nil, Bool.or_false]

/-- The registration loop of `OptionCollection.on_register`: starting from
`opts`, it appends exactly one maker-built option per key of `kvs` not
already claimed, in order. -/
theorem collectionFold (secName : PyStr) (maker : PyStr → SimpleDef)
    (hmk : ∀ key, (maker key).name = key) :
    ∀ (kvs : RawSec) (opts : List OptSt), ((kvs.map Prod.fst).Nodup) →
      kvs.foldlM
        (fun os (kv : PyStr × PyStr) =>
          if hasOptNamed os kv.1 then .ok os else registerSimple secName os (maker kv.1))
        opts
      = .ok (opts ++ ((kvs.map Prod.fst).filter fun key => !(hasOptNamed opts key)).map
          fun key => initOpt (maker key)) := by
  intro kvs
  induction kvs with
  | nil =>
    intro opts _
    rw [List.map_nil, List.filter_nil, List.map_nil, List.append_nil]
    rfl
  | cons kv rest ih =>
    obtain ⟨k, val⟩ := kv
    intro opts hnd
    rw [List.map_cons, List.nodup_cons] at hnd
    obtain ⟨hk, hndrest⟩ := hnd
    rw [List.foldlM_cons]
    by_cases hc : hasOptNamed opts k = true
    · show (if hasOptNamed opts k then (.ok opts : Except PyErr (List OptSt))
        else registerSimple secName opts (maker k)) >>= _ = _
      rw [if_pos hc]
      show rest.foldlM _ opts = _
      rw [ih opts hndrest, List.map_cons]
      have hfilter : ((k :: rest.map Prod.fst).filter fun key => !(hasOptNamed opts key))
          = (rest.map Prod.fst).filter fun key => !(hasOptNamed opts key) := by
        rw [List.filter_cons]
        rw [if_neg (by rw [hc]; decide)]
      rw [hfilter]
    · show (if hasOptNamed opts k then (.ok opts : Except PyErr (List OptSt))
        else registerSimple secName opts (maker k)) >>= _ = _
      rw [if_neg hc]
      have hreg : registerSimple secName opts (maker k)
          = .ok (opts ++ [initOpt (maker k)]) := by
        unfold registerSimple
        rw [hmk k, if_neg hc]
      rw [hreg]
      show rest.foldlM _ (opts ++ [initOpt (maker k)]) = _
      rw [ih (opts ++ [initOpt (maker k)]) hndrest]
      have htrans : ((rest.map Prod.fst).filter fun key =>
            !(hasOptNamed (opts ++ [initOpt (maker k)]) key))
          = (rest.map Prod.fst).filter fun key => !(hasOptNamed opts key) := by
        apply List.filter_congr
        intro key hmem
        rw [hasOptNamed_append_one, initOpt_sdef, hmk k]
        have hne : ¬(k = key) := fun he => hk (he ▸ hmem)
        rw [decide_eq_false hne, Bool.or_false]
      have hcf : hasOptNamed opts k = false := Bool.eq_false_iff.mpr hc
      have hfst : ((k, val) : PyStr × PyStr).1 = k := rfl
      rw [htrans, List.map_cons, hfst, List.filter_cons, if_pos (by rw [hcf]; decide),
        List.map_cons]
      have hsplit : opts ++ initOpt (maker k) :: ((rest.map Prod.fst).filter
            fun key => !(hasOptNamed opts key)).map (fun key => initOpt (maker key))
          = (opts ++ [initOpt (maker k)]) ++ ((rest.map Prod.fst).filter
            fun key => !(hasOptNamed opts key)).map fun key => initOpt (maker key) := by
        rw [List.append_cons]
      rw [hsplit]

/-- Case-insensitive equality of strings as the spec describes the empty-token
match (spec-side definition for C4). -/
def ciEq (a b : PyStr) : Bool := pyLower a == pyLower b

/-- When every declared empty token is lowercase (as all the built-in tokens
are), the code's `val.lower() in tokens` is exactly a case-insensitive match
of `val` against the tokens. -/
theorem contains_lower_eq_ciEq (val : PyStr) :
    ∀ tokens : List PyStr, (∀ t ∈ tokens, pyLower t = t) →
      tokens.contains (pyLower val) = tokens.any fun t => ciEq val t := by
  intro tokens
  induction tokens with
  | nil =>
    intro _
    rfl
  | cons t ts ih =>
    intro hlow
    have ht : pyLower t = t := hlow t (by simp)
    have hts : ∀ x ∈ ts, pyLower x = x := fun x hx => hlow x (by simp [hx])
    rw [List.contains_cons, List.any_cons, ih hts]
    have hhead : (pyLower val == t) = ciEq val t := by
      unfold ciEq
      rw [ht]
    rw [hhead]

/-! ## Claim scenarios -/

/-- Build a config from disk contents, then `set` one option. -/
def setAfterRead (schema : Schema) (disk : ParserModel) (sec opt : PyStr) (v : PyVal) :
    Except PyErr CfgSt := do
  let st ← readFresh schema disk
  cfgSet false st sec opt v

/-- Build, `set`, then `read()` again with no `save()` (the file unchanged). -/
def setThenReread (schema : Schema) (disk : ParserModel) (sec opt : PyStr) (v : PyVal) :
    Except PyErr CfgSt := do
  let st ← readFresh schema disk
  let st₂ ← cfgSet false st sec opt v
  readCfg schema disk st₂

/-- The stored `value` of one option of a resulting config state. -/
def storedValue (r : Except PyErr CfgSt) (sec opt : PyStr) : Option PyVal :=
  match r with
  | .error _ => Option.none
  | .ok st =>
    match lookupA st.sections sec with
    | Option.none => Option.none
    | some opts => (opts.find? fun (o : OptSt) => decide (o.sdef.name = opt)).map
        fun o => o.value

def c1schema : Schema := [("Sec".data, [.simple (.basic "Integer".data .intO true)])]

def c1disk : ParserModel := [("Sec".data, [("Integer".data, "17".data)])]

def c5schema : Schema := [("Sec".data,
  [.simple (.basic "A".data .intO true),
   .simple (.derived "Hello".data [] fun _ => .str "hello!".data)])]

def c5disk : ParserModel := [("Sec".data, [("A".data, "3".data)])]

def c5st : CfgSt :=
  match readFresh c5schema c5disk with
  | .ok s => s
  | .error _ => ⟨[], []⟩

def c6xSchema : Schema := [("Sec".data, [.simple (.basic "Foo".data .intO false)])]

def c6xDisk : ParserModel := [("Sec".data, [])]

def c6wSchema : Schema := [("S".data, [.simple (.basic "K".data .intO false)])]

def c6wDisk : ParserModel := [("S".data, [("K".data, "1".data)])]

def c6wSt : CfgSt :=
  match readFresh c6wSchema c6wDisk with
  | .ok s => s
  | .error _ => ⟨[], []⟩

def c6wSt₂ : CfgSt :=
  match cfgSet false c6wSt "S".data "K".data (.int 7) with
  | .ok s => s
  | .error _ => ⟨[], []⟩

def c6wSt₃ : CfgSt :=
  match readCfg c6wSchema c6wDisk c6wSt₂ with
  | .ok s => s
  | .error _ => ⟨[], []⟩

/-! ## The claims -/

/-- C1: the declared-type check of `Option.on_set` never fires.  `on_set`
tests `self.__set_type__`, which remains `None` on every option class —
`options.py` assigns the unread attribute `__type__` instead — so `set`
accepts a value of any type: `t['Sec']['Integer'] = 'hi'` stores the string
where the spec (and the repository's own test suite) expects a type error. -/
theorem C1_set_type_check_never_fires :
    (∀ k : OptKind, kSetType k = Option.none) ∧
    (∀ k : OptKind, (kTypeAttr k).isSome = true) ∧
    (∀ (secName n : PyStr) (k : OptKind) (r : Bool) (w v : PyVal),
      onSet secName ⟨.basic n k r, w⟩ v = .ok ⟨.basic n k r, v⟩) ∧
    storedValue (setAfterRead c1schema c1disk "Sec".data "Integer".data (.str "hi".data))
      "Sec".data "Integer".data = some (.str "hi".data) := by
  refine ⟨fun k => rfl, fun k => by cases k <;> rfl, fun secName n k r w v => rfl, ?_⟩
  rfl

/-- C2 (amended): the round-trip law `from_str(to_str(v)) = v` holds for
every int of `IntOption`, every float of `FloatOption` (floats idealized as
exact decimal rationals: `decExtract` succeeds exactly on the values with a
finite decimal expansion of scale ≤ 1200, a superset of the IEEE-754
binary64 values), every canonical `Decimal` of `DecimalOption`, every bool
of `BoolOption`, every list of ints of `ListOption(item_type=int)`, every
range with nonnegative start and stop of a default `RangeOption`, every
valid naive datetime of `DateTimeOption`, and every JSON-serializable
`DictOption` value.  (It fails for the default `RangeOption` on a negative
start — see the counterexample.) -/
theorem C2_round_trips :
    (∀ n : Int, roundTrip .intO (.int n) = .ok (.int n)) ∧
    (∀ (q : ℚ) (neg : Bool) (cs : PyStr) (e : Int), decExtract q = some (neg, cs, e) →
      roundTrip .floatO (.float q) = .ok (.float q)) ∧
    (∀ (neg : Bool) (ds : List Nat) (e : Int), decCanon ds →
      roundTrip .decimalO (.dec neg ds e) = .ok (.dec neg ds e)) ∧
    (∀ b : Bool, roundTrip .boolO (.bool b) = .ok (.bool b)) ∧
    (∀ xs : List Int, roundTrip (.listO .i ", ".data) (.list (xs.map .int))
      = .ok (.list (xs.map .int))) ∧
    (∀ lo hi : Int, 0 ≤ lo → 0 ≤ hi →
      roundTrip (.rangeO ['-']) (.range lo hi) = .ok (.range lo hi)) ∧
    (∀ d : DTime, d.valid → roundTrip .datetimeO (.datetime d) = .ok (.datetime d)) ∧
    (∀ (v : PyVal) (out : PyStr), jsonDumps v = .ok out → roundTrip .dictO v = .ok v) :=
  ⟨roundTrip_int,
    fun _ _ _ _ h => roundTrip_float h,
    fun _ _ _ h => roundTrip_decimal h,
    roundTrip_bool, roundTrip_list_int,
    fun _ _ hlo hhi => roundTrip_range hlo hhi,
    fun _ hd => roundTrip_datetime hd,
    fun _ _ h => roundTrip_dict h⟩

/-- C2 counterexample: the default `RangeOption` (delimiter `'-'`) does not
round-trip `range(-1, 0)`: `to_str` gives `"-1-0"`, whose split on `'-'` has
three pieces, so the `start, stop` unpacking in `from_str` raises
`ValueError`. -/
theorem C2_negative_range_fails :
    roundTrip (.rangeO ['-']) (.range (-1) 0)
      = .error (.valueError "cannot unpack split into start, stop".data) := rfl

/-- C3: when the raw data of the option's section has no key for its name,
`Option.parse` raises `NoOptionError` for a required option and stores the
declared empty value for an optional one — in both cases without invoking
`from_str` (the conclusion does not depend on `fromS`). -/
theorem C3_absent_key (name secName : PyStr) (p : ParserModel) (kvs : RawSec)
    (hsec : lookupA p secName = some kvs) (habs : lookupA kvs name = Option.none)
    (fromS : PyStr → Except PyErr PyVal) (tokens : List PyStr) (emptyV : PyVal) :
    optParseCore fromS tokens emptyV true name secName p
        = .error (.noOption name secName) ∧
    optParseCore fromS tokens emptyV false name secName p = .ok emptyV := by
  have hget : psGet p secName name = .error (.noOption name secName) := by
    rw [psGet_eq, hsec]
    show (match lookupA kvs name with
      | some raw => Except.ok raw
      | Option.none => Except.error (PyErr.noOption name secName)) = _
    rw [habs]
  constructor
  · unfold optParseCore
    rw [hget]
    rfl
  · unfold optParseCore
    rw [hget]
    rfl

theorem C3_absent_key_witness :
    optParseCore intFromStr [[]] (.int 0) true "X".data "S".data [("S".data, [])]
        = .error (.noOption "X".data "S".data) ∧
    optParseCore intFromStr [[]] (.int 0) false "X".data "S".data [("S".data, [])]
        = .ok (.int 0) :=
  C3_absent_key "X".data "S".data [("S".data, [])] [] rfl rfl intFromStr [[]] (.int 0)

/-- C4: for a present raw string, `Option.parse` first normalizes (newlines
to spaces, strip); when every declared empty token is lowercase — true of
every built-in token — the empty-value branch fires exactly when the
normalized string matches a token case-insensitively, and otherwise the
value is `from_str` of the normalized string. -/
theorem C4_normalized_parse (fromS : PyStr → Except PyErr PyVal) (tokens : List PyStr)
    (emptyV : PyVal) (req : Bool) (name secName : PyStr) (p : ParserModel) (kvs : RawSec)
    (raw : PyStr)
    (hsec : lookupA p secName = some kvs) (hraw : lookupA kvs name = some raw)
    (hlow : ∀ t ∈ tokens, pyLower t = t) :
    optParseCore fromS tokens emptyV req name secName p
      = if tokens.any (fun t => ciEq (pyStrip (pyReplaceNL raw)) t) then .ok emptyV
        else fromS (pyStrip (pyReplaceNL raw)) := by
  have hget : psGet p secName name = .ok raw := by
    rw [psGet_eq, hsec]
    show (match lookupA kvs name with
      | some raw₂ => Except.ok raw₂
      | Option.none => Except.error (PyErr.noOption name secName)) = _
    rw [hraw]
  unfold optParseCore
  rw [hget]
  show (if tokens.contains (pyLower (pyStrip (pyReplaceNL raw))) then Except.ok emptyV
    else fromS (pyStrip (pyReplaceNL raw))) = _
  rw [contains_lower_eq_ciEq (pyStrip (pyReplaceNL raw)) tokens hlow]

theorem C4_witness :
    optParseCore strFromStr [[], "none".data, "null".data] PyVal.none false
        "X".data "S".data [("S".data, [("X".data, "NONE".data)])]
      = (if [[], "none".data, "null".data].any
            (fun t => ciEq (pyStrip (pyReplaceNL "NONE".data)) t) then .ok PyVal.none
         else strFromStr (pyStrip (pyReplaceNL "NONE".data))) :=
  C4_normalized_parse strFromStr [[], "none".data, "null".data] PyVal.none false
    "X".data "S".data [("S".data, [("X".data, "NONE".data)])] [("X".data, "NONE".data)]
    "NONE".data rfl rfl (by decide)

/-- C5 (amended): setting a `DerivedOption` — through the single mutation
gateway `ConfigFile.set`, which `Section.set` and item assignment delegate
to — always fails, but with a `ValueError`, not a type error as the spec
says; the gateway returns the error before any state is produced. -/
theorem C5_derived_set_fails (st : CfgSt) (secName optName : PyStr) (v : PyVal)
    (opts : List OptSt) (o : OptSt) (dn : PyStr)
    (refs : List (Option PyStr × PyStr)) (f : List PyVal → PyVal)
    (hsec : lookupA st.sections secName = some opts)
    (hfind : opts.find? (fun x => decide (x.sdef.name = optName)) = some o)
    (hsd : o.sdef = .derived dn refs f) :
    cfgSet false st secName optName v
        = .error (.valueError "Cannot set value on a DerivedOption".data) ∧
    PyErr.isTypeErr (.valueError "Cannot set value on a DerivedOption".data) = false := by
  refine ⟨?_, rfl⟩
  unfold cfgSet
  rw [if_neg (by simp), hsec]
  show (match opts.find? (fun x => decide (x.sdef.name = optName)) with
    | Option.none => (Except.error (PyErr.noOption optName secName) : Except PyErr CfgSt)
    | some o₂ => do
      let o' ← onSet secName o₂ v
      let secs' : List (PyStr × List OptSt) :=
        updateA st.sections secName (updateOpt opts optName o')
      match o'.sdef with
      | SimpleDef.derived dn₂ refs₂ func => Except.ok ⟨st.parser, secs'⟩
      | SimpleDef.basic n k required => do
        let raw ← kToStr k o'.value
        match raw with
        | PyVal.str s => do
          let p₂ ← psSet st.parser secName n s
          Except.ok ⟨p₂, secs'⟩
        | _ => Except.error (PyErr.typeErrorMsg "option values must be strings".data)) = _
  rw [hfind]
  have hons : onSet secName o v
      = .error (.valueError "Cannot set value on a DerivedOption".data) := by
    unfold onSet
    rw [hsd]
  show (do
    let o' ← onSet secName o v
    let secs' : List (PyStr × List OptSt) :=
      updateA st.sections secName (updateOpt opts optName o')
    match o'.sdef with
    | SimpleDef.derived dn₂ refs₂ func => (Except.ok ⟨st.parser, secs'⟩ : Except PyErr CfgSt)
    | SimpleDef.basic n k required => do
      let raw ← kToStr k o'.value
      match raw with
      | PyVal.str s => do
        let p₂ ← psSet st.parser secName n s
        Except.ok ⟨p₂, secs'⟩
      | _ => Except.error (PyErr.typeErrorMsg "option values must be strings".data)) = _
  rw [hons]
  rfl

theorem C5_witness :
    cfgSet false c5st "Sec".data "Hello".data (.str "bye".data)
        = .error (.valueError "Cannot set value on a DerivedOption".data) ∧
    PyErr.isTypeErr (.valueError "Cannot set value on a DerivedOption".data) = false :=
  C5_derived_set_fails c5st "Sec".data "Hello".data (.str "bye".data) _ _ _ _ _
    rfl rfl rfl

/-- C5 counterexample: the failure the model observes at a concrete input is
a `ValueError`, not the type error the claim asserts. -/
theorem C5_not_a_type_error :
    cfgSet false c5st "Sec".data "Hello".data (.int 3)
        = .error (.valueError "Cannot set value on a DerivedOption".data) ∧
    PyErr.isTypeErr (.valueError "Cannot set value on a DerivedOption".data) = false :=
  ⟨rfl, rfl⟩

theorem C6_witness :
    readFresh c6wSchema c6wDisk = .ok c6wSt ∧
    cfgSet false c6wSt "S".data "K".data (.int 7) = .ok c6wSt₂ ∧
    readCfg c6wSchema c6wDisk c6wSt₂ = .ok c6wSt₃ ∧
    c6wSt₃.sections = c6wSt.sections :=
  ⟨rfl, rfl, rfl,
    C6_reread_after_set c6wSchema c6wDisk "S".data "K".data (.int 7) c6wSt c6wSt₂ c6wSt₃
      (by decide) (by decide) rfl rfl rfl⟩

/-- C6 counterexample: an edit staged under a key the on-disk file does not
contain is *not* discarded by `read()`: the parser is merged into and never
cleared, so the re-read keeps the staged value (`5`), while parsing the disk
contents alone yields the declared empty value (`0`). -/
theorem C6_staged_key_survives :
    storedValue (setThenReread c6xSchema c6xDisk "Sec".data "Foo".data (.int 5))
        "Sec".data "Foo".data = some (.int 5) ∧
    storedValue (readFresh c6xSchema c6xDisk) "Sec".data "Foo".data = some (.int 0) :=
  ⟨rfl, rfl⟩

/-- C7: a `DerivedOption` value access resolves each reference in declared
order — the option's own section when the reference names none, otherwise a
config-level lookup that fails with `NoSection` — reads each referenced
option's current value and applies the computation function to the list
positionally; the access is a recomputation (the stored `value` slot is
never consulted). -/
theorem C7_derived_value (fuel : Nat) (secs : Sections) (selfSec : PyStr) (o : OptSt)
    (dn : PyStr) (refs : List (Option PyStr × PyStr)) (f : List PyVal → PyVal)
    (hsd : o.sdef = .derived dn refs f) :
    optValue (fuel + 1) secs selfSec o
      = specDerivedValue (optValue fuel secs) secs selfSec refs f := by
  have h1 : optValue (fuel + 1) secs selfSec o
      = match o.sdef with
        | SimpleDef.basic n k r => (Except.ok o.value : Except PyErr PyVal)
        | SimpleDef.derived dn₂ refs₂ f₂ =>
          (getArgsAux (optValue fuel secs) secs selfSec refs₂).map f₂ := rfl
  rw [h1, hsd]
  show ((getArgsAux (optValue fuel secs) secs selfSec refs).map f) = _
  rw [getArgsAux_eq_mapM]
  rfl

theorem C7_witness :
    optValue 2 [("Sec".data, [⟨SimpleDef.basic "A".data .intO true, PyVal.int 3⟩])]
        "Sec".data
        ⟨SimpleDef.derived "D".data [(Option.none, "A".data)] (fun vs => PyVal.list vs),
          PyVal.none⟩
      = specDerivedValue
          (optValue 1 [("Sec".data, [⟨SimpleDef.basic "A".data .intO true, PyVal.int 3⟩])])
          [("Sec".data, [⟨SimpleDef.basic "A".data .intO true, PyVal.int 3⟩])]
          "Sec".data [(Option.none, "A".data)] (fun vs => PyVal.list vs) :=
  C7_derived_value 1 [("Sec".data, [⟨SimpleDef.basic "A".data .intO true, PyVal.int 3⟩])]
    "Sec".data
    ⟨SimpleDef.derived "D".data [(Option.none, "A".data)] (fun vs => PyVal.list vs),
      PyVal.none⟩
    "D".data [(Option.none, "A".data)] (fun vs => PyVal.list vs) rfl

/-- C8: registering an `OptionCollection` into a section appends exactly one
maker-built option per raw key of that section's parsed data not already
claimed by a previously registered option, in the order the raw data yields
the keys; claimed keys add nothing, and the collection itself is never
stored (the result extends `opts` with maker options only). -/
theorem C8_collection_registers (p : ParserModel) (secName : PyStr) (opts : List OptSt)
    (maker : PyStr → SimpleDef) (kvs : RawSec)
    (hsec : lookupA p secName = some kvs)
    (hno : hasOptNamed opts [] = false)
    (hmk : ∀ key, (maker key).name = key)
    (hnd : (kvs.map Prod.fst).Nodup) :
    registerCollection p secName opts maker
      = .ok (opts ++ ((kvs.map Prod.fst).filter fun key => !(hasOptNamed opts key)).map
          fun key => initOpt (maker key)) := by
  unfold registerCollection
  rw [hno]
  simp only [Bool.false_eq_true, if_false]
  rw [hsec]
  show kvs.foldlM (fun os (kv : PyStr × PyStr) =>
      if hasOptNamed os kv.1 then .ok os else registerSimple secName os (maker kv.1)) opts = _
  exact collectionFold secName maker hmk kvs opts hnd

theorem C8_witness :
    registerCollection [("S".data, [("A".data, "1".data), ("B".data, "2".data)])] "S".data
        [initOpt (SimpleDef.basic "A".data .strO true)]
        (fun key => SimpleDef.basic key .intO true)
      = .ok ([initOpt (SimpleDef.basic "A".data .strO true)]
          ++ ((["A".data, "B".data].filter fun key =>
              !(hasOptNamed [initOpt (SimpleDef.basic "A".data .strO true)] key)).map
            fun key => initOpt (SimpleDef.basic key .intO true))) :=
  C8_collection_registers [("S".data, [("A".data, "1".data), ("B".data, "2".data)])]
    "S".data [initOpt (SimpleDef.basic "A".data .strO true)]
    (fun key => SimpleDef.basic key .intO true)
    [("A".data, "1".data), ("B".data, "2".data)] rfl rfl (fun key => rfl) (by decide)

/-- C9: immediately after construction — before any parse or set — an
option's stored value is the declared empty value `__empty__[1]`: `None` for
`StrOption`, `0` for `IntOption`, `0.0` for `FloatOption`, `False` for
`BoolOption`. -/
theorem C9_initial_value :
    (∀ (n : PyStr) (k : OptKind) (r : Bool), (initOpt (.basic n k r)).value = kEmptyVal k) ∧
    kEmptyVal .strO = PyVal.none ∧ kEmptyVal .intO = .int 0 ∧
    kEmptyVal .floatO = .float 0 ∧ kEmptyVal .boolO = .bool false :=
  ⟨fun _ _ _ => rfl, rfl, rfl, rfl, rfl⟩

/-- C10: the empty-token test lowercases the normalized raw string but
compares the declared tokens verbatim, so a token containing an ASCII
uppercase letter can never match: with only such tokens declared, parsing a
present key always falls through to `from_str`. -/
theorem C10_uppercase_token_dead (fromS : PyStr → Except PyErr PyVal)
    (tokens : List PyStr) (emptyV : PyVal) (req : Bool) (name secName : PyStr)
    (p : ParserModel) (kvs : RawSec) (raw : PyStr)
    (hsec : lookupA p secName = some kvs) (hraw : lookupA kvs name = some raw)
    (hup : ∀ t ∈ tokens, t.any isAsciiUpper = true) :
    optParseCore fromS tokens emptyV req name secName p
      = fromS (pyStrip (pyReplaceNL raw)) := by
  have hget : psGet p secName name = .ok raw := by
    rw [psGet_eq, hsec]
    show (match lookupA kvs name with
      | some raw₂ => Except.ok raw₂
      | Option.none => Except.error (PyErr.noOption name secName)) = _
    rw [hraw]
  unfold optParseCore
  rw [hget]
  show (if tokens.contains (pyLower (pyStrip (pyReplaceNL raw))) then Except.ok emptyV
    else fromS (pyStrip (pyReplaceNL raw))) = _
  have hc : tokens.contains (pyLower (pyStrip (pyReplaceNL raw))) = false := by
    cases hcc : tokens.contains (pyLower (pyStrip (pyReplaceNL raw))) with
    | false => rfl
    | true =>
      have hmem : pyLower (pyStrip (pyReplaceNL raw)) ∈ tokens :=
        List.mem_of_elem_eq_true hcc
      exact absurd rfl (pyLower_ne_of_hasUpper (hup _ hmem) (pyStrip (pyReplaceNL raw)))
  rw [hc]
  simp only [Bool.false_eq_true, if_false]

theorem C10_witness :
    optParseCore strFromStr ["None".data] PyVal.none false "X".data "S".data
        [("S".data, [("X".data, "None".data)])]
      = strFromStr (pyStrip (pyReplaceNL "None".data)) :=
  C10_uppercase_token_dead strFromStr ["None".data] PyVal.none false "X".data "S".data
    [("S".data, [("X".data, "None".data)])] [("X".data, "None".data)] "None".data
    rfl rfl (by decide)

end PyCfg
